import Mathlib

/-!
The package `digital_signatures` of crypty.

A shallow embedding of `digital_signatures/digital_signatures.go` and of the parts of the Go
standard library the six facade functions pass through to:

* `crypto/sha256` (FIPS 180-4),
* `math/big` (`SetBytes`, `FillBytes`, `Bytes`, `Exp`, `BitLen`),
* `crypto/internal/fips140/bigmod` and `crypto/internal/fips140/rsa` (key checks, the private
  and the public operation, the PKCS #1 v1.5 encoding),
* `crypto/rsa` (`Validate`, `Precompute`, `SignPKCS1v15`, `VerifyPKCS1v15`),
* `encoding/base64`, `encoding/pem` (RFC 7468),
* `encoding/asn1`, `golang.org/x/crypto/cryptobyte` (DER reading and writing),
* `crypto/elliptic` (the on-curve check of the four NIST curves),
* `crypto/x509` (`MarshalPKCS1PrivateKey`, `ParsePKCS1PrivateKey`, `MarshalPKIXPublicKey`,
  `ParsePKIXPublicKey`).

The standard library is the one of Go 1.24 and later, on a 64-bit platform, with the default
settings of GODEBUG and the FIPS 140 mode off.

Byte slices and strings are lists of bytes. `*big.Int` values are natural numbers where the
library only ever accepts or produces non-negative values, integers where a decoder can meet a
negative one. A Go `error` result is `Option Error` (`none` is `nil`); a `(value, error)` result
is `Except Error value`.
-/

/-- A Go `byte`. -/
abbrev Byte := Fin 256

/-- The bytes of an ASCII string constant. -/
def strBytes (s : String) : List Byte := s.toList.map (fun c => (Fin.ofNat c.toNat : Byte))

/-- Go `error` values. `new` is an error made by `errors.New` inside the facade, `lib` is an
error value handed back by the standard library. The two never compare equal in Go, whatever
their messages. -/
inductive Error where
  | new (msg : String)
  | lib (msg : String)
  deriving DecidableEq, Repr

deriving instance DecidableEq for Except

/-! ## crypto/sha256 -/

namespace sha256

def K : List Nat := [
  0x428a2f98, 0x71374491, 0xb5c0fbcf, 0xe9b5dba5, 0x3956c25b, 0x59f111f1, 0x923f82a4, 0xab1c5ed5,
  0xd807aa98, 0x12835b01, 0x243185be, 0x550c7dc3, 0x72be5d74, 0x80deb1fe, 0x9bdc06a7, 0xc19bf174,
  0xe49b69c1, 0xefbe4786, 0x0fc19dc6, 0x240ca1cc, 0x2de92c6f, 0x4a7484aa, 0x5cb0a9dc, 0x76f988da,
  0x983e5152, 0xa831c66d, 0xb00327c8, 0xbf597fc7, 0xc6e00bf3, 0xd5a79147, 0x06ca6351, 0x14292967,
  0x27b70a85, 0x2e1b2138, 0x4d2c6dfc, 0x53380d13, 0x650a7354, 0x766a0abb, 0x81c2c92e, 0x92722c85,
  0xa2bfe8a1, 0xa81a664b, 0xc24b8b70, 0xc76c51a3, 0xd192e819, 0xd6990624, 0xf40e3585, 0x106aa070,
  0x19a4c116, 0x1e376c08, 0x2748774c, 0x34b0bcb5, 0x391c0cb3, 0x4ed8aa4a, 0x5b9cca4f, 0x682e6ff3,
  0x748f82ee, 0x78a5636f, 0x84c87814, 0x8cc70208, 0x90befffa, 0xa4506ceb, 0xbef9a3f7, 0xc67178f2]

/-- Truncation to a `uint32`. -/
def w32 (x : Nat) : Nat := x % 2 ^ 32

/-- Rotate a `uint32` right by `n` bits (`bits.RotateLeft32(x, -n)`). -/
def rotr (x n : Nat) : Nat := (x >>> n) ||| w32 (x <<< (32 - n))

/-- Bitwise complement of a `uint32`. -/
def not32 (x : Nat) : Nat := 2 ^ 32 - 1 - x

/-- Message padding: the byte 0x80, zeros up to 56 mod 64, then the bit length as a
big-endian `uint64`. -/
def pad (data : List Byte) : List Byte :=
  let len := data.length
  let zeros := (55 + 64 - len % 64) % 64
  data ++ [(0x80 : Byte)] ++ List.replicate zeros (0 : Byte) ++
    (List.range 8).map (fun i => (Fin.ofNat ((len * 8) >>> (8 * (7 - i))) : Byte))

/-- Big-endian value of a byte string. -/
def beWord (bs : List Byte) : Nat := bs.foldl (fun acc b => acc * 256 + b.val) 0

/-- The sixteen big-endian words of a 64-byte chunk. -/
def chunkWords (chunk : List Byte) : List Nat :=
  (List.range 16).map (fun i => beWord ((chunk.drop (4 * i)).take 4))

/-- Message schedule, extended by `n` words; `rev` holds the words so far, newest first. -/
def schedule : Nat → List Nat → List Nat
  | 0, rev => rev
  | n + 1, rev =>
    let w2 := rev.getD 1 0
    let w7 := rev.getD 6 0
    let w15 := rev.getD 14 0
    let w16 := rev.getD 15 0
    let s0 := rotr w15 7 ^^^ rotr w15 18 ^^^ (w15 >>> 3)
    let s1 := rotr w2 17 ^^^ rotr w2 19 ^^^ (w2 >>> 10)
    schedule n (w32 (s1 + w7 + s0 + w16) :: rev)

/-- The eight working variables / chaining values. -/
structure Regs where
  a : Nat
  b : Nat
  c : Nat
  d : Nat
  e : Nat
  f : Nat
  g : Nat
  h : Nat

/-- One of the 64 rounds, with round constant `kw.1` and schedule word `kw.2`. -/
def round (r : Regs) (kw : Nat × Nat) : Regs :=
  let S1 := rotr r.e 6 ^^^ rotr r.e 11 ^^^ rotr r.e 25
  let ch := (r.e &&& r.f) ^^^ (not32 r.e &&& r.g)
  let t1 := r.h + S1 + ch + kw.1 + kw.2
  let S0 := rotr r.a 2 ^^^ rotr r.a 13 ^^^ rotr r.a 22
  let maj := (r.a &&& r.b) ^^^ (r.a &&& r.c) ^^^ (r.b &&& r.c)
  let t2 := S0 + maj
  { a := w32 (t1 + t2), b := r.a, c := r.b, d := r.c,
    e := w32 (r.d + t1), f := r.e, g := r.f, h := r.g }

/-- Compression of one 64-byte chunk into the chaining value. -/
def block (hs : Regs) (chunk : List Byte) : Regs :=
  let w := (schedule 48 (chunkWords chunk).reverse).reverse
  let r := (K.zip w).foldl round hs
  { a := w32 (hs.a + r.a), b := w32 (hs.b + r.b), c := w32 (hs.c + r.c), d := w32 (hs.d + r.d),
    e := w32 (hs.e + r.e), f := w32 (hs.f + r.f), g := w32 (hs.g + r.g), h := w32 (hs.h + r.h) }

/-- Compression of the first `n` chunks of `data`. -/
def blocks : Nat → Regs → List Byte → Regs
  | 0, hs, _ => hs
  | n + 1, hs, data => blocks n (block hs (data.take 64)) (data.drop 64)

/-- Big-endian bytes of a `uint32`. -/
def wordBytes (x : Nat) : List Byte :=
  [Fin.ofNat (x >>> 24), Fin.ofNat (x >>> 16), Fin.ofNat (x >>> 8), Fin.ofNat x]

/-- The function `sha256.Sum256`: the SHA-256 digest of `data`, 32 bytes. -/
def Sum256 (data : List Byte) : List Byte :=
  let p := pad data
  let r := blocks (p.length / 64) ⟨0x6a09e667, 0xbb67ae85, 0x3c6ef372, 0xa54ff53a,
    0x510e527f, 0x9b05688c, 0x1f83d9ab, 0x5be0cd19⟩ p
  wordBytes r.a ++ wordBytes r.b ++ wordBytes r.c ++ wordBytes r.d ++
    wordBytes r.e ++ wordBytes r.f ++ wordBytes r.g ++ wordBytes r.h

end sha256

/-! ## math/big -/

namespace big

/-- Bit counting loop of `BitLen`: one shift per step. -/
def bitLenLoop : Nat → Nat → Nat
  | 0, _ => 0
  | fuel + 1, n => if n = 0 then 0 else bitLenLoop fuel (n / 2) + 1

/-- The method `(*Int).BitLen`: the length of `n` in bits, 0 for 0. -/
def BitLen (n : Nat) : Nat := bitLenLoop n n

/-- The method `(*Int).SetBytes`: big-endian unsigned value of a byte slice. -/
def SetBytes (bs : List Byte) : Nat := bs.foldl (fun acc b => acc * 256 + b.val) 0

/-- The method `(*Int).FillBytes` into a buffer of `k` bytes: big-endian, zero-extended. Go
panics when the value does not fit; every call site below passes a value that fits, and the
model keeps the low `k` bytes. -/
def FillBytes : Nat → Nat → List Byte
  | 0, _ => []
  | k + 1, n => FillBytes k (n / 256) ++ [(Fin.ofNat n : Byte)]

/-- The method `(*Int).Bytes`: the big-endian bytes of `n` without leading zeros. -/
def Bytes (n : Nat) : List Byte := FillBytes ((BitLen n + 7) / 8) n

/-- Square-and-multiply loop of `Exp`: `acc * x ^ y mod m`, consuming one bit of `y` per
step. -/
def expLoop (m : Nat) : Nat → Nat → Nat → Nat → Nat
  | 0, _, _, acc => acc
  | fuel + 1, x, y, acc =>
    if y = 0 then acc
    else expLoop m fuel (x * x % m) (y / 2) (if y % 2 = 1 then acc * x % m else acc)

/-- The method `(*Int).Exp(x, y, m)` for a modulus `m`: `x ^ y mod m`. -/
def Exp (x y m : Nat) : Nat := expLoop m (BitLen y) (x % m) y (1 % m)

end big
/-! ## crypto/internal/fips140/bigmod

The constant-time naturals of the library, by their values. A `*bigmod.Modulus` is the number
it holds and a `*bigmod.Nat` is its value; limbs have 64 bits (`_W = 64`). -/

namespace bigmod

/-- The number of limbs of a modulus `m`: `len(m.nat.limbs)`. -/
def limbs (m : Nat) : Nat := (big.BitLen m + 63) / 64

/-- The method `(*Modulus).Size`: the length of `m` in bytes. -/
def Size (m : Nat) : Nat := (big.BitLen m + 7) / 8

/-- The function `NewModulus`: the modulus given by big-endian bytes, which must exceed 1. -/
def NewModulus (b : List Byte) : Except Error Nat :=
  let n := big.SetBytes b
  if n = 0 ∨ n = 1 then .error (.lib "modulus must be > 1") else .ok n

/-- The method `(*Nat).SetBytes(b, m)`: the value of `b`, which must fit the limbs of `m` and
be below `m`. -/
def SetBytes (b : List Byte) (m : Nat) : Except Error Nat :=
  if b.length > 8 * limbs m then .error (.lib "input overflows the modulus size")
  else if big.SetBytes b ≥ m then .error (.lib "input overflows the modulus")
  else .ok (big.SetBytes b)

/-- The method `(*Nat).Bytes(m)`: the value `x` in as many bytes as `m` has. -/
def Bytes (x m : Nat) : List Byte := big.FillBytes (Size m) x

end bigmod

/-! ## crypto/internal/fips140/rsa

The FIPS 140 mode of the module is off, as it is by default: the approved-mode bookkeeping and
the pairwise consistency test of `checkPrivateKey` do not run. -/

namespace fips140.rsa

/-- The type `PublicKey` of the module. -/
structure PublicKey where
  N : Nat
  E : Nat
  deriving DecidableEq, Repr

/-- The type `PrivateKey` of the module, for a key with two primes. The CRT exponents `dP` and
`dQ`, byte strings in the code, are the numbers they encode: the code uses them as exponents
and compares them with `p - 1` and `q - 1` only. -/
structure PrivateKey where
  pub : PublicKey
  d : Nat
  p : Nat
  q : Nat
  dP : Nat
  dQ : Nat
  qInv : Nat
  deriving DecidableEq, Repr

def ErrMessageTooLong : Error := .lib "crypto/rsa: message too long for RSA key size"

def ErrDecryption : Error := .lib "crypto/rsa: decryption error"

def ErrVerification : Error := .lib "crypto/rsa: verification error"

/-- The method `(*PublicKey).Size`: the modulus size in bytes. -/
def PublicKey.Size (pub : PublicKey) : Nat := (big.BitLen pub.N + 7) / 8

/-- The function `checkPublicKey`. -/
def checkPublicKey (pub : PublicKey) : Option Error :=
  if pub.N % 2 = 0 then some (.lib "crypto/rsa: public modulus is even")
  else if pub.E < 2 then some (.lib "crypto/rsa: public exponent too small or negative")
  else if pub.E % 2 = 0 then some (.lib "crypto/rsa: public exponent is even")
  else if pub.E > 2 ^ 31 - 1 then some (.lib "crypto/rsa: public exponent too large")
  else none

/-- The function `checkPrivateKey`: the public key is sound, `p * q ≡ 0 mod N` with both below
`N`, `e * dP ≡ 1 mod p - 1`, `e * dQ ≡ 1 mod q - 1`, `qInv * q ≡ 1 mod p`, the primes are not
close to each other, and `d` is not small. It does not test that `p` and `q` are prime, and it
does not relate `d` to `e`. -/
def checkPrivateKey (priv : PrivateKey) : Option Error :=
  match checkPublicKey priv.pub with
  | some err => some err
  | none =>
    let N := priv.pub.N
    let p := priv.p
    let q := priv.q
    match bigmod.SetBytes (bigmod.Bytes p p) N with
    | .error _ => some (.lib "crypto/rsa: invalid prime")
    | .ok pN =>
      match bigmod.SetBytes (bigmod.Bytes q q) N with
      | .error _ => some (.lib "crypto/rsa: invalid prime")
      | .ok qN =>
        if pN * qN % N ≠ 0 then some (.lib "crypto/rsa: p * q != n")
        else
          match bigmod.NewModulus (bigmod.Bytes (p - 1) p) with
          | .error _ => some (.lib "crypto/rsa: invalid prime")
          | .ok pMinus1 =>
            if priv.dP ≥ pMinus1 then some (.lib "crypto/rsa: invalid CRT exponent")
            else if priv.pub.E * priv.dP % pMinus1 ≠ 1 then
              some (.lib "crypto/rsa: invalid CRT exponent")
            else
              match bigmod.NewModulus (bigmod.Bytes (q - 1) q) with
              | .error _ => some (.lib "crypto/rsa: invalid prime")
              | .ok qMinus1 =>
                if priv.dQ ≥ qMinus1 then some (.lib "crypto/rsa: invalid CRT exponent")
                else if priv.pub.E * priv.dQ % qMinus1 ≠ 1 then
                  some (.lib "crypto/rsa: invalid CRT exponent")
                else if q % p * priv.qInv % p ≠ 1 then
                  some (.lib "crypto/rsa: invalid CRT coefficient")
                else if p = q then some (.lib "crypto/rsa: p == q")
                else
                  let diff := if p < q then q - p else p - q
                  if big.BitLen diff + 100 ≤ big.BitLen N / 2 then
                    some (.lib "crypto/rsa: |p - q| too small")
                  else if big.BitLen priv.d ≤ big.BitLen N / 2 then
                    some (.lib "crypto/rsa: d too small")
                  else none

/-- The function `newPrivateKey`: the CRT values are computed, `dP = d mod p - 1`,
`dQ = d mod q - 1` and `qInv = q ^ (p - 2) mod p`, and the key is checked. -/
def newPrivateKey (n e d p q : Nat) : Except Error PrivateKey :=
  match bigmod.NewModulus (bigmod.Bytes (p - 1) p) with
  | .error err => .error err
  | .ok pMinusOneMod =>
    let dP := d % pMinusOneMod
    match bigmod.NewModulus (bigmod.Bytes (q - 1) q) with
    | .error err => .error err
    | .ok qMinusOneMod =>
      let dQ := d % qMinusOneMod
      if p % 2 = 0 then .error (.lib "crypto/rsa: p is even")
      else
        let qInv := big.Exp (q % p) (p - 2) p
        let pk : PrivateKey :=
          ⟨⟨n, e⟩, d, p, q, dP, dQ, qInv⟩
        match checkPrivateKey pk with
        | some err => .error err
        | none => .ok pk

/-- The function `NewPrivateKey`. -/
def NewPrivateKey (N : List Byte) (e : Nat) (d P Q : List Byte) : Except Error PrivateKey :=
  match bigmod.NewModulus N with
  | .error err => .error err
  | .ok n =>
    match bigmod.NewModulus P with
    | .error err => .error err
    | .ok p =>
      match bigmod.NewModulus Q with
      | .error err => .error err
      | .ok q =>
        match bigmod.SetBytes d n with
        | .error err => .error err
        | .ok dN => newPrivateKey n e dN p q

/-- The function `NewPrivateKeyWithPrecomputation`: the CRT values are given and checked. -/
def NewPrivateKeyWithPrecomputation (N : List Byte) (e : Nat) (d P Q dP dQ qInv : List Byte) :
    Except Error PrivateKey :=
  match bigmod.NewModulus N with
  | .error err => .error err
  | .ok n =>
    match bigmod.NewModulus P with
    | .error err => .error err
    | .ok p =>
      match bigmod.NewModulus Q with
      | .error err => .error err
      | .ok q =>
        match bigmod.SetBytes d n with
        | .error err => .error err
        | .ok dN =>
          match bigmod.SetBytes qInv p with
          | .error err => .error err
          | .ok qInvNat =>
            let pk : PrivateKey :=
              ⟨⟨n, e⟩, dN, p, q, big.SetBytes dP, big.SetBytes dQ, qInvNat⟩
            match checkPrivateKey pk with
            | some err => .error err
            | none => .ok pk

/-- The function `encrypt`: the RSA public operation on a byte string, `m ^ E mod N` in as
many bytes as the modulus has. -/
def encrypt (pub : PublicKey) (plaintext : List Byte) : Except Error (List Byte) :=
  match bigmod.SetBytes plaintext pub.N with
  | .error err => .error err
  | .ok m => .ok (bigmod.Bytes (big.Exp m pub.E pub.N) pub.N)

/-- The function `decrypt`: the RSA private operation by the CRT, with the check that the
public operation gives the input back when `check` is set. -/
def decrypt (priv : PrivateKey) (ciphertext : List Byte) (check : Bool) :
    Except Error (List Byte) :=
  let N := priv.pub.N
  let E := priv.pub.E
  match bigmod.SetBytes ciphertext N with
  | .error _ => .error ErrDecryption
  | .ok c =>
    let P := priv.p
    let Q := priv.q
    let m := big.Exp (c % P) priv.dP P
    let m2 := big.Exp (c % Q) priv.dQ Q
    let m := (m + P - m2 % P) % P
    let m := m * priv.qInv % P
    let m := m * (Q % N) % N
    let m := (m + m2) % N
    if check ∧ big.Exp m E N ≠ c then .error ErrDecryption
    else .ok (bigmod.Bytes m N)

/-- The entry of `hashPrefixes` for "SHA-256": the DER prefix of a DigestInfo. -/
def sha256Prefix : List Byte :=
  [0x30, 0x31, 0x30, 0x0d, 0x06, 0x09, 0x60, 0x86, 0x48, 0x01, 0x65, 0x03, 0x04, 0x02, 0x01,
   0x05, 0x00, 0x04, 0x20]

/-- The buffer `em` of `pkcs1v15ConstructEM` after its loops:
`0x00 || 0x01 || PS || 0x00 || prefix || hashed` in `k` bytes. -/
def encodedMessage (k : Nat) (pre hashed : List Byte) : List Byte :=
  [(0 : Byte), 1] ++ List.replicate (k - (pre.length + hashed.length) - 3) (0xff : Byte) ++
    [(0 : Byte)] ++ pre ++ hashed

/-- The function `pkcs1v15ConstructEM` at the hash "SHA-256", the one the facade passes. -/
def pkcs1v15ConstructEM (pub : PublicKey) (hashed : List Byte) : Except Error (List Byte) :=
  let pre := sha256Prefix
  let k := pub.Size
  if k < pre.length + hashed.length + 2 + 8 + 1 then .error ErrMessageTooLong
  else .ok (encodedMessage k pre hashed)

/-- The function `SignPKCS1v15` of the module, at "SHA-256". -/
def SignPKCS1v15 (priv : PrivateKey) (hashed : List Byte) : Except Error (List Byte) :=
  match pkcs1v15ConstructEM priv.pub hashed with
  | .error err => .error err
  | .ok em => decrypt priv em true

/-- The function `VerifyPKCS1v15` of the module, at "SHA-256"; `none` is a nil error. -/
def VerifyPKCS1v15 (pub : PublicKey) (hashed sig : List Byte) : Option Error :=
  match checkPublicKey pub with
  | some err => some err
  | none =>
    if pub.Size ≠ sig.length then some ErrVerification
    else
      match encrypt pub sig with
      | .error _ => some ErrVerification
      | .ok em =>
        match pkcs1v15ConstructEM pub hashed with
        | .error _ => some ErrVerification
        | .ok expected => if em ≠ expected then some ErrVerification else none

end fips140.rsa

/-! ## crypto/rsa -/

namespace rsa

/-- The type `rsa.PublicKey`: modulus and public exponent. -/
structure PublicKey where
  N : Nat
  E : Nat
  deriving DecidableEq, Repr

/-- The type `rsa.PrecomputedValues` of a two-prime key: the exported CRT values, each nil
(`none`) or set. The unexported field `fips` caches the module's key made from the exported
fields; it is recomputed wherever the code reads it (`precompute`). -/
structure PrecomputedValues where
  Dp : Option Nat
  Dq : Option Nat
  Qinv : Option Nat
  deriving DecidableEq, Repr

/-- The type `rsa.PrivateKey` of a key with two primes, the kind `GenerateKey` makes: the
embedded public key, the private exponent, the factors `Primes[0]` and `Primes[1]`, and the
precomputed values. -/
structure PrivateKey where
  PublicKey : PublicKey
  D : Nat
  P : Nat
  Q : Nat
  Precomputed : PrecomputedValues
  deriving DecidableEq, Repr

def ErrMessageTooLong : Error := fips140.rsa.ErrMessageTooLong

def ErrDecryption : Error := fips140.rsa.ErrDecryption

def ErrVerification : Error := fips140.rsa.ErrVerification

/-- The method `(*PublicKey).Size`: the modulus size in bytes. -/
def PublicKey.Size (pub : PublicKey) : Nat := (big.BitLen pub.N + 7) / 8

/-- The function `checkKeySize`: keys of less than 1024 bits are refused (the setting
`rsa1024min` of GODEBUG has its default). -/
def checkKeySize (size : Nat) : Option Error :=
  if size ≥ 1024 then none
  else some (.lib ("crypto/rsa: " ++ toString size ++
    "-bit keys are insecure (see https://go.dev/pkg/crypto/rsa#hdr-Minimum_key_size)"))

/-- The function `checkPublicKeySize`. -/
def checkPublicKeySize (k : PublicKey) : Option Error := checkKeySize (big.BitLen k.N)

/-- The method `(*PrivateKey).precompute`: the precomputed values and the module's key. CRT
values that are all set are taken as they are and checked; otherwise they are computed. -/
def PrivateKey.precompute (priv : PrivateKey) :
    Except Error (PrecomputedValues × fips140.rsa.PrivateKey) :=
  match priv.Precomputed.Dp, priv.Precomputed.Dq, priv.Precomputed.Qinv with
  | some dp, some dq, some qinv =>
    match fips140.rsa.NewPrivateKeyWithPrecomputation (big.Bytes priv.PublicKey.N)
        priv.PublicKey.E (big.Bytes priv.D) (big.Bytes priv.P) (big.Bytes priv.Q)
        (big.Bytes dp) (big.Bytes dq) (big.Bytes qinv) with
    | .error err => .error err
    | .ok k => .ok (priv.Precomputed, k)
  | _, _, _ =>
    match fips140.rsa.NewPrivateKey (big.Bytes priv.PublicKey.N) priv.PublicKey.E
        (big.Bytes priv.D) (big.Bytes priv.P) (big.Bytes priv.Q) with
    | .error err => .error err
    | .ok k => .ok (⟨some k.dP, some k.dQ, some k.qInv⟩, k)

/-- The method `(*PrivateKey).Precompute`: the key with its precomputed values set; a key
that `precompute` refuses is left as it is. -/
def PrivateKey.Precompute (priv : PrivateKey) : PrivateKey :=
  match priv.precompute with
  | .error _ => priv
  | .ok (precomputed, _) => { priv with Precomputed := precomputed }

/-- The method `(*PrivateKey).Validate`; `none` is a nil error. -/
def PrivateKey.Validate (priv : PrivateKey) : Option Error :=
  match priv.precompute with
  | .error err => some err
  | .ok _ => none

/-- The function `fipsPrivateKey`. -/
def fipsPrivateKey (priv : PrivateKey) : Except Error fips140.rsa.PrivateKey :=
  match priv.precompute with
  | .error err => .error err
  | .ok (_, k) => .ok k

/-- The function `fipsPublicKey`. -/
def fipsPublicKey (pub : PublicKey) : Except Error fips140.rsa.PublicKey :=
  match bigmod.NewModulus (big.Bytes pub.N) with
  | .error err => .error err
  | .ok N => .ok ⟨N, pub.E⟩

/-- The function `rsa.SignPKCS1v15(random, priv, crypto.SHA256, hashed)`. The parameter
`random` is not used. -/
def SignPKCS1v15 (_random : List Nat) (priv : PrivateKey) (hashed : List Byte) :
    Except Error (List Byte) :=
  if hashed.length ≠ 32 then .error (.lib "crypto/rsa: input must be hashed message")
  else
    match checkPublicKeySize priv.PublicKey with
    | some err => .error err
    | none =>
      match fipsPrivateKey priv with
      | .error err => .error err
      | .ok k => fips140.rsa.SignPKCS1v15 k hashed

/-- The function `rsa.VerifyPKCS1v15(pub, crypto.SHA256, hashed, sig)`; `none` is a nil
error. -/
def VerifyPKCS1v15 (pub : PublicKey) (hashed sig : List Byte) : Option Error :=
  if hashed.length ≠ 32 then some (.lib "crypto/rsa: input must be hashed message")
  else
    match checkPublicKeySize pub with
    | some err => some err
    | none =>
      match fipsPublicKey pub with
      | .error err => some err
      | .ok k => fips140.rsa.VerifyPKCS1v15 k hashed sig

/-- A structurally valid RSA private key: it passes `Validate`, its two factors are prime, and
its private exponent is an inverse of the public one modulo `P - 1` and modulo `Q - 1`
(RFC 8017, section 3.2). `Validate` alone checks neither primality nor, for a key with CRT
values set, the private exponent. -/
def PrivateKey.WellFormed (priv : PrivateKey) : Prop :=
  priv.Validate = none ∧ Nat.Prime priv.P ∧ Nat.Prime priv.Q ∧
    priv.PublicKey.E * priv.D % (priv.P - 1) = 1 ∧ priv.PublicKey.E * priv.D % (priv.Q - 1) = 1

/-- What `rsa.GenerateKey(rand.Reader, bits)` promises of a key it returns: the size was not
refused (`checkKeySize`), the public exponent is 65537, the key is structurally valid, and the
modulus has exactly `bits` bits. -/
def GeneratedKey (bits : Int) (priv : PrivateKey) : Prop :=
  1024 ≤ bits ∧ priv.PublicKey.E = 65537 ∧ priv.WellFormed ∧
    (big.BitLen priv.PublicKey.N : Int) = bits

end rsa

/-! ## The facade: digital_signatures.go -/

namespace digital_signatures

/-- `GenerateRSAKeyPair(bits)`. `GenerateKey` stands for `rsa.GenerateKey(rand.Reader, ·)`. -/
def GenerateRSAKeyPair (GenerateKey : Int → Except Error rsa.PrivateKey) (bits : Int) :
    Except Error (rsa.PrivateKey × rsa.PublicKey) :=
  match GenerateKey bits with
  | .error err => .error err
  | .ok privateKey =>
    let publicKey := privateKey.PublicKey
    .ok (privateKey, publicKey)

/-- `SignDataWithRSA(data, privateKey)`. `randReader` is what `rand.Reader` yields. -/
def SignDataWithRSA (randReader : List Nat) (data : List Byte) (privateKey : rsa.PrivateKey) :
    Except Error (List Byte) :=
  let hashed := sha256.Sum256 data
  match rsa.SignPKCS1v15 randReader privateKey hashed with
  | .error err => .error err
  | .ok signature => .ok signature

/-- `VerifySignatureWithRSA(data, signature, publicKey)`; `none` is a nil error. -/
def VerifySignatureWithRSA (data signature : List Byte) (publicKey : rsa.PublicKey) :
    Option Error :=
  let hashed := sha256.Sum256 data
  match rsa.VerifyPKCS1v15 publicKey hashed signature with
  | some err => some err
  | none => none

end digital_signatures

/-! ## Relations between byte strings -/

/-- Two byte strings of the same length that differ in exactly one position. -/
def differsInOneByte (s t : List Byte) : Prop :=
  s.length = t.length ∧ ((s.zip t).filter (fun p => decide (p.1 ≠ p.2))).length = 1

instance (s t : List Byte) : Decidable (differsInOneByte s t) := by
  unfold differsInOneByte
  infer_instance

/-! ## bytes -/

namespace bytes

/-- `bytes.HasPrefix(s, prefix)`. -/
def HasPrefix : List Byte → List Byte → Bool
  | _, [] => true
  | [], _ :: _ => false
  | c :: s, p :: ps => c == p && HasPrefix s ps

/-- `bytes.HasSuffix(s, suffix)`. -/
def HasSuffix (s suffix : List Byte) : Bool :=
  suffix.length ≤ s.length && s.drop (s.length - suffix.length) == suffix

/-- `bytes.Index(s, sep)`: the index of the first instance of `sep` in `s`; `none` is -1. -/
def Index : List Byte → List Byte → Option Nat
  | [], sep => if sep.isEmpty then some 0 else none
  | c :: s, sep =>
    if HasPrefix (c :: s) sep then some 0
    else match Index s sep with
      | some i => some (i + 1)
      | none => none

/-- `bytes.IndexByte(s, c)`. -/
def IndexByte : List Byte → Byte → Option Nat
  | [], _ => none
  | b :: s, c =>
    if b = c then some 0
    else match IndexByte s c with
      | some i => some (i + 1)
      | none => none

/-- `bytes.Cut(s, sep)`: the text before and after the first instance of `sep`. -/
def Cut (s sep : List Byte) : Option (List Byte × List Byte) :=
  match Index s sep with
  | some i => some (s.take i, s.drop (i + sep.length))
  | none => none

/-- `bytes.TrimRight(s, " \t")`. -/
def TrimRightSpaceTab (s : List Byte) : List Byte :=
  (s.reverse.dropWhile (fun c => c == 0x20 || c == 0x09)).reverse

/-- ASCII white space as `bytes.TrimSpace` sees it. -/
def isSpace (c : Byte) : Bool :=
  c == 0x09 || c == 0x0a || c == 0x0b || c == 0x0c || c == 0x0d || c == 0x20

/-- `bytes.TrimSpace(s)`, on ASCII white space. -/
def TrimSpace (s : List Byte) : List Byte :=
  ((s.dropWhile isSpace).reverse.dropWhile isSpace).reverse

end bytes

/-! ## encoding/base64 -/

namespace base64

/-- The alphabet of `base64.StdEncoding`. -/
def encodeStd : List Byte :=
  strBytes "ABCDEFGHIJKLMNOPQRSTUVWXYZabcdefghijklmnopqrstuvwxyz0123456789+/"

/-- The `encode` table: the character of a 6-bit value. -/
def encodeChar (v : Nat) : Byte := encodeStd.getD (v % 64) 0

/-- The `decodeMap` table: the 6-bit value of a character, `none` (Go: 0xff) for a byte
outside the alphabet. -/
def decodeMap (c : Byte) : Option Nat :=
  let i := encodeStd.indexOf c
  if i < 64 then some i else none

/-- The padding character. -/
def padChar : Byte := 0x3d

/-- `StdEncoding.Encode`: three bytes to four characters, the last group padded with `=`. -/
def Encode : List Byte → List Byte
  | a :: b :: c :: rest =>
    let val := a.val <<< 16 ||| b.val <<< 8 ||| c.val
    [encodeChar (val >>> 18 &&& 0x3f), encodeChar (val >>> 12 &&& 0x3f),
     encodeChar (val >>> 6 &&& 0x3f), encodeChar (val &&& 0x3f)] ++ Encode rest
  | [a, b] =>
    let val := a.val <<< 16 ||| b.val <<< 8
    [encodeChar (val >>> 18 &&& 0x3f), encodeChar (val >>> 12 &&& 0x3f),
     encodeChar (val >>> 6 &&& 0x3f), padChar]
  | [a] =>
    let val := a.val <<< 16
    [encodeChar (val >>> 18 &&& 0x3f), encodeChar (val >>> 12 &&& 0x3f), padChar, padChar]
  | [] => []

/-- Where the decoder stands inside a quantum of four characters. -/
inductive DecodeState where
  /-- The 6-bit values read so far in the current quantum: at most three. -/
  | quantum (dbuf : List Nat)
  /-- A first `=` was read after two characters; a second one must follow. -/
  | needPad
  /-- The padding is complete; only line ends may follow. -/
  | done
  deriving DecidableEq, Repr

/-- The bytes of a quantum of `n` 6-bit values (`n` is 2, 3 or 4): `n - 1` bytes. -/
def quantumBytes (dbuf : List Nat) : List Byte :=
  let val := dbuf.getD 0 0 <<< 18 ||| dbuf.getD 1 0 <<< 12 ||| dbuf.getD 2 0 <<< 6 |||
    dbuf.getD 3 0
  ([(Fin.ofNat (val >>> 16) : Byte), Fin.ofNat (val >>> 8), Fin.ofNat val]).take
    (dbuf.length - 1)

/-- `StdEncoding.Decode` (not strict): the decoder of `decodeQuantum`, one character at a
time. Line ends (`\r`, `\n`) are skipped wherever they stand; a byte outside the alphabet, a
misplaced or missing `=`, an incomplete quantum and anything after the padding are a
`CorruptInputError`. `out` holds the bytes decoded so far. -/
def decodeFrom : DecodeState → List Byte → List Byte → Except Error (List Byte)
  | .quantum [], out, [] => .ok out
  | .quantum (_ :: _), _, [] => .error (.lib "illegal base64 data")
  | .needPad, _, [] => .error (.lib "illegal base64 data")
  | .done, out, [] => .ok out
  | st, out, c :: src =>
    if c = 0x0a ∨ c = 0x0d then decodeFrom st out src
    else
      match st with
      | .quantum dbuf =>
        match decodeMap c with
        | some v =>
          if dbuf.length = 3 then decodeFrom (.quantum []) (out ++ quantumBytes (dbuf ++ [v])) src
          else decodeFrom (.quantum (dbuf ++ [v])) out src
        | none =>
          if c ≠ padChar then .error (.lib "illegal base64 data")
          else if dbuf.length = 2 then decodeFrom .needPad (out ++ quantumBytes dbuf) src
          else if dbuf.length = 3 then decodeFrom .done (out ++ quantumBytes dbuf) src
          else .error (.lib "illegal base64 data")
      | .needPad =>
        if c = padChar then decodeFrom .done out src
        else .error (.lib "illegal base64 data")
      | .done => .error (.lib "illegal base64 data")

/-- A byte that is neither a line end, a dash, a colon, a blank, nor a tab: every character
of base64 text is one. -/
def plain (c : Byte) : Prop :=
  c ≠ 0x0a ∧ c ≠ 0x0d ∧ c ≠ 0x2d ∧ c ≠ 0x3a ∧ c ≠ 0x20 ∧ c ≠ 0x09

/-- `StdEncoding.Decode(dst, src)`: the decoded bytes, or an error. -/
def Decode (src : List Byte) : Except Error (List Byte) := decodeFrom (.quantum []) [] src

end base64

/-! ## encoding/pem -/

namespace pem

/-- The type `pem.Block`. -/
structure Block where
  BlockType : List Byte
  Headers : List (List Byte × List Byte)
  Bytes : List Byte
  deriving DecidableEq, Repr

def pemStart : List Byte := strBytes "\n-----BEGIN "

def pemEnd : List Byte := strBytes "\n-----END "

def pemEndOfLine : List Byte := strBytes "-----"

def colon : List Byte := strBytes ":"

/-- The length of a line of base64 text in the output of `Encode`. -/
def pemLineLength : Nat := 64

/-- The `lineBreaker` writer: the text in lines of 64 characters, each followed by a line
feed. `fuel` bounds the number of lines. -/
def breakLines : Nat → List Byte → List Byte
  | 0, _ => []
  | fuel + 1, text =>
    if text.isEmpty then []
    else text.take pemLineLength ++ [(0x0a : Byte)] ++ breakLines fuel (text.drop pemLineLength)

/-- `pem.EncodeToMemory(&pem.Block{Type: type, Bytes: bytes})`, a block without headers, the
only kind the facade builds. -/
def EncodeToMemory (type bytes : List Byte) : List Byte :=
  let b64 := base64.Encode bytes
  pemStart.drop 1 ++ type ++ strBytes "-----\n" ++ breakLines b64.length b64 ++
    pemEnd.drop 1 ++ type ++ strBytes "-----\n"

/-- The function `getLine`: the first line of `data` without its line end and trailing
blanks, and what follows the line. -/
def getLine (data : List Byte) : List Byte × List Byte :=
  match bytes.IndexByte data 0x0a with
  | none => (bytes.TrimRightSpaceTab data, [])
  | some i =>
    let j := i + 1
    let i := if i > 0 ∧ data.getD (i - 1) 0 = 0x0d then i - 1 else i
    (bytes.TrimRightSpaceTab (data.take i), data.drop j)

/-- The function `removeSpacesAndTabs`. -/
def removeSpacesAndTabs (data : List Byte) : List Byte :=
  data.filter (fun b => !(b == 0x20 || b == 0x09))

/-- The header loop of `Decode`: reads `key: value` lines. `none` when the input ends inside
the headers (`Decode` then returns nil); otherwise the headers and the rest, which starts at
the first line without a colon. -/
def decodeHeaders : Nat → List Byte → List (List Byte × List Byte) →
    Option (List (List Byte × List Byte) × List Byte)
  | 0, _, _ => none
  | fuel + 1, rest, headers =>
    if rest.length = 0 then none
    else
      let (line, next) := getLine rest
      match bytes.Cut line colon with
      | none => some (headers, rest)
      | some (key, val) =>
        decodeHeaders fuel next (headers ++ [(bytes.TrimSpace key, bytes.TrimSpace val)])

/-- The body of the loop of `Decode` after the header lines: finds the END line, checks it
against the type line and decodes the base64 text in between. `none` is a `continue`. -/
def decodeBody (typeLine : List Byte) (headers : List (List Byte × List Byte))
    (rest : List Byte) : Option Block :=
  let ends : Option (Nat × Nat) :=
    if headers.length = 0 ∧ bytes.HasPrefix rest (pemEnd.drop 1) then some (0, pemEnd.length - 1)
    else match bytes.Index rest pemEnd with
      | some endIndex => some (endIndex, endIndex + pemEnd.length)
      | none => none
  match ends with
  | none => none
  | some (endIndex, endTrailerIndex) =>
    let endTrailer := rest.drop endTrailerIndex
    let endTrailerLen := typeLine.length + pemEndOfLine.length
    if endTrailer.length < endTrailerLen then none
    else
      let restOfEndLine := endTrailer.drop endTrailerLen
      let endTrailer := endTrailer.take endTrailerLen
      if !bytes.HasPrefix endTrailer typeLine || !bytes.HasSuffix endTrailer pemEndOfLine then
        none
      else if (getLine restOfEndLine).1.length ≠ 0 then none
      else
        let base64Data := removeSpacesAndTabs (rest.take endIndex)
        match base64.Decode base64Data with
        | .error _ => none
        | .ok bytes => some { BlockType := typeLine, Headers := headers, Bytes := bytes }

/-- The loop of `pem.Decode`: one BEGIN line per step. `none` is a nil block. -/
def decodeLoop : Nat → List Byte → Option Block
  | 0, _ => none
  | fuel + 1, rest =>
    let start : Option (List Byte) :=
      if bytes.HasPrefix rest (pemStart.drop 1) then some (rest.drop (pemStart.length - 1))
      else match bytes.Cut rest pemStart with
        | some (_, after) => some after
        | none => none
    match start with
    | none => none
    | some rest =>
      let (typeLine, rest) := getLine rest
      if !bytes.HasSuffix typeLine pemEndOfLine then decodeLoop fuel rest
      else
        let typeLine := typeLine.take (typeLine.length - pemEndOfLine.length)
        match decodeHeaders (rest.length + 1) rest [] with
        | none => none
        | some (headers, rest) =>
          match decodeBody typeLine headers rest with
          | some p => some p
          | none => decodeLoop fuel rest

/-- `pem.Decode(data)`: the first PEM block of `data`, or `none` (Go: a nil block) when there
is none. The second result, the rest of the input, is dropped: the facade does. Each step of
the loop consumes a BEGIN marker, so `data.length + 1` steps are never all taken. -/
def Decode (data : List Byte) : Option Block := decodeLoop (data.length + 1) data

end pem

/-! ## encoding/asn1 -/

namespace asn1

def TagInteger : Nat := 2

def TagBitString : Nat := 3

def TagOID : Nat := 6

def TagSequence : Nat := 16

/-- The type `tagAndLength`: the header of a DER element. -/
structure tagAndLength where
  cls : Nat
  tag : Nat
  isCompound : Bool
  length : Nat
  deriving DecidableEq, Repr

/-- The function `parseBase128Int`: a base-128 integer of at most `fuel` bytes (Go: 5); the
value so far is `ret`, `first` marks the leading byte. Returns the value and what follows. -/
def parseBase128Int : Nat → Bool → Nat → List Byte → Except Error (Nat × List Byte)
  | _, _, _, [] => .error (.lib "asn1: syntax error: truncated base 128 integer")
  | 0, _, _, _ :: _ => .error (.lib "asn1: structure error: base 128 integer too large")
  | fuel + 1, first, ret, b :: rest =>
    if first ∧ b = 0x80 then .error (.lib "asn1: syntax error: integer is not minimally encoded")
    else
      let ret := ret <<< 7 ||| (b.val &&& 0x7f)
      if b.val &&& 0x80 = 0 then
        if ret > 2 ^ 31 - 1 then .error (.lib "asn1: structure error: base 128 integer too large")
        else .ok (ret, rest)
      else parseBase128Int fuel false ret rest

/-- The long form of a length: `numBytes` big-endian bytes, minimal. -/
def parseLongLength : Nat → Nat → List Byte → Except Error (Nat × List Byte)
  | 0, length, rest => .ok (length, rest)
  | _ + 1, _, [] => .error (.lib "asn1: syntax error: truncated tag or length")
  | numBytes + 1, length, b :: rest =>
    if length ≥ 2 ^ 23 then .error (.lib "asn1: structure error: length too large")
    else
      let length := length <<< 8 ||| b.val
      if length = 0 then
        .error (.lib "asn1: structure error: superfluous leading zeros in length")
      else parseLongLength numBytes length rest

/-- The function `parseTagAndLength`: the header of the element at the start of `bytes`, and
what follows the header. -/
def parseTagAndLength (bytes : List Byte) : Except Error (tagAndLength × List Byte) :=
  match bytes with
  | [] => .error (.lib "asn1: syntax error: truncated tag or length")
  | b :: rest =>
    let cls := b.val >>> 6
    let isCompound := b.val &&& 0x20 = 0x20
    let tagRest : Except Error (Nat × List Byte) :=
      if b.val &&& 0x1f = 0x1f then
        match parseBase128Int 5 true 0 rest with
        | .error err => .error err
        | .ok (tag, rest) =>
          if tag < 0x1f then .error (.lib "asn1: syntax error: non-minimal tag")
          else .ok (tag, rest)
      else .ok (b.val &&& 0x1f, rest)
    match tagRest with
    | .error err => .error err
    | .ok (_, []) => .error (.lib "asn1: syntax error: truncated tag or length")
    | .ok (tag, b :: rest) =>
      if b.val &&& 0x80 = 0 then
        .ok ({ cls := cls, tag := tag, isCompound := isCompound, length := b.val &&& 0x7f }, rest)
      else
        let numBytes := b.val &&& 0x7f
        if numBytes = 0 then
          .error (.lib "asn1: syntax error: indefinite length found (not DER)")
        else
          match parseLongLength numBytes 0 rest with
          | .error err => .error err
          | .ok (length, rest) =>
            if length < 0x80 then .error (.lib "asn1: syntax error: non-minimal length")
            else .ok ({ cls := cls, tag := tag, isCompound := isCompound, length := length }, rest)

/-- The start of `parseField` for a field that is not optional: the header of the next
element must carry the universal tag `tag` and the right form, and the content must be all
there. Returns the content and what follows the element. -/
def readElement (tag : Nat) (compound : Bool) (bytes : List Byte) :
    Except Error (List Byte × List Byte) :=
  if bytes.length = 0 then .error (.lib "asn1: syntax error: sequence truncated")
  else
    match parseTagAndLength bytes with
    | .error err => .error err
    | .ok (t, rest) =>
      if t.cls ≠ 0 ∨ t.tag ≠ tag ∨ t.isCompound ≠ compound then
        .error (.lib "asn1: structure error: tags don't match")
      else if rest.length < t.length then .error (.lib "asn1: syntax error: data truncated")
      else .ok (rest.take t.length, rest.drop t.length)

/-- The function `checkInteger`: a DER INTEGER is not empty and is minimally encoded. -/
def checkInteger (bytes : List Byte) : Option Error :=
  match bytes with
  | [] => some (.lib "asn1: structure error: empty integer")
  | [_] => none
  | b0 :: b1 :: _ =>
    if (b0 = 0 ∧ b1.val &&& 0x80 = 0) ∨ (b0 = 0xff ∧ b1.val &&& 0x80 = 0x80) then
      some (.lib "asn1: structure error: integer not minimally-encoded")
    else none

/-- The two's complement value of a non-empty big-endian byte string. -/
def twosComplement (bytes : List Byte) : Int :=
  if bytes.headD 0 ≥ 0x80 then (big.SetBytes bytes : Int) - (256 : Int) ^ bytes.length
  else big.SetBytes bytes

/-- The function `parseBigInt`. -/
def parseBigInt (bytes : List Byte) : Except Error Int :=
  match checkInteger bytes with
  | some err => .error err
  | none => .ok (twosComplement bytes)

/-- The function `parseInt64`, which also reads a Go `int` on a 64-bit platform. -/
def parseInt64 (bytes : List Byte) : Except Error Int :=
  match checkInteger bytes with
  | some err => .error err
  | none =>
    if bytes.length > 8 then .error (.lib "asn1: structure error: integer too large")
    else .ok (twosComplement bytes)

/-- An INTEGER field of type `*big.Int`: its value and what follows. -/
def readBigInt (bytes : List Byte) : Except Error (Int × List Byte) :=
  match readElement TagInteger false bytes with
  | .error err => .error err
  | .ok (content, rest) =>
    match parseBigInt content with
    | .error err => .error err
    | .ok v => .ok (v, rest)

/-- An INTEGER field of type `*big.Int` tagged `optional`: at the end of the data, or before
an element that is not an INTEGER, the field stays nil and nothing is consumed. -/
def readOptionalBigInt (bytes : List Byte) : Except Error (Option Int × List Byte) :=
  if bytes.length = 0 then .ok (none, bytes)
  else
    match parseTagAndLength bytes with
    | .error err => .error err
    | .ok (t, rest) =>
      if t.cls ≠ 0 ∨ t.tag ≠ TagInteger ∨ t.isCompound ≠ false then .ok (none, bytes)
      else if rest.length < t.length then .error (.lib "asn1: syntax error: data truncated")
      else
        match parseBigInt (rest.take t.length) with
        | .error err => .error err
        | .ok v => .ok (some v, rest.drop t.length)

/-- An INTEGER field of type `int`: its value and what follows. -/
def readInt (bytes : List Byte) : Except Error (Int × List Byte) :=
  match readElement TagInteger false bytes with
  | .error err => .error err
  | .ok (content, rest) =>
    match parseInt64 content with
    | .error err => .error err
    | .ok v => .ok (v, rest)

/-- The function `parseObjectIdentifier`: the arcs after the first sub-identifier. -/
def parseArcs : Nat → List Byte → Except Error (List Nat)
  | _, [] => .ok []
  | 0, _ :: _ => .error (.lib "asn1: syntax error: truncated base 128 integer")
  | fuel + 1, b :: rest =>
    match parseBase128Int 5 true 0 (b :: rest) with
    | .error err => .error err
    | .ok (v, rest) =>
      match parseArcs fuel rest with
      | .error err => .error err
      | .ok arcs => .ok (v :: arcs)

/-- The function `parseObjectIdentifier`. -/
def parseObjectIdentifier (bytes : List Byte) : Except Error (List Nat) :=
  if bytes.length = 0 then .error (.lib "asn1: syntax error: zero length OBJECT IDENTIFIER")
  else
    match parseBase128Int 5 true 0 bytes with
    | .error err => .error err
    | .ok (v, rest) =>
      match parseArcs rest.length rest with
      | .error err => .error err
      | .ok arcs => .ok ((if v < 80 then [v / 40, v % 40] else [2, v - 80]) ++ arcs)

/-- The type `asn1.BitString`. -/
structure BitString where
  Bytes : List Byte
  BitLength : Nat
  deriving DecidableEq, Repr

/-- The function `parseBitString`. -/
def parseBitString (bytes : List Byte) : Except Error BitString :=
  match bytes with
  | [] => .error (.lib "asn1: syntax error: zero length BIT STRING")
  | b :: rest =>
    let paddingBits := b.val
    if paddingBits > 7 ∨ (rest.length = 0 ∧ paddingBits > 0) ∨
        (bytes.getLastD 0).val &&& ((1 <<< paddingBits) - 1) ≠ 0 then
      .error (.lib "asn1: syntax error: invalid padding bits in BIT STRING")
    else .ok { Bytes := rest, BitLength := rest.length * 8 - paddingBits }

/-- The shifting loop of `RightAlign`: each byte takes the low bits of the one before it. -/
def shiftRight (shift : Nat) : Byte → List Byte → List Byte
  | _, [] => []
  | prev, b :: rest =>
    (Fin.ofNat ((prev.val <<< (8 - shift)) ||| (b.val >>> shift)) : Byte) ::
      shiftRight shift b rest

/-- The method `BitString.RightAlign`. -/
def BitString.RightAlign (b : BitString) : List Byte :=
  let shift := 8 - b.BitLength % 8
  if shift = 8 ∨ b.Bytes.length = 0 then b.Bytes
  else shiftRight shift 0 b.Bytes

/-- The big-endian bytes of `n` without leading zeros (`appendBase256`, `big.Int.Bytes`). -/
def base256 (n : Nat) : List Byte := big.FillBytes ((big.BitLen n + 7) / 8) n

/-- The function `appendLength`: the DER encoding of a length. -/
def encodeLength (length : Nat) : List Byte :=
  if length ≥ 128 then
    let l := base256 length
    (Fin.ofNat (0x80 ||| l.length) : Byte) :: l
  else [(Fin.ofNat length : Byte)]

/-- The content of the INTEGER `n ≥ 0` (`makeBigInt`, `makeInt64`): the bytes of `n`, a zero
byte in front when the top bit is set, one zero byte for 0. -/
def encodeNat (n : Nat) : List Byte :=
  let bs := base256 n
  match bs with
  | [] => [0]
  | b :: _ => if b.val &&& 0x80 ≠ 0 then 0 :: bs else bs

/-- A whole element with a universal tag: identifier byte, length, content. -/
def marshalElement (tag : Nat) (compound : Bool) (content : List Byte) : List Byte :=
  (Fin.ofNat (tag ||| (if compound then 0x20 else 0)) : Byte) ::
    (encodeLength content.length ++ content)

/-- The DER INTEGER of `n ≥ 0`. -/
def marshalNat (n : Nat) : List Byte := marshalElement TagInteger false (encodeNat n)

/-- The value `asn1.NullBytes`. -/
def NullBytes : List Byte := [0x05, 0x00]

end asn1

/-! ## golang.org/x/crypto/cryptobyte -/

namespace cryptobyte

/-- The method `(*String).ReadASN1(&out, tag)`: the content of the element at the start of
`s`, whose identifier byte must be `tag`, and what follows the element; `none` is `false`. -/
def ReadASN1 (tag : Byte) (s : List Byte) : Option (List Byte × List Byte) :=
  match s with
  | t :: lenByte :: rest =>
    if t.val &&& 0x1f = 0x1f then none
    else
      let header : Option (Nat × List Byte) :=
        if lenByte.val &&& 0x80 = 0 then some (lenByte.val, rest)
        else
          let lenLen := lenByte.val &&& 0x7f
          if lenLen = 0 ∨ lenLen > 4 ∨ rest.length < lenLen then none
          else
            let len32 := big.SetBytes (rest.take lenLen)
            if len32 < 128 then none
            else if len32 >>> ((lenLen - 1) * 8) = 0 then none
            else if 2 + lenLen + len32 ≥ 2 ^ 32 then none
            else some (len32, rest.drop lenLen)
      match header with
      | none => none
      | some (length, rest) =>
        if rest.length < length then none
        else if t ≠ tag then none
        else some (rest.take length, rest.drop length)
  | _ => none

/-- The method `(*String).ReadASN1Integer(out)` for a `*big.Int`. -/
def ReadASN1BigInt (s : List Byte) : Option (Int × List Byte) :=
  match ReadASN1 0x02 s with
  | none => none
  | some (content, rest) =>
    match asn1.checkInteger content with
    | some _ => none
    | none => some (asn1.twosComplement content, rest)

/-- The method `(*String).ReadASN1Integer(out)` for an `*int` (64 bits). -/
def ReadASN1Int (s : List Byte) : Option (Int × List Byte) :=
  match ReadASN1 0x02 s with
  | none => none
  | some (content, rest) =>
    match asn1.checkInteger content with
    | some _ => none
    | none => if content.length > 8 then none else some (asn1.twosComplement content, rest)

end cryptobyte

/-! ## crypto/elliptic -/

namespace elliptic

/-- The named curves `crypto/x509` knows. -/
inductive Curve where
  | P224
  | P256
  | P384
  | P521
  deriving DecidableEq, Repr

/-- The field size in bits. -/
def Curve.BitSize : Curve → Nat
  | .P224 => 224
  | .P256 => 256
  | .P384 => 384
  | .P521 => 521

/-- The order of the underlying field. -/
def Curve.P : Curve → Nat
  | .P224 => 2 ^ 224 - 2 ^ 96 + 1
  | .P256 => 2 ^ 256 - 2 ^ 224 + 2 ^ 192 + 2 ^ 96 - 1
  | .P384 => 2 ^ 384 - 2 ^ 128 - 2 ^ 96 + 2 ^ 32 - 1
  | .P521 => 2 ^ 521 - 1

/-- The constant of the curve equation `y² = x³ - 3x + b`. -/
def Curve.B : Curve → Nat
  | .P224 => 0xb4050a850c04b3abf54132565044b0b7d7bfd8ba270b39432355ffb4
  | .P256 => 0x5ac635d8aa3a93e7b3ebbd55769886bc651d06b0cc53b0f63bce3c3e27d2604b
  | .P384 => 0xb3312fa7e23ee7e4988e056be3f82d19181d9c6efe8141120314088f5013875ac656398d8a2ed19d2a85c8edd3ec2aef
  | .P521 => 0x051953eb9618e1c9a1f929a21a0b68540eea2da725b99b315f3b8b489918ef109e156193951ec7e937b1652c0bd3bb1bf073573df883d2c34f1ef451fd46b503f00

/-- The method `IsOnCurve`. -/
def Curve.IsOnCurve (c : Curve) (x y : Nat) : Bool :=
  x < c.P && y < c.P && y * y % c.P == (x * x * x + (c.P - 3) * x + c.B) % c.P

/-- The function `elliptic.Unmarshal`: a point in uncompressed form; `none` is a nil
result. -/
def Unmarshal (c : Curve) (data : List Byte) : Option (Nat × Nat) :=
  let byteLen := (c.BitSize + 7) / 8
  if data.length ≠ 1 + 2 * byteLen then none
  else if data.headD 0 ≠ 4 then none
  else
    let x := big.SetBytes ((data.drop 1).take byteLen)
    let y := big.SetBytes (data.drop (1 + byteLen))
    if x ≥ c.P ∨ y ≥ c.P then none
    else if !c.IsOnCurve x y then none
    else some (x, y)

end elliptic

/-! ## crypto/x509 -/

namespace x509

/-- What `ParsePKIXPublicKey` can return (Go: `any`): an `*rsa.PublicKey`, a `*dsa.PublicKey`,
an `*ecdsa.PublicKey`, an `ed25519.PublicKey` or an `*ecdh.PublicKey`. -/
inductive PublicKey where
  | rsa (pub : rsa.PublicKey)
  | dsa (P Q G Y : Int)
  | ecdsa (curve : elliptic.Curve) (X Y : Nat)
  | ed25519 (key : List Byte)
  | ecdh (key : List Byte)
  deriving DecidableEq, Repr

def oidPublicKeyRSA : List Nat := [1, 2, 840, 113549, 1, 1, 1]

def oidPublicKeyDSA : List Nat := [1, 2, 840, 10040, 4, 1]

def oidPublicKeyECDSA : List Nat := [1, 2, 840, 10045, 2, 1]

def oidPublicKeyX25519 : List Nat := [1, 3, 101, 110]

def oidPublicKeyEd25519 : List Nat := [1, 3, 101, 112]

/-- The function `namedCurveFromOID`. -/
def namedCurveFromOID (oid : List Nat) : Option elliptic.Curve :=
  if oid = [1, 3, 132, 0, 33] then some .P224
  else if oid = [1, 2, 840, 10045, 3, 1, 7] then some .P256
  else if oid = [1, 3, 132, 0, 34] then some .P384
  else if oid = [1, 3, 132, 0, 35] then some .P521
  else none

/-- A field of type `*big.Int` tagged `optional` in `asn1.Marshal`: a nil value is left
out. -/
def marshalOptional : Option Nat → List Byte
  | none => []
  | some n => asn1.marshalNat n

/-- The function `MarshalPKCS1PrivateKey`: after `key.Precompute()`, the DER of
`RSAPrivateKey ::= SEQUENCE { version, n, e, d, p, q, dP, dQ, qInv }` with version 0. The
three CRT values are optional: those that are nil, as on a key that `Precompute` refused, are
left out. -/
def MarshalPKCS1PrivateKey (key : rsa.PrivateKey) : List Byte :=
  let key := key.Precompute
  asn1.marshalElement asn1.TagSequence true
    (asn1.marshalNat 0 ++ asn1.marshalNat key.PublicKey.N ++ asn1.marshalNat key.PublicKey.E ++
      asn1.marshalNat key.D ++ asn1.marshalNat key.P ++ asn1.marshalNat key.Q ++
      marshalOptional key.Precomputed.Dp ++ marshalOptional key.Precomputed.Dq ++
      marshalOptional key.Precomputed.Qinv)

/-- The optional field `AdditionalPrimes` at the end of an RSAPrivateKey: `true` when further
primes are there. A field that is absent, or whose tag is not that of a SEQUENCE, or an empty
SEQUENCE, gives `false`; bytes after it are allowed. -/
def hasAdditionalPrimes (bytes : List Byte) : Except Error Bool :=
  if bytes.length = 0 then .ok false
  else
    match asn1.parseTagAndLength bytes with
    | .error err => .error err
    | .ok (t, rest) =>
      if t.cls ≠ 0 ∨ t.tag ≠ asn1.TagSequence ∨ t.isCompound ≠ true then .ok false
      else if rest.length < t.length then .error (.lib "asn1: syntax error: data truncated")
      else .ok (t.length ≠ 0)

/-- The sign test of `ParsePKCS1PrivateKey` on an optional value: set and not positive. -/
def setAndNotPositive : Option Int → Bool
  | none => false
  | some v => decide (v ≤ 0)

/-- The function `ParsePKCS1PrivateKey`. The text of a library error is the one of the first
failing step; Go rewrites it when the input is a key in another format. A key with more than
two primes is outside `rsa.PrivateKey` as modelled and is reported as an error. A negative
public exponent is kept as 0, which `Validate` refuses with the same error. -/
def ParsePKCS1PrivateKey (der : List Byte) : Except Error rsa.PrivateKey := do
  let (content, rest) ← asn1.readElement asn1.TagSequence true der
  let (version, content) ← asn1.readInt content
  let (n, content) ← asn1.readBigInt content
  let (e, content) ← asn1.readInt content
  let (d, content) ← asn1.readBigInt content
  let (p, content) ← asn1.readBigInt content
  let (q, content) ← asn1.readBigInt content
  let (dp, content) ← asn1.readOptionalBigInt content
  let (dq, content) ← asn1.readOptionalBigInt content
  let (qinv, content) ← asn1.readOptionalBigInt content
  let more ← hasAdditionalPrimes content
  if rest.length > 0 then throw (.lib "asn1: syntax error: trailing data")
  if version > 1 then throw (.lib "x509: unsupported private key version")
  if n ≤ 0 ∨ d ≤ 0 ∨ p ≤ 0 ∨ q ≤ 0 ∨ setAndNotPositive dp ∨ setAndNotPositive dq ∨
      setAndNotPositive qinv then
    throw (.lib "x509: private key contains zero or negative value")
  if more then throw (.lib "x509: multi-prime key")
  let key : rsa.PrivateKey :=
    ⟨⟨n.toNat, e.toNat⟩, d.toNat, p.toNat, q.toNat,
      ⟨dp.map Int.toNat, dq.map Int.toNat, qinv.map Int.toNat⟩⟩
  let key := key.Precompute
  match key.Validate with
  | some err => throw err
  | none => pure key

/-- The DER of `RSAPublicKey ::= SEQUENCE { modulus, publicExponent }`. -/
def marshalPKCS1PublicKey (pub : rsa.PublicKey) : List Byte :=
  asn1.marshalElement asn1.TagSequence true (asn1.marshalNat pub.N ++ asn1.marshalNat pub.E)

/-- The DER of the object identifier `oidPublicKeyRSA`, 1.2.840.113549.1.1.1. -/
def oidPublicKeyRSABytes : List Byte :=
  [0x06, 0x09, 0x2a, 0x86, 0x48, 0x86, 0xf7, 0x0d, 0x01, 0x01, 0x01]

/-- The function `MarshalPKIXPublicKey` at an `*rsa.PublicKey`, the one type the facade
passes: the DER of `SubjectPublicKeyInfo` with algorithm `rsaEncryption`, NULL parameters, and
the RSAPublicKey in a BIT STRING without unused bits. It cannot fail on this type. -/
def MarshalPKIXPublicKey (pub : rsa.PublicKey) : Except Error (List Byte) :=
  let publicKeyBytes := marshalPKCS1PublicKey pub
  .ok (asn1.marshalElement asn1.TagSequence true
    (asn1.marshalElement asn1.TagSequence true (oidPublicKeyRSABytes ++ asn1.NullBytes) ++
      asn1.marshalElement asn1.TagBitString false ((0 : Byte) :: publicKeyBytes)))

/-- The type `publicKeyInfo`, after `asn1.Unmarshal`: the algorithm, the full bytes of its
parameters, and the key bits. -/
structure publicKeyInfo where
  Algorithm : List Nat
  Parameters : List Byte
  PublicKey : asn1.BitString
  deriving DecidableEq, Repr

/-- The optional `Parameters asn1.RawValue` of an AlgorithmIdentifier: the full bytes of the
next element, empty when there is none. -/
def readRawValue (bytes : List Byte) : Except Error (List Byte) :=
  if bytes.length = 0 then .ok []
  else
    match asn1.parseTagAndLength bytes with
    | .error err => .error err
    | .ok (t, rest) =>
      if rest.length < t.length then .error (.lib "asn1: syntax error: data truncated")
      else .ok (bytes.take (bytes.length - rest.length + t.length))

/-- `asn1.Unmarshal(derBytes, &pki)` for a `publicKeyInfo`, and the trailing-data check. -/
def unmarshalPublicKeyInfo (derBytes : List Byte) : Except Error publicKeyInfo := do
  let (content, rest) ← asn1.readElement asn1.TagSequence true derBytes
  if rest.length ≠ 0 then throw (.lib "x509: trailing data after ASN.1 of public-key")
  let (algorithm, content) ← asn1.readElement asn1.TagSequence true content
  let (oidBytes, paramBytes) ← asn1.readElement asn1.TagOID false algorithm
  let oid ← asn1.parseObjectIdentifier oidBytes
  let params ← readRawValue paramBytes
  let (bits, _) ← asn1.readElement asn1.TagBitString false content
  let bitString ← asn1.parseBitString bits
  pure { Algorithm := oid, Parameters := params, PublicKey := bitString }

/-- The function `parsePublicKey`. -/
def parsePublicKey (keyData : publicKeyInfo) : Except Error PublicKey :=
  let oid := keyData.Algorithm
  let params := keyData.Parameters
  let der := keyData.PublicKey.RightAlign
  if oid = oidPublicKeyRSA then
    if params ≠ asn1.NullBytes then .error (.lib "x509: RSA key missing NULL parameters")
    else
      match cryptobyte.ReadASN1 0x30 der with
      | none => .error (.lib "x509: invalid RSA public key")
      | some (der, _) =>
        match cryptobyte.ReadASN1BigInt der with
        | none => .error (.lib "x509: invalid RSA modulus")
        | some (n, der) =>
          match cryptobyte.ReadASN1Int der with
          | none => .error (.lib "x509: invalid RSA public exponent")
          | some (e, _) =>
            if n ≤ 0 then .error (.lib "x509: RSA modulus is not a positive number")
            else if e ≤ 0 then
              .error (.lib "x509: RSA public exponent is not a positive number")
            else .ok (.rsa { N := n.toNat, E := e.toNat })
  else if oid = oidPublicKeyECDSA then
    match cryptobyte.ReadASN1 0x06 params with
    | none => .error (.lib "x509: invalid ECDSA parameters")
    | some (oidBytes, _) =>
      match asn1.parseObjectIdentifier oidBytes with
      | .error _ => .error (.lib "x509: invalid ECDSA parameters")
      | .ok namedCurveOID =>
        match namedCurveFromOID namedCurveOID with
        | none => .error (.lib "x509: unsupported elliptic curve")
        | some namedCurve =>
          match elliptic.Unmarshal namedCurve der with
          | none => .error (.lib "x509: failed to unmarshal elliptic curve point")
          | some (x, y) => .ok (.ecdsa namedCurve x y)
  else if oid = oidPublicKeyEd25519 then
    if params.length ≠ 0 then .error (.lib "x509: Ed25519 key encoded with illegal parameters")
    else if der.length ≠ 32 then .error (.lib "x509: wrong Ed25519 public key size")
    else .ok (.ed25519 der)
  else if oid = oidPublicKeyX25519 then
    if params.length ≠ 0 then .error (.lib "x509: X25519 key encoded with illegal parameters")
    else if der.length ≠ 32 then .error (.lib "crypto/ecdh: invalid public key")
    else .ok (.ecdh der)
  else if oid = oidPublicKeyDSA then
    match cryptobyte.ReadASN1BigInt der with
    | none => .error (.lib "x509: invalid DSA public key")
    | some (y, _) =>
      match cryptobyte.ReadASN1 0x30 params with
      | none => .error (.lib "x509: invalid DSA parameters")
      | some (paramsDer, _) =>
        match cryptobyte.ReadASN1BigInt paramsDer with
        | none => .error (.lib "x509: invalid DSA parameters")
        | some (p, paramsDer) =>
          match cryptobyte.ReadASN1BigInt paramsDer with
          | none => .error (.lib "x509: invalid DSA parameters")
          | some (q, paramsDer) =>
            match cryptobyte.ReadASN1BigInt paramsDer with
            | none => .error (.lib "x509: invalid DSA parameters")
            | some (g, _) =>
              if y ≤ 0 ∨ p ≤ 0 ∨ q ≤ 0 ∨ g ≤ 0 then
                .error (.lib "x509: zero or negative DSA parameter")
              else .ok (.dsa p q g y)
  else .error (.lib "x509: unknown public key algorithm")

/-- The function `ParsePKIXPublicKey`. -/
def ParsePKIXPublicKey (derBytes : List Byte) : Except Error PublicKey :=
  match unmarshalPublicKeyInfo derBytes with
  | .error err => .error err
  | .ok pki => parsePublicKey pki

end x509
/-! ## RFC 8017 (PKCS #1 v2.2): the signature scheme RSASSA-PKCS1-v1_5

Written after the text of the RFC, not after the library: the reference that the signature
made by `SignDataWithRSA` is compared with. -/

namespace rfc8017

/-- The length in octets of the modulus `n`, the `k` of the RFC. -/
def octetLength (n : Nat) : Nat := Nat.log 256 n + 1

/-- Section 4.2, OS2IP: the integer of an octet string, first octet most significant. -/
def OS2IP : List Byte → Nat
  | [] => 0
  | b :: rest => b.val * 256 ^ rest.length + OS2IP rest

/-- Section 4.1, I2OSP: the octet string of length `xLen` of an integer `x < 256 ^ xLen`. -/
def I2OSP (x : Nat) : Nat → List Byte
  | 0 => []
  | xLen + 1 => (Fin.ofNat (x / 256 ^ xLen) : Byte) :: I2OSP x xLen

/-- Section 5.2.1, RSASP1 for a private key given as the pair `(n, d)`. -/
def RSASP1 (n d m : Nat) : Nat := m ^ d % n

/-- The base-128 digits of an object identifier arc, most significant first, every digit but
the last with its top bit set (X.690, 8.19). -/
def base128Loop : Nat → Nat → List Byte → List Byte
  | 0, _, acc => acc
  | fuel + 1, n, acc =>
    if n = 0 then acc
    else base128Loop fuel (n / 128) ((Fin.ofNat (0x80 + n % 128) : Byte) :: acc)

def base128 (n : Nat) : List Byte := base128Loop n (n / 128) [(Fin.ofNat (n % 128) : Byte)]

/-- The content octets of an object identifier: the first two arcs share a subidentifier. -/
def oidContent : List Nat → List Byte
  | a :: b :: rest => base128 (40 * a + b) ++ (rest.map base128).flatten
  | _ => []

/-- The object identifier `id-sha256`: 2.16.840.1.101.3.4.2.1 (appendix B.1). -/
def idSha256 : List Nat := [2, 16, 840, 1, 101, 3, 4, 2, 1]

/-- Section 9.2, step 2: the DER encoding `T` of
`DigestInfo ::= SEQUENCE { digestAlgorithm AlgorithmIdentifier, digest OCTET STRING }` for
SHA-256, whose AlgorithmIdentifier carries NULL parameters. -/
def digestInfo (digest : List Byte) : List Byte :=
  asn1.marshalElement 16 true
    (asn1.marshalElement 16 true
        (asn1.marshalElement 6 false (oidContent idSha256) ++ asn1.marshalElement 5 false []) ++
      asn1.marshalElement 4 false digest)

/-- Section 9.2, EMSA-PKCS1-v1_5-ENCODE applied to the SHA-256 digest `H` of the message:
`EM = 0x00 || 0x01 || PS || 0x00 || T` with `PS` of `emLen - tLen - 3` octets `0xff`; `none`
is "intended encoded message length too short". -/
def EMSA_PKCS1_v1_5_ENCODE (H : List Byte) (emLen : Nat) : Option (List Byte) :=
  let T := digestInfo H
  if emLen < T.length + 11 then none
  else some ((0x00 : Byte) :: (0x01 : Byte) ::
    (List.replicate (emLen - T.length - 3) (0xff : Byte) ++ (0x00 : Byte) :: T))

/-- Section 8.2.1, RSASSA-PKCS1-V1_5-SIGN with the private key `(n, d)`, on the SHA-256 digest
of the message; `none` is "RSA modulus too short". -/
def RSASSA_PKCS1_V1_5_SIGN (n d : Nat) (H : List Byte) : Option (List Byte) :=
  let k := octetLength n
  match EMSA_PKCS1_v1_5_ENCODE H k with
  | none => none
  | some EM => some (I2OSP (RSASP1 n d (OS2IP EM)) k)

end rfc8017

namespace digital_signatures

/-- `ExportRSAPrivateKeyToPEM(privateKey)`. -/
def ExportRSAPrivateKeyToPEM (privateKey : rsa.PrivateKey) : Except Error (List Byte) :=
  let privateKeyBytes := x509.MarshalPKCS1PrivateKey privateKey
  .ok (pem.EncodeToMemory (strBytes "RSA PRIVATE KEY") privateKeyBytes)

/-- `ExportRSAPublicKeyToPEM(publicKey)`. -/
def ExportRSAPublicKeyToPEM (publicKey : rsa.PublicKey) : Except Error (List Byte) :=
  match x509.MarshalPKIXPublicKey publicKey with
  | .error err => .error err
  | .ok publicKeyBytes => .ok (pem.EncodeToMemory (strBytes "PUBLIC KEY") publicKeyBytes)

/-- `ImportRSAPrivateKeyFromPEM(keyPEM)`. -/
def ImportRSAPrivateKeyFromPEM (keyPEM : List Byte) : Except Error rsa.PrivateKey :=
  match pem.Decode keyPEM with
  | none => .error (.new "invalid PEM block")
  | some pemBlock =>
    match x509.ParsePKCS1PrivateKey pemBlock.Bytes with
    | .error err => .error err
    | .ok privateKey => .ok privateKey

/-- `ImportRSAPublicKeyFromPEM(keyPEM)`. -/
def ImportRSAPublicKeyFromPEM (keyPEM : List Byte) : Except Error rsa.PublicKey :=
  match pem.Decode keyPEM with
  | none => .error (.new "invalid PEM block")
  | some pemBlock =>
    match x509.ParsePKIXPublicKey pemBlock.Bytes with
    | .error err => .error err
    | .ok publicKey =>
      match publicKey with
      | .rsa rsaPublicKey => .ok rsaPublicKey
      | _ => .error (.new "not an RSA public key")

end digital_signatures

/-! ## Concrete keys

Two key pairs of the shape `rsa.GenerateKey` returns, used to instantiate the theorems: one of
2048 bits and one of 128 bits. Each prime `p` has `p - 1` a product of powers of 2, 3 and 5, so
that its primality has a short Lucas certificate. -/

namespace keys

def p2048 : Nat :=
  0xe7cac86c61b2559cb52e9e244ceb5a84eb867c8d65780c99ae029b0c678cecb228bcba4a104403ee072603818df4840fa50efb56f85ac13b4eaa326fa402a9e38d00c877040c551fba1bb65ccf7186c995b015c5fa7fcdc0f7b1778ed5bf2a6ba57bb88cd668b870b0eab870f559ab7b2ec11406d389d288f59ab8e4be4e0b0d

def q2048 : Nat :=
  0xe06cfcf6a79fc2e050f30e443e530492b38fe5b2cc9d0808743f101275110ce312a22ae826baca56ae26e75d13048c37c16bdb2e418624c256845e7f28f0c0227ff90abd26690e2f6c1f4127213f60a027e6a2d68daaa9a2c03eb0c1b9296c53e215381258c42fcc565d270043ceb11aefd12c6f3146591b19aef1ea5d295a59

/-- A 2048-bit key: `E = 65537`, `D = E⁻¹ mod (P - 1)(Q - 1)`, with its CRT values. -/
def key2048 : rsa.PrivateKey :=
  { PublicKey := { N := p2048 * q2048, E := 65537 },
    D := 0xb2837886fd47aaf9c7e64bd85919538838a2ed5cf3c3046179f8446a58f7bb6d09c19649e6243a2369e97c8e59252abd464d0ee74a5ffdb1c1ab64ebc660ff8c14f9fcb66693903a6629c2ec37d2ad505e8bb09944275a6c5c30d3ba73fa2e381c8cb001d065a72193d5aa9cef48751971e5c8e71793a65d53af4abb417093cd58b55ea3f9d9b08772bd9daca7afae76ed592bfc2425e0495466c09ae3c5b9fbf0323e9b6b504dbcc6c72e9962602cf8e460f4e6a9d021780abcb4d190010fea4005b23f7bf3275e46bfeb0c424a6dd72a0f0fbe4003fcb9023dedc6070ba4392f51419aa0c194bc437992370ec1d2c175aba221a771b1bf46702f57226ab4c1,
    P := p2048, Q := q2048,
    Precomputed :=
      ⟨some 0xa003331ceecca7a148ca67cd73743dc6e8b8ac9f07df3a039546a3368afd9420e15277dfcd1ec6ffb8db9b2c028d3be578f2c0bba7332f95fb962ebf371fc79c18a8e3ba9586d5f4d30b7276db95e9909bcf3518b8f725590324f5fe1abc9f5234a9161bd39ff343883e611949a69f64a8400dcd30974249de12f374a59346b9,
        some 0x341255a74d414e5009b83b692e24c8fcd8d8dc6cddf8d9724cb68d1e1b37778c0038cc47cd24ade9eac2701032676db94a11a26b5b1caacec49035f4bf250d0f742dee85f0b1936f01614716b32a275b41a6cbc5885d3ebada6c314ae19170e70d9feac0a703ee2b3526abf3edc7b9640c9cb5f89eb039e085d7079e5f3b4711,
        some 0xd454c5231d0869b988f7150f28e82e0a127fc60f867fb77f2962dfc312b54bbaa8ba7ee14dca0221ac6e8e16b97d5cf7f76bf8a2b3cf6e7ec56d0c93fa9cd3d0853b66ad136dafc90f3e1b1db24a277eb8e165aa8804f1eff74fc9b2e03bcb9d6646e267e66bd286a6fcb23812a764095bf4f9352df1b80b0ad259afc1e9b0ca⟩ }

def p128 : Nat := 0xc4e50e69b9109aa7

def q128 : Nat := 0xc685fa11e01ec6f1

/-- A 128-bit key: `E = 65537`, `D = E⁻¹ mod (P - 1)(Q - 1)`, with its CRT values. The
library reads and writes a key of this size; it refuses to sign with it. -/
def key128 : rsa.PrivateKey :=
  { PublicKey := { N := p128 * q128, E := 65537 },
    D := 0x15cccaa1827d6ee413b0ec551d332b21,
    P := p128, Q := q128,
    Precomputed := ⟨some 0x8f102c17cf9b6bf3, some 0x6624d91e096acc81, some 0x10b48ae1f95291a3⟩ }

/-- The message of the scenario: the bytes of "hello world". -/
def helloWorld : List Byte := strBytes "hello world"

/-- The signature of "hello world" under `key2048`. -/
def sigHello : List Byte := big.FillBytes 256
  0x94db7b2b7711b4a77e11176dec9b3fe0f05d680b32b77356eaf49d74a56ca0a21ce59549029420f59f38b3d95c602b3f1b25812712df3321a6da0ae4df2d63467f866a73f989dd10382d1a667d15b170cbcd61081b642baf63ae63af667fbd60d38e72297e44f12b08cc0a20ebffb4aebcb1aadd1e6a1eeddbcd875817e8b8c2a37fc25e14523740cc4a8434944ab339e87e8b046b6a499580ebace8f9a61c38101253119f8658588d939dd0e79a5f79d6d93a270881203d7e2268aad54653971147fc93ae99c439c06d95565f2bb4bdccd9da3cd5f54af04d3e811f4d8d11032131013133ffbf76459b3a6d057a75cb73c8dbb92884f6a34deaee286e868c61

/-- A PEM text in a "PUBLIC KEY" container that holds an elliptic-curve key: an ECDSA public
key on the curve P-256, made with OpenSSL. -/
def ecPublicKeyPEM : List Byte := strBytes
  "-----BEGIN PUBLIC KEY-----\nMFkwEwYHKoZIzj0CAQYIKoZIzj0DAQcDQgAEgRzhJJJNzoXOAEQDH+WCIzbP5Gfd\nb7hR+xq/KFsX3ja95zp8LdRxyQf/5M5VTJ/klvCTRpD30KFZn+hJFPTXdQ==\n-----END PUBLIC KEY-----\n"

/-- The DER body of `key128` in a container labelled "RSA PRIVATE KEY". -/
def key128PEM : List Byte :=
  pem.EncodeToMemory (strBytes "RSA PRIVATE KEY") (x509.MarshalPKCS1PrivateKey key128)

/-- The same DER body in a container labelled "PUBLIC KEY". -/
def key128OtherLabelPEM : List Byte :=
  pem.EncodeToMemory (strBytes "PUBLIC KEY") (x509.MarshalPKCS1PrivateKey key128)

end keys

/-! ## Lemmas: math/big -/

namespace big

theorem bitLenLoop_spec (fuel : Nat) : ∀ n, n ≤ fuel → n ≠ 0 →
    2 ^ (bitLenLoop fuel n - 1) ≤ n ∧ n < 2 ^ bitLenLoop fuel n ∧ 0 < bitLenLoop fuel n := by
  induction fuel with
  | zero => intro n h h0; omega
  | succ f ih =>
    intro n h h0
    simp only [bitLenLoop, if_neg h0]
    by_cases h2 : n / 2 = 0
    · have h1 : n = 1 := by omega
      subst h1
      cases f <;> simp [bitLenLoop]
    · obtain ⟨a, b, c⟩ := ih (n / 2) (by omega) h2
      refine ⟨?_, ?_, by omega⟩
      · have e : bitLenLoop f (n / 2) + 1 - 1 = (bitLenLoop f (n / 2) - 1) + 1 := by omega
        rw [e, pow_succ]
        omega
      · rw [pow_succ]
        omega

theorem BitLen_zero : BitLen 0 = 0 := rfl

theorem lt_two_pow_BitLen (n : Nat) : n < 2 ^ BitLen n := by
  by_cases h : n = 0
  · subst h; simp [BitLen_zero]
  · exact (bitLenLoop_spec n n le_rfl h).2.1

theorem two_pow_BitLen_le (n : Nat) (h : n ≠ 0) : 2 ^ (BitLen n - 1) ≤ n :=
  (bitLenLoop_spec n n le_rfl h).1

theorem BitLen_pos (n : Nat) (h : n ≠ 0) : 0 < BitLen n :=
  (bitLenLoop_spec n n le_rfl h).2.2

theorem expLoop_spec (m : Nat) (fuel : Nat) : ∀ x y acc, y < 2 ^ fuel → acc < m →
    expLoop m fuel x y acc = acc * x ^ y % m := by
  induction fuel with
  | zero =>
    intro x y acc hy hacc
    have : y = 0 := by simpa using hy
    subst this
    simp [expLoop, Nat.mod_eq_of_lt hacc]
  | succ f ih =>
    intro x y acc hy hacc
    simp only [expLoop]
    split_ifs with h0 h1
    · subst h0; simp [Nat.mod_eq_of_lt hacc]
    · rw [ih _ _ _ (by rw [pow_succ] at hy; omega) (Nat.mod_lt _ (by omega))]
      have hy2 : x ^ y = x * (x * x) ^ (y / 2) := by
        conv_lhs => rw [show y = 2 * (y / 2) + 1 by omega]
        rw [pow_succ, pow_mul, sq, mul_comm]
      have e : Nat.ModEq m (acc * x % m * (x * x % m) ^ (y / 2)) (acc * x * (x * x) ^ (y / 2)) :=
        (Nat.mod_modEq _ _).mul ((Nat.mod_modEq _ _).pow _)
      rw [hy2, ← mul_assoc]
      exact e
    · rw [ih _ _ _ (by rw [pow_succ] at hy; omega) hacc]
      have hy2 : x ^ y = (x * x) ^ (y / 2) := by
        conv_lhs => rw [show y = 2 * (y / 2) by omega]
        rw [pow_mul, sq]
      have e : Nat.ModEq m (acc * (x * x % m) ^ (y / 2)) (acc * (x * x) ^ (y / 2)) :=
        (Nat.ModEq.refl _).mul ((Nat.mod_modEq _ _).pow _)
      rw [hy2]
      exact e

/-- `Exp` computes the modular power. -/
theorem Exp_eq (x y m : Nat) (hm : 0 < m) : Exp x y m = x ^ y % m := by
  unfold Exp
  by_cases h1 : m = 1
  · subst h1
    have : ∀ fuel x y, expLoop 1 fuel x y 0 = 0 := by
      intro fuel
      induction fuel with
      | zero => intro x y; rfl
      | succ f ih => intro x y; simp only [expLoop]; split_ifs <;> simp [ih, Nat.mod_one]
    simp [Nat.mod_one, this]
  · rw [expLoop_spec m _ _ _ _ (lt_two_pow_BitLen y) (Nat.mod_lt _ hm)]
    rw [Nat.mul_mod, Nat.mod_mod, ← Nat.pow_mod, ← Nat.mul_mod, one_mul]

end big

namespace big

theorem SetBytes_nil : SetBytes [] = 0 := rfl

theorem foldl_setBytes (bs : List Byte) : ∀ a : Nat,
    bs.foldl (fun acc b => acc * 256 + b.val) a = a * 256 ^ bs.length + SetBytes bs := by
  induction bs with
  | nil => intro a; simp [SetBytes]
  | cons b bs ih =>
    intro a
    simp only [List.foldl_cons, List.length_cons, SetBytes]
    rw [ih, ih (0 * 256 + b.val)]
    ring

theorem SetBytes_cons (b : Byte) (bs : List Byte) :
    SetBytes (b :: bs) = b.val * 256 ^ bs.length + SetBytes bs := by
  simp only [SetBytes, List.foldl_cons]
  rw [foldl_setBytes]
  simp [SetBytes]

theorem SetBytes_append (a b : List Byte) :
    SetBytes (a ++ b) = SetBytes a * 256 ^ b.length + SetBytes b := by
  simp only [SetBytes, List.foldl_append]
  rw [foldl_setBytes]
  rfl

theorem SetBytes_lt (bs : List Byte) : SetBytes bs < 256 ^ bs.length := by
  induction bs with
  | nil => simp [SetBytes]
  | cons b bs ih =>
    rw [SetBytes_cons, List.length_cons, pow_succ]
    have hb := b.isLt
    have hp : 0 < 256 ^ bs.length := Nat.pos_of_ne_zero (by positivity)
    nlinarith

theorem FillBytes_length (k : Nat) : ∀ n, (FillBytes k n).length = k := by
  induction k with
  | zero => intro n; rfl
  | succ k ih => intro n; simp [FillBytes, ih]

theorem SetBytes_FillBytes (k : Nat) : ∀ n, SetBytes (FillBytes k n) = n % 256 ^ k := by
  induction k with
  | zero => intro n; simp [FillBytes, SetBytes, Nat.mod_one]
  | succ k ih =>
    intro n
    simp only [FillBytes]
    rw [SetBytes_append, ih]
    simp only [List.length_singleton, pow_one, SetBytes, List.foldl_cons, List.foldl_nil,
      Fin.ofNat, zero_mul, zero_add]
    have := Nat.mod_mul (a := 256) (b := 256 ^ k) (x := n)
    rw [pow_succ, Nat.mul_comm (256 ^ k) 256, this]
    ring

theorem FillBytes_SetBytes_snoc (k : Nat) (n : Nat) (b : Byte) :
    FillBytes (k + 1) (n * 256 + b.val) = FillBytes k n ++ [b] := by
  simp only [FillBytes]
  have h1 : (n * 256 + b.val) / 256 = n := by have := b.isLt; omega
  have h2 : (Fin.ofNat (n * 256 + b.val) : Byte) = b := by
    apply Fin.ext
    simp only [Fin.ofNat]
    have := b.isLt
    omega
  rw [h1, h2]

theorem FillBytes_SetBytes (bs : List Byte) : FillBytes bs.length (SetBytes bs) = bs := by
  induction bs using List.reverseRecOn with
  | nil => rfl
  | append_singleton bs b ih =>
    rw [SetBytes_append, List.length_append, List.length_singleton, pow_one]
    have : SetBytes [b] = b.val := by simp [SetBytes]
    rw [this, FillBytes_SetBytes_snoc, ih]

/-- On values that fit in `k` bytes `FillBytes k` is injective. -/
theorem FillBytes_inj (k x y : Nat) (hx : x < 256 ^ k) (hy : y < 256 ^ k)
    (h : FillBytes k x = FillBytes k y) : x = y := by
  have := congrArg SetBytes h
  rwa [SetBytes_FillBytes, SetBytes_FillBytes, Nat.mod_eq_of_lt hx, Nat.mod_eq_of_lt hy] at this

theorem BitLen_mono {a b : Nat} (h : a ≤ b) : BitLen a ≤ BitLen b := by
  by_cases ha : a = 0
  · subst ha; simp [BitLen_zero]
  · by_contra hc
    have h1 := two_pow_BitLen_le a ha
    have h2 := lt_two_pow_BitLen b
    have h3 : 2 ^ BitLen b ≤ 2 ^ (BitLen a - 1) :=
      Nat.pow_le_pow_right (by norm_num) (by omega)
    omega

theorem BitLen_le_of_lt_pow {a k : Nat} (h : a < 2 ^ k) : BitLen a ≤ k := by
  by_cases ha : a = 0
  · subst ha; simp [BitLen_zero]
  · by_contra hc
    have h1 := two_pow_BitLen_le a ha
    have h3 : 2 ^ k ≤ 2 ^ (BitLen a - 1) := Nat.pow_le_pow_right (by norm_num) (by omega)
    omega

theorem byteLen_bound (n : Nat) : n < 256 ^ ((BitLen n + 7) / 8) := by
  refine lt_of_lt_of_le (lt_two_pow_BitLen n) ?_
  have : (256 : Nat) ^ ((BitLen n + 7) / 8) = 2 ^ (8 * ((BitLen n + 7) / 8)) := by
    rw [pow_mul]; norm_num
  rw [this]
  exact Nat.pow_le_pow_right (by norm_num) (by omega)

theorem Bytes_length (n : Nat) : (Bytes n).length = (BitLen n + 7) / 8 := FillBytes_length _ _

theorem SetBytes_Bytes (n : Nat) : SetBytes (Bytes n) = n := by
  unfold Bytes
  rw [SetBytes_FillBytes, Nat.mod_eq_of_lt (byteLen_bound n)]

end big

/-! ## Lemmas: crypto/internal/fips140/bigmod -/

namespace bigmod

theorem NewModulus_Bytes (n : Nat) (h : 1 < n) : NewModulus (big.Bytes n) = .ok n := by
  unfold NewModulus
  simp only [big.SetBytes_Bytes]
  rw [if_neg (by omega)]

theorem NewModulus_ok {b : List Byte} {n : Nat} (h : NewModulus b = .ok n) :
    n = big.SetBytes b ∧ 1 < n := by
  unfold NewModulus at h
  simp only at h
  split_ifs at h with h1
  simp only [Except.ok.injEq] at h
  subst h
  exact ⟨rfl, by omega⟩

theorem SetBytes_ok {b : List Byte} {m v : Nat} (h : SetBytes b m = .ok v) :
    v = big.SetBytes b ∧ v < m := by
  unfold SetBytes at h
  split_ifs at h with h1 h2
  simp only [Except.ok.injEq] at h
  subst h
  exact ⟨rfl, by omega⟩

theorem SetBytes_of_lt {b : List Byte} {m : Nat} (hl : b.length ≤ 8 * limbs m)
    (h : big.SetBytes b < m) : SetBytes b m = .ok (big.SetBytes b) := by
  unfold SetBytes
  rw [if_neg (by omega), if_neg (by omega)]

/-- A number below `m`, in its minimal bytes, is accepted. -/
theorem SetBytes_big_Bytes {d m : Nat} (h : d < m) : SetBytes (big.Bytes d) m = .ok d := by
  have := SetBytes_of_lt (b := big.Bytes d) (m := m)
    (by rw [big.Bytes_length]; have := big.BitLen_mono h.le; unfold limbs; omega)
    (by rw [big.SetBytes_Bytes]; exact h)
  rwa [big.SetBytes_Bytes] at this

end bigmod
/-! ## Lemmas: crypto/internal/fips140/rsa -/

namespace fips140.rsa

theorem checkPublicKey_facts {pub : PublicKey} (h : checkPublicKey pub = none) :
    pub.N % 2 = 1 ∧ 2 ≤ pub.E ∧ pub.E % 2 = 1 ∧ pub.E < 2 ^ 31 := by
  unfold checkPublicKey at h
  split_ifs at h with h1 h2 h3 h4
  refine ⟨by omega, by omega, by omega, ?_⟩
  have : (2 : Nat) ^ 31 - 1 + 1 = 2 ^ 31 := by norm_num
  omega

theorem Bytes_self (p : Nat) : big.SetBytes (bigmod.Bytes p p) = p := by
  unfold bigmod.Bytes bigmod.Size
  rw [big.SetBytes_FillBytes, Nat.mod_eq_of_lt (big.byteLen_bound p)]

theorem Bytes_pred (p : Nat) : big.SetBytes (bigmod.Bytes (p - 1) p) = p - 1 := by
  unfold bigmod.Bytes bigmod.Size
  rw [big.SetBytes_FillBytes,
    Nat.mod_eq_of_lt (lt_of_le_of_lt (Nat.sub_le p 1) (big.byteLen_bound p))]

/-- What `checkPrivateKey` has checked on a key it lets through. -/
theorem checkPrivateKey_facts {priv : PrivateKey} (h : checkPrivateKey priv = none) :
    checkPublicKey priv.pub = none ∧ priv.p < priv.pub.N ∧ priv.q < priv.pub.N ∧
    priv.p * priv.q % priv.pub.N = 0 ∧ 2 < priv.p ∧ 2 < priv.q ∧
    priv.dP < priv.p - 1 ∧ priv.pub.E * priv.dP % (priv.p - 1) = 1 ∧
    priv.dQ < priv.q - 1 ∧ priv.pub.E * priv.dQ % (priv.q - 1) = 1 ∧
    priv.q % priv.p * priv.qInv % priv.p = 1 ∧ priv.p ≠ priv.q ∧
    big.BitLen priv.pub.N / 2 < big.BitLen priv.d := by
  unfold checkPrivateKey at h
  split at h
  · cases h
  rename_i hpub
  simp only at h
  split at h
  · cases h
  rename_i pN hpN
  split at h
  · cases h
  rename_i qN hqN
  obtain ⟨e1, l1⟩ := bigmod.SetBytes_ok hpN
  obtain ⟨e2, l2⟩ := bigmod.SetBytes_ok hqN
  rw [Bytes_self] at e1 e2
  subst e1 e2
  by_cases c1 : priv.p * priv.q % priv.pub.N ≠ 0
  · rw [if_pos c1] at h; cases h
  rw [if_neg c1] at h
  cases hpm : bigmod.NewModulus (bigmod.Bytes (priv.p - 1) priv.p) with
  | error e => rw [hpm] at h; cases h
  | ok pm =>
    rw [hpm] at h
    simp only at h
    obtain ⟨e3, l3⟩ := bigmod.NewModulus_ok hpm
    rw [Bytes_pred] at e3
    subst e3
    by_cases c2 : priv.dP ≥ priv.p - 1
    · rw [if_pos c2] at h; cases h
    rw [if_neg c2] at h
    by_cases c3 : priv.pub.E * priv.dP % (priv.p - 1) ≠ 1
    · rw [if_pos c3] at h; cases h
    rw [if_neg c3] at h
    cases hqm : bigmod.NewModulus (bigmod.Bytes (priv.q - 1) priv.q) with
    | error e => rw [hqm] at h; cases h
    | ok qm =>
      rw [hqm] at h
      simp only at h
      obtain ⟨e4, l4⟩ := bigmod.NewModulus_ok hqm
      rw [Bytes_pred] at e4
      subst e4
      by_cases c4 : priv.dQ ≥ priv.q - 1
      · rw [if_pos c4] at h; cases h
      rw [if_neg c4] at h
      by_cases c5 : priv.pub.E * priv.dQ % (priv.q - 1) ≠ 1
      · rw [if_pos c5] at h; cases h
      rw [if_neg c5] at h
      by_cases c6 : priv.q % priv.p * priv.qInv % priv.p ≠ 1
      · rw [if_pos c6] at h; cases h
      rw [if_neg c6] at h
      by_cases c7 : priv.p = priv.q
      · rw [if_pos c7] at h; cases h
      rw [if_neg c7] at h
      split_ifs at h
      all_goals exact ⟨hpub, l1, l2, by simpa using c1, by omega, by omega, by omega, by simpa using c3,
          by omega, by simpa using c5, by simpa using c6, c7, by omega⟩

/-- The checks pin the modulus down when the factors are prime: `N = p * q`. -/
theorem modulus_eq {N p q : Nat} (hp : p.Prime) (hq : q.Prime) (hpN : p < N) (hqN : q < N)
    (h : p * q % N = 0) : N = p * q := by
  have hd : N ∣ p * q := Nat.dvd_of_mod_eq_zero h
  by_cases hpd : p ∣ N
  · obtain ⟨m, rfl⟩ := hpd
    have hm : m ∣ q := Nat.dvd_of_mul_dvd_mul_left hp.pos hd
    rcases (Nat.dvd_prime hq).1 hm with rfl | rfl
    · omega
    · rfl
  · have hc : Nat.Coprime N p := (Nat.Coprime.symm ((Nat.Prime.coprime_iff_not_dvd hp).2 hpd))
    have : N ∣ q := hc.dvd_of_dvd_mul_left hd
    have := Nat.le_of_dvd hq.pos this
    omega

end fips140.rsa
namespace fips140.rsa

theorem newPrivateKey_ok {n e d p q : Nat} {k : PrivateKey}
    (h : newPrivateKey n e d p q = .ok k) :
    k = ⟨⟨n, e⟩, d, p, q, d % (p - 1), d % (q - 1), big.Exp (q % p) (p - 2) p⟩ ∧
      checkPrivateKey k = none := by
  unfold newPrivateKey at h
  cases hpm : bigmod.NewModulus (bigmod.Bytes (p - 1) p) with
  | error e => rw [hpm] at h; cases h
  | ok pm =>
    rw [hpm] at h
    simp only at h
    obtain ⟨e3, _⟩ := bigmod.NewModulus_ok hpm
    rw [Bytes_pred] at e3
    subst e3
    cases hqm : bigmod.NewModulus (bigmod.Bytes (q - 1) q) with
    | error e => rw [hqm] at h; cases h
    | ok qm =>
      rw [hqm] at h
      simp only at h
      obtain ⟨e4, _⟩ := bigmod.NewModulus_ok hqm
      rw [Bytes_pred] at e4
      subst e4
      by_cases c : p % 2 = 0
      · rw [if_pos c] at h; cases h
      rw [if_neg c] at h
      cases hc : checkPrivateKey
          ⟨⟨n, e⟩, d, p, q, d % (p - 1), d % (q - 1), big.Exp (q % p) (p - 2) p⟩ with
      | some err => rw [hc] at h; cases h
      | none =>
        rw [hc] at h
        simp only [Except.ok.injEq] at h
        subst h
        exact ⟨rfl, hc⟩

/-- A key that `NewPrivateKey` returns: its fields, and what was checked. -/
theorem NewPrivateKey_ok {N e D P Q : Nat} {k : PrivateKey}
    (h : NewPrivateKey (big.Bytes N) e (big.Bytes D) (big.Bytes P) (big.Bytes Q) = .ok k) :
    k = ⟨⟨N, e⟩, D, P, Q, D % (P - 1), D % (Q - 1), big.Exp (Q % P) (P - 2) P⟩ ∧
      checkPrivateKey k = none ∧ D < N := by
  unfold NewPrivateKey at h
  cases h1 : bigmod.NewModulus (big.Bytes N) with
  | error e => rw [h1] at h; cases h
  | ok n =>
    rw [h1] at h
    simp only at h
    obtain ⟨e1, _⟩ := bigmod.NewModulus_ok h1
    rw [big.SetBytes_Bytes] at e1
    subst e1
    cases h2 : bigmod.NewModulus (big.Bytes P) with
    | error e => rw [h2] at h; cases h
    | ok p =>
      rw [h2] at h
      simp only at h
      obtain ⟨e2, _⟩ := bigmod.NewModulus_ok h2
      rw [big.SetBytes_Bytes] at e2
      subst e2
      cases h3 : bigmod.NewModulus (big.Bytes Q) with
      | error e => rw [h3] at h; cases h
      | ok q =>
        rw [h3] at h
        simp only at h
        obtain ⟨e3, _⟩ := bigmod.NewModulus_ok h3
        rw [big.SetBytes_Bytes] at e3
        subst e3
        cases h4 : bigmod.SetBytes (big.Bytes D) n with
        | error e => rw [h4] at h; cases h
        | ok dN =>
          rw [h4] at h
          simp only at h
          obtain ⟨e4, l4⟩ := bigmod.SetBytes_ok h4
          rw [big.SetBytes_Bytes] at e4
          subst e4
          obtain ⟨a, b⟩ := newPrivateKey_ok h
          exact ⟨a, b, l4⟩

/-- A key that `NewPrivateKeyWithPrecomputation` returns: its fields, and what was checked. -/
theorem NewPrivateKeyWithPrecomputation_ok {N e D P Q dp dq qinv : Nat} {k : PrivateKey}
    (h : NewPrivateKeyWithPrecomputation (big.Bytes N) e (big.Bytes D) (big.Bytes P)
      (big.Bytes Q) (big.Bytes dp) (big.Bytes dq) (big.Bytes qinv) = .ok k) :
    k = ⟨⟨N, e⟩, D, P, Q, dp, dq, qinv⟩ ∧ checkPrivateKey k = none ∧ D < N ∧ qinv < P := by
  unfold NewPrivateKeyWithPrecomputation at h
  cases h1 : bigmod.NewModulus (big.Bytes N) with
  | error e => rw [h1] at h; cases h
  | ok n =>
    rw [h1] at h
    simp only at h
    obtain ⟨e1, _⟩ := bigmod.NewModulus_ok h1
    rw [big.SetBytes_Bytes] at e1
    subst e1
    cases h2 : bigmod.NewModulus (big.Bytes P) with
    | error e => rw [h2] at h; cases h
    | ok p =>
      rw [h2] at h
      simp only at h
      obtain ⟨e2, _⟩ := bigmod.NewModulus_ok h2
      rw [big.SetBytes_Bytes] at e2
      subst e2
      cases h3 : bigmod.NewModulus (big.Bytes Q) with
      | error e => rw [h3] at h; cases h
      | ok q =>
        rw [h3] at h
        simp only at h
        obtain ⟨e3, _⟩ := bigmod.NewModulus_ok h3
        rw [big.SetBytes_Bytes] at e3
        subst e3
        cases h4 : bigmod.SetBytes (big.Bytes D) n with
        | error e => rw [h4] at h; cases h
        | ok dN =>
          rw [h4] at h
          simp only at h
          obtain ⟨e4, l4⟩ := bigmod.SetBytes_ok h4
          rw [big.SetBytes_Bytes] at e4
          subst e4
          cases h5 : bigmod.SetBytes (big.Bytes qinv) p with
          | error e => rw [h5] at h; cases h
          | ok qi =>
            rw [h5] at h
            simp only at h
            obtain ⟨e5, l5⟩ := bigmod.SetBytes_ok h5
            rw [big.SetBytes_Bytes] at e5
            subst e5
            simp only [big.SetBytes_Bytes] at h
            cases hc : checkPrivateKey ⟨⟨n, e⟩, dN, p, q, dp, dq, qi⟩ with
            | some err => rw [hc] at h; cases h
            | none =>
              rw [hc] at h
              simp only [Except.ok.injEq] at h
              subst h
              exact ⟨rfl, hc, l4, l5⟩

/-- A checked key whose `d` and `qInv` are reduced is rebuilt from its own values. -/
theorem NewPrivateKeyWithPrecomputation_of_check (k : PrivateKey)
    (hc : checkPrivateKey k = none) (hd : k.d < k.pub.N) (hq : k.qInv < k.p) :
    NewPrivateKeyWithPrecomputation (big.Bytes k.pub.N) k.pub.E (big.Bytes k.d)
      (big.Bytes k.p) (big.Bytes k.q) (big.Bytes k.dP) (big.Bytes k.dQ) (big.Bytes k.qInv) =
      .ok k := by
  obtain ⟨_, hpN, hqN, _, hp2, hq2, _⟩ := checkPrivateKey_facts hc
  unfold NewPrivateKeyWithPrecomputation
  rw [bigmod.NewModulus_Bytes _ (by omega), bigmod.NewModulus_Bytes _ (by omega),
    bigmod.NewModulus_Bytes _ (by omega)]
  simp only
  rw [bigmod.SetBytes_big_Bytes hd, bigmod.SetBytes_big_Bytes hq]
  simp only [big.SetBytes_Bytes]
  rw [hc]

end fips140.rsa

/-! ## Lemmas: crypto/rsa -/

namespace rsa

/-- What `precompute` returns: the module's key holds the fields of the key, the precomputed
values are its CRT values, and the key has passed `checkPrivateKey`. -/
theorem PrivateKey.precompute_ok {priv : PrivateKey} {pre : PrecomputedValues}
    {k : fips140.rsa.PrivateKey} (h : priv.precompute = .ok (pre, k)) :
    k.pub = ⟨priv.PublicKey.N, priv.PublicKey.E⟩ ∧ k.d = priv.D ∧ k.p = priv.P ∧
    k.q = priv.Q ∧ pre = ⟨some k.dP, some k.dQ, some k.qInv⟩ ∧
    fips140.rsa.checkPrivateKey k = none ∧ priv.D < priv.PublicKey.N ∧ k.qInv < priv.P := by
  unfold PrivateKey.precompute at h
  split at h
  · rename_i dp dq qinv h1 h2 h3
    split at h
    · cases h
    · rename_i k' hk
      simp only [Except.ok.injEq, Prod.mk.injEq] at h
      obtain ⟨rfl, rfl⟩ := h
      obtain ⟨rfl, hc, hd, hq⟩ := fips140.rsa.NewPrivateKeyWithPrecomputation_ok hk
      refine ⟨rfl, rfl, rfl, rfl, ?_, hc, hd, hq⟩
      simp only [← h1, ← h2, ← h3]
  · split at h
    · cases h
    · rename_i k' hk
      simp only [Except.ok.injEq, Prod.mk.injEq] at h
      obtain ⟨rfl, rfl⟩ := h
      obtain ⟨hk', hc, hd⟩ := fips140.rsa.NewPrivateKey_ok hk
      obtain ⟨_, _, _, _, hp2, _⟩ := fips140.rsa.checkPrivateKey_facts hc
      refine ⟨by rw [hk'], by rw [hk'], by rw [hk'], by rw [hk'], rfl, hc, hd, ?_⟩
      have hp : k'.p = priv.P := by rw [hk']
      rw [hp] at hp2
      rw [hk']
      simp only
      rw [big.Exp_eq _ _ _ (by omega)]
      exact Nat.mod_lt _ (by omega)

/-- Once set by `Precompute`, the precomputed values are kept: `precompute` gives the same
values and the same key of the module again. -/
theorem PrivateKey.precompute_Precompute {priv : PrivateKey} {pre : PrecomputedValues}
    {k : fips140.rsa.PrivateKey} (h : priv.precompute = .ok (pre, k)) :
    PrivateKey.precompute { priv with Precomputed := pre } = .ok (pre, k) := by
  obtain ⟨h1, h2, h3, h4, h5, hc, hd, hq⟩ := PrivateKey.precompute_ok h
  subst h5
  unfold PrivateKey.precompute
  simp only
  have := fips140.rsa.NewPrivateKeyWithPrecomputation_of_check k hc
    (by rw [h1, h2]; exact hd) (by rw [h3]; exact hq)
  rw [h1, h2, h3, h4] at this
  simp only at this
  rw [this]

end rsa
namespace rsa

/-- What a structurally valid key gives: the module's key made from it, the facts
`checkPrivateKey` has checked, and the arithmetic of the two primes. -/
theorem PrivateKey.WellFormed.facts {priv : PrivateKey} (h : priv.WellFormed) :
    ∃ pre k, priv.precompute = .ok (pre, k) ∧
      k = ⟨⟨priv.PublicKey.N, priv.PublicKey.E⟩, priv.D, priv.P, priv.Q, k.dP, k.dQ, k.qInv⟩ ∧
      priv.PublicKey.E * k.dP % (priv.P - 1) = 1 ∧
      priv.PublicKey.E * k.dQ % (priv.Q - 1) = 1 ∧
      priv.Q % priv.P * k.qInv % priv.P = 1 ∧
      Nat.Prime priv.P ∧ Nat.Prime priv.Q ∧ priv.P ≠ priv.Q ∧
      priv.PublicKey.N = priv.P * priv.Q ∧
      priv.PublicKey.E * priv.D % (priv.P - 1) = 1 ∧
      priv.PublicKey.E * priv.D % (priv.Q - 1) = 1 ∧
      priv.PublicKey.N % 2 = 1 ∧ 2 ≤ priv.PublicKey.E ∧ priv.PublicKey.E < 2 ^ 31 ∧
      fips140.rsa.checkPublicKey ⟨priv.PublicKey.N, priv.PublicKey.E⟩ = none := by
  obtain ⟨hv, hp, hq, hd1, hd2⟩ := h
  unfold PrivateKey.Validate at hv
  cases hpc : priv.precompute with
  | error e => rw [hpc] at hv; cases hv
  | ok r =>
    obtain ⟨pre, k⟩ := r
    obtain ⟨h1, h2, h3, h4, _, hc, _, _⟩ := PrivateKey.precompute_ok hpc
    obtain ⟨hpub, hpN, hqN, hpq, _, _, _, c1, _, c2, c3, hne, _⟩ :=
      fips140.rsa.checkPrivateKey_facts hc
    obtain ⟨o1, o2, _, o4⟩ := fips140.rsa.checkPublicKey_facts hpub
    have hpub' := hpub
    rw [h1] at hpN hqN hpq o1 o2 o4 c1 c2 hpub'
    rw [h3, h4] at hpq c3 hne
    rw [h3] at hpN c1
    rw [h4] at hqN c2
    simp only at hpN hqN hpq o1 o2 o4 c1 c2
    refine ⟨pre, k, rfl, ?_, c1, c2, c3, hp, hq, hne,
      fips140.rsa.modulus_eq hp hq hpN hqN hpq, hd1, hd2, o1, o2, o4, hpub'⟩
    cases k
    simp only at h1 h2 h3 h4
    simp only [h1, h2, h3, h4]

/-- Fermat: a power whose exponent is 1 modulo `p - 1` fixes every residue modulo `p`. -/
theorem pow_modEq_self_of_prime {p : Nat} (hp : p.Prime) {k : Nat} (hk : k % (p - 1) = 1)
    (x : Nat) : Nat.ModEq p (x ^ k) x := by
  have hk' : k = (p - 1) * (k / (p - 1)) + 1 := by
    have := Nat.div_add_mod k (p - 1)
    omega
  by_cases hx : p ∣ x
  · have h0 : Nat.ModEq p x 0 := (Nat.modEq_zero_iff_dvd).2 hx
    have h1 : Nat.ModEq p (x ^ k) 0 := by
      apply (Nat.modEq_zero_iff_dvd).2
      exact dvd_pow hx (by omega)
    exact h1.trans h0.symm
  · have hc : Nat.Coprime x p := ((Nat.Prime.coprime_iff_not_dvd hp).2 hx).symm
    have ht := Nat.ModEq.pow_totient hc
    rw [Nat.totient_prime hp] at ht
    rw [hk', pow_succ, pow_mul]
    have := (ht.pow (k / (p - 1))).mul_right x
    simpa using this

/-- The RSA identity: for a structurally valid key, raising to `E * D` fixes every residue
modulo `N`. -/
theorem pow_ed_modEq {priv : PrivateKey} (h : priv.WellFormed) (x : Nat) :
    Nat.ModEq priv.PublicKey.N (x ^ (priv.PublicKey.E * priv.D)) x := by
  obtain ⟨_, _, _, _, _, _, _, hp, hq, hne, hn, h1, h2, _⟩ := h.facts
  rw [hn]
  have hc : Nat.Coprime priv.P priv.Q := (Nat.coprime_primes hp hq).2 hne
  exact (Nat.modEq_and_modEq_iff_modEq_mul hc).1
    ⟨pow_modEq_self_of_prime hp h1 x, pow_modEq_self_of_prime hq h2 x⟩

theorem N_pos {priv : PrivateKey} (h : priv.WellFormed) : 0 < priv.PublicKey.N := by
  obtain ⟨_, _, _, _, _, _, _, hp, hq, _, hn, _⟩ := h.facts
  rw [hn]
  exact Nat.mul_pos hp.pos hq.pos

/-- The public operation of a structurally valid key is injective on residues modulo `N`. -/
theorem pow_E_inj {priv : PrivateKey} (h : priv.WellFormed) (x y : Nat)
    (hxy : Nat.ModEq priv.PublicKey.N (x ^ priv.PublicKey.E) (y ^ priv.PublicKey.E)) :
    Nat.ModEq priv.PublicKey.N x y := by
  have e2 := hxy.pow priv.D
  rw [← pow_mul, ← pow_mul] at e2
  exact ((pow_ed_modEq h x).symm.trans e2).trans (pow_ed_modEq h y)

/-- The CRT computation of `decrypt`, before the check: a number below `N` whose `E`-th power
is the input. -/
theorem crt_pow {priv : PrivateKey} (h : priv.WellFormed) (dP dQ qInv : Nat)
    (c1 : priv.PublicKey.E * dP % (priv.P - 1) = 1)
    (c2 : priv.PublicKey.E * dQ % (priv.Q - 1) = 1)
    (c3 : priv.Q % priv.P * qInv % priv.P = 1) (c : Nat) :
    Nat.ModEq priv.PublicKey.N
      (((((c % priv.P) ^ dP % priv.P + priv.P - (c % priv.Q) ^ dQ % priv.Q % priv.P) % priv.P *
        qInv % priv.P * (priv.Q % priv.PublicKey.N) % priv.PublicKey.N +
        (c % priv.Q) ^ dQ % priv.Q) % priv.PublicKey.N) ^ priv.PublicKey.E) c := by
  obtain ⟨_, _, _, _, _, _, _, hp, hq, hne, hn, _⟩ := h.facts
  have hc : Nat.Coprime priv.P priv.Q := (Nat.coprime_primes hp hq).2 hne
  set P := priv.P
  set Q := priv.Q
  set N := priv.PublicKey.N
  set E := priv.PublicKey.E
  set m1 := (c % P) ^ dP % P with hm1
  set m2 := (c % Q) ^ dQ % Q with hm2
  set a := (m1 + P - m2 % P) % P with ha
  set hh := a * qInv % P with hhh
  have hPpos : 0 < P := hp.pos
  have hP1 : 1 < P := hp.one_lt
  -- the result, modulo N
  have e0 : Nat.ModEq N ((hh * (Q % N) % N + m2) % N) (hh * Q + m2) :=
    (Nat.mod_modEq _ _).trans
      (((Nat.mod_modEq _ _).trans ((Nat.ModEq.refl hh).mul (Nat.mod_modEq _ _))).add_right _)
  have e0' : Nat.ModEq (P * Q) ((hh * (Q % N) % N + m2) % N) (hh * Q + m2) := by
    rw [← hn]
    exact e0
  obtain ⟨e0P, e0Q⟩ := (Nat.modEq_and_modEq_iff_modEq_mul hc).2 e0'
  -- modulo Q
  have eQ : Nat.ModEq Q (hh * Q + m2) (c ^ dQ) := by
    have t1 : Nat.ModEq Q (hh * Q + m2) m2 := by
      show (hh * Q + m2) % Q = m2 % Q
      rw [Nat.add_comm, Nat.add_mul_mod_self_right]
    exact t1.trans ((Nat.mod_modEq _ _).trans ((Nat.mod_modEq _ _).pow _))
  -- modulo P
  have hinv : Nat.ModEq P (qInv * Q) 1 := by
    have t1 : Nat.ModEq P (Q % P * qInv) (Q * qInv) := (Nat.mod_modEq _ _).mul_right _
    have t2 : Nat.ModEq P (Q % P * qInv) 1 := by
      show Q % P * qInv % P = 1 % P
      rw [c3, Nat.mod_eq_of_lt hP1]
    rw [Nat.mul_comm qInv Q]
    exact t1.symm.trans t2
  have hsub : Nat.ModEq P (a + m2) m1 := by
    have hlt : m2 % P < P := Nat.mod_lt _ hPpos
    have t1 : Nat.ModEq P (a + m2) (m1 + P - m2 % P + m2 % P) :=
      (Nat.mod_modEq _ _).add (Nat.mod_modEq _ _).symm
    have t2 : m1 + P - m2 % P + m2 % P = m1 + P := by omega
    rw [t2] at t1
    have t3 : Nat.ModEq P (m1 + P) m1 := by
      show (m1 + P) % P = m1 % P
      rw [Nat.add_mod_right]
    exact t1.trans t3
  have eP : Nat.ModEq P (hh * Q + m2) (c ^ dP) := by
    have t1 : Nat.ModEq P (hh * Q) (a * (qInv * Q)) := by
      have := (Nat.mod_modEq (a * qInv) P).mul_right Q
      rwa [mul_assoc] at this
    have t2 : Nat.ModEq P (a * (qInv * Q)) (a * 1) := (Nat.ModEq.refl a).mul hinv
    rw [mul_one] at t2
    have t3 := ((t1.trans t2).add_right m2).trans hsub
    exact t3.trans ((Nat.mod_modEq _ _).trans ((Nat.mod_modEq _ _).pow _))
  -- the E-th power
  have pP : Nat.ModEq P (((hh * (Q % N) % N + m2) % N) ^ E) c := by
    have := (e0P.trans eP).pow E
    rw [← pow_mul, Nat.mul_comm dP E] at this
    exact this.trans (pow_modEq_self_of_prime hp c1 c)
  have pQ : Nat.ModEq Q (((hh * (Q % N) % N + m2) % N) ^ E) c := by
    have := (e0Q.trans eQ).pow E
    rw [← pow_mul, Nat.mul_comm dQ E] at this
    exact this.trans (pow_modEq_self_of_prime hq c2 c)
  have := (Nat.modEq_and_modEq_iff_modEq_mul hc).1 ⟨pP, pQ⟩
  rw [← hn] at this
  exact this

end rsa
namespace fips140.rsa

theorem sha256Prefix_length : sha256Prefix.length = 19 := rfl

theorem encodedMessage_length (k : Nat) (pre hashed : List Byte)
    (hk : pre.length + hashed.length + 3 ≤ k) : (encodedMessage k pre hashed).length = k := by
  simp [encodedMessage]
  omega

/-- The encoded message, as an integer, is below any modulus of `k` bytes. -/
theorem SetBytes_encodedMessage_lt (N : Nat) (pre hashed : List Byte)
    (hk : pre.length + hashed.length + 3 ≤ (big.BitLen N + 7) / 8) :
    big.SetBytes (encodedMessage ((big.BitLen N + 7) / 8) pre hashed) < N := by
  set k := (big.BitLen N + 7) / 8 with hkd
  have hlen := encodedMessage_length k pre hashed hk
  have hN0 : N ≠ 0 := by
    rintro rfl
    simp [big.BitLen_zero] at hkd
    omega
  have h1 : encodedMessage k pre hashed = (0 : Byte) :: ((1 : Byte) ::
      (List.replicate (k - (pre.length + hashed.length) - 3) (0xff : Byte) ++
        [(0 : Byte)] ++ pre ++ hashed)) := by
    simp [encodedMessage]
  rw [h1] at hlen ⊢
  rw [big.SetBytes_cons]
  simp only [Fin.val_zero, zero_mul, zero_add]
  refine lt_of_lt_of_le (big.SetBytes_lt _) ?_
  simp only [List.length_cons] at hlen
  have hl : ((1 : Byte) :: (List.replicate (k - (pre.length + hashed.length) - 3) (0xff : Byte) ++
        [(0 : Byte)] ++ pre ++ hashed)).length = k - 1 := by
    simp only [List.length_cons]; omega
  rw [hl]
  have h2 := big.two_pow_BitLen_le N hN0
  refine le_trans ?_ h2
  have : (256 : Nat) ^ (k - 1) = 2 ^ (8 * (k - 1)) := by
    rw [pow_mul]; norm_num
  rw [this]
  apply Nat.pow_le_pow_right (by norm_num)
  omega

/-- The encoded message determines the digest. -/
theorem encodedMessage_inj (k : Nat) (pre h1 h2 : List Byte) (hl : h1.length = h2.length)
    (h : encodedMessage k pre h1 = encodedMessage k pre h2) : h1 = h2 := by
  unfold encodedMessage at h
  rw [hl] at h
  exact List.append_cancel_left h

theorem pkcs1v15ConstructEM_eq (pub : PublicKey) (hashed : List Byte)
    (hlen : hashed.length = 32) (hk : 62 ≤ pub.Size) :
    pkcs1v15ConstructEM pub hashed = .ok (encodedMessage pub.Size sha256Prefix hashed) := by
  unfold pkcs1v15ConstructEM
  simp only [hlen, sha256Prefix_length]
  rw [if_neg (by omega)]

/-- A byte string as long as the modulus fits its limbs. -/
theorem SetBytes_sized {b : List Byte} {N : Nat} (hl : b.length = (big.BitLen N + 7) / 8)
    (h : big.SetBytes b < N) : bigmod.SetBytes b N = .ok (big.SetBytes b) :=
  bigmod.SetBytes_of_lt (by unfold bigmod.limbs; omega) h

end fips140.rsa

namespace rsa

/-- The private operation of the module on a structurally valid key: `decrypt` with its check
gives `c ^ D mod N`, in as many bytes as the modulus has. -/
theorem decrypt_eq {priv : PrivateKey} (h : priv.WellFormed) {pre : PrecomputedValues}
    {k : fips140.rsa.PrivateKey} (hk : priv.precompute = .ok (pre, k)) (em : List Byte)
    (hlen : em.length = priv.PublicKey.Size) (hlt : big.SetBytes em < priv.PublicKey.N) :
    fips140.rsa.decrypt k em true =
      .ok (big.FillBytes priv.PublicKey.Size (big.SetBytes em ^ priv.D % priv.PublicKey.N)) := by
  obtain ⟨pre', k', hk', hkeq, c1, c2, c3, hp, hq, hne, hn, _⟩ := h.facts
  rw [hk] at hk'
  simp only [Except.ok.injEq, Prod.mk.injEq] at hk'
  obtain ⟨_, rfl⟩ := hk'
  have hN := N_pos h
  have hpow := crt_pow h k.dP k.dQ k.qInv c1 c2 c3 (big.SetBytes em)
  unfold fips140.rsa.decrypt
  rw [hkeq]
  simp only
  rw [fips140.rsa.SetBytes_sized hlen hlt]
  simp only
  rw [big.Exp_eq _ _ _ hp.pos, big.Exp_eq _ _ _ hq.pos, big.Exp_eq _ _ _ hN]
  set s := (((big.SetBytes em % priv.P) ^ k.dP % priv.P + priv.P -
      (big.SetBytes em % priv.Q) ^ k.dQ % priv.Q % priv.P) % priv.P * k.qInv % priv.P *
      (priv.Q % priv.PublicKey.N) % priv.PublicKey.N +
      (big.SetBytes em % priv.Q) ^ k.dQ % priv.Q) % priv.PublicKey.N with hs
  have hcheck : s ^ priv.PublicKey.E % priv.PublicKey.N = big.SetBytes em := by
    have : s ^ priv.PublicKey.E % priv.PublicKey.N = big.SetBytes em % priv.PublicKey.N := hpow
    rw [this, Nat.mod_eq_of_lt hlt]
  rw [if_neg (by simp [hcheck])]
  have hslt : s < priv.PublicKey.N := Nat.mod_lt _ hN
  have hsd : s = big.SetBytes em ^ priv.D % priv.PublicKey.N := by
    have e1 : Nat.ModEq priv.PublicKey.N
        ((big.SetBytes em ^ priv.D) ^ priv.PublicKey.E) (big.SetBytes em) := by
      rw [← pow_mul, Nat.mul_comm]
      exact pow_ed_modEq h _
    have e2 : Nat.ModEq priv.PublicKey.N s (big.SetBytes em ^ priv.D) :=
      pow_E_inj h _ _ (hpow.trans e1.symm)
    have e3 : s % priv.PublicKey.N = big.SetBytes em ^ priv.D % priv.PublicKey.N := e2
    rwa [Nat.mod_eq_of_lt hslt] at e3
  rw [hsd]
  rfl

/-- The signature `SignPKCS1v15` returns on a structurally valid key of at least 1024 bits:
the encoded message of the digest, raised to the private exponent modulo `N`. -/
theorem SignPKCS1v15_eq {priv : PrivateKey} (h : priv.WellFormed) (random : List Nat)
    (hashed : List Byte) (hlen : hashed.length = 32)
    (hbits : 1024 ≤ big.BitLen priv.PublicKey.N) :
    SignPKCS1v15 random priv hashed =
      .ok (big.FillBytes priv.PublicKey.Size
        (big.SetBytes (fips140.rsa.encodedMessage priv.PublicKey.Size
          fips140.rsa.sha256Prefix hashed) ^ priv.D % priv.PublicKey.N)) := by
  obtain ⟨pre, k, hk, hkeq, _⟩ := h.facts
  have hsz : 62 ≤ priv.PublicKey.Size := by unfold PublicKey.Size; omega
  unfold SignPKCS1v15 checkPublicKeySize checkKeySize fipsPrivateKey
  rw [if_neg (by simp [hlen]), if_pos hbits]
  simp only [hk]
  unfold fips140.rsa.SignPKCS1v15
  have hsize : fips140.rsa.PublicKey.Size k.pub = priv.PublicKey.Size := by
    rw [hkeq]
    rfl
  rw [fips140.rsa.pkcs1v15ConstructEM_eq _ _ hlen (by rw [hsize]; exact hsz)]
  simp only [hsize]
  apply decrypt_eq h hk
  · exact fips140.rsa.encodedMessage_length _ _ _
      (by rw [fips140.rsa.sha256Prefix_length, hlen]; omega)
  · exact fips140.rsa.SetBytes_encodedMessage_lt _ _ _
      (by rw [fips140.rsa.sha256Prefix_length, hlen]; unfold PublicKey.Size at hsz; omega)

/-- A key of less than 1024 bits is refused by `SignPKCS1v15`. -/
theorem SignPKCS1v15_small (priv : PrivateKey) (random : List Nat) (hashed : List Byte)
    (hbits : big.BitLen priv.PublicKey.N < 1024) :
    ∃ err, SignPKCS1v15 random priv hashed = .error err := by
  unfold SignPKCS1v15 checkPublicKeySize checkKeySize
  by_cases hl : hashed.length ≠ 32
  · rw [if_pos hl]
    exact ⟨_, rfl⟩
  · rw [if_neg hl, if_neg (by omega)]
    exact ⟨_, rfl⟩

end rsa
namespace sha256

/-- A digest is 32 bytes long. -/
theorem Sum256_length (data : List Byte) : (Sum256 data).length = 32 := by
  simp [Sum256, wordBytes]

end sha256

namespace rsa

theorem Size_lt (pub : PublicKey) : pub.N < 256 ^ pub.Size := big.byteLen_bound pub.N

/-- When `VerifyPKCS1v15` accepts: the key has at least 1024 bits and passes
`checkPublicKey`, the signature has the length of the modulus and is below it as an integer,
and the public operation maps it to the encoded message of the digest. -/
theorem VerifyPKCS1v15_eq_none_iff (pub : PublicKey) (hashed sig : List Byte)
    (hlen : hashed.length = 32) :
    VerifyPKCS1v15 pub hashed sig = none ↔
      1024 ≤ big.BitLen pub.N ∧ fips140.rsa.checkPublicKey ⟨pub.N, pub.E⟩ = none ∧
      sig.length = pub.Size ∧ big.SetBytes sig < pub.N ∧
      big.FillBytes pub.Size (big.SetBytes sig ^ pub.E % pub.N) =
        fips140.rsa.encodedMessage pub.Size fips140.rsa.sha256Prefix hashed := by
  unfold VerifyPKCS1v15 checkPublicKeySize checkKeySize fipsPublicKey
  rw [if_neg (by simp [hlen])]
  by_cases hbits : 1024 ≤ big.BitLen pub.N
  swap
  · rw [if_neg hbits]
    simp [hbits]
  rw [if_pos hbits]
  have hN1 : 1 < pub.N := by
    by_contra hc
    have : big.BitLen pub.N ≤ 1 := big.BitLen_le_of_lt_pow (by norm_num; omega)
    omega
  have hsz : 62 ≤ pub.Size := by unfold PublicKey.Size; omega
  simp only [bigmod.NewModulus_Bytes _ hN1, hbits, true_and]
  unfold fips140.rsa.VerifyPKCS1v15
  cases hpub : fips140.rsa.checkPublicKey ⟨pub.N, pub.E⟩ with
  | some err => simp
  | none =>
    simp only [true_and]
    have hsize : fips140.rsa.PublicKey.Size ⟨pub.N, pub.E⟩ = pub.Size := rfl
    rw [hsize]
    by_cases hs : pub.Size ≠ sig.length
    · rw [if_pos hs]
      simp [Ne.symm hs]
    rw [if_neg hs]
    have hs' : sig.length = pub.Size := by
      simp only [ne_eq, not_not] at hs
      exact hs.symm
    simp only [hs', true_and]
    unfold fips140.rsa.encrypt
    simp only
    by_cases hlt : big.SetBytes sig < pub.N
    swap
    · have : ∃ e, bigmod.SetBytes sig pub.N = .error e := by
        unfold bigmod.SetBytes
        split_ifs
        · exact ⟨_, rfl⟩
        · exact ⟨_, rfl⟩
        · omega
      obtain ⟨e, he⟩ := this
      rw [he]
      simp [hlt]
    rw [fips140.rsa.SetBytes_sized hs' hlt]
    simp only [hlt, true_and]
    rw [fips140.rsa.pkcs1v15ConstructEM_eq _ _ hlen (by rw [hsize]; exact hsz), hsize]
    simp only
    rw [big.Exp_eq _ _ _ (by omega)]
    have hb : bigmod.Bytes (big.SetBytes sig ^ pub.E % pub.N) pub.N =
        big.FillBytes pub.Size (big.SetBytes sig ^ pub.E % pub.N) := rfl
    rw [hb]
    split_ifs with hc
    · exact ⟨fun h => (by cases h), fun h => absurd h hc⟩
    · exact ⟨fun _ => not_not.1 hc, fun _ => rfl⟩

/-- The signature made with a structurally valid key of at least 1024 bits verifies under its
public key. -/
theorem Verify_signature {priv : PrivateKey} (h : priv.WellFormed) (hashed : List Byte)
    (hlen : hashed.length = 32) (hbits : 1024 ≤ big.BitLen priv.PublicKey.N) :
    VerifyPKCS1v15 priv.PublicKey hashed
      (big.FillBytes priv.PublicKey.Size
        (big.SetBytes (fips140.rsa.encodedMessage priv.PublicKey.Size
          fips140.rsa.sha256Prefix hashed) ^ priv.D % priv.PublicKey.N)) = none := by
  obtain ⟨_, _, _, _, _, _, _, _, _, _, _, _, _, _, _, _, hpub⟩ := h.facts
  have hN := N_pos h
  have hsz : 62 ≤ priv.PublicKey.Size := by unfold PublicKey.Size; omega
  have hlt := fips140.rsa.SetBytes_encodedMessage_lt priv.PublicKey.N
    fips140.rsa.sha256Prefix hashed
    (by rw [fips140.rsa.sha256Prefix_length, hlen]; unfold PublicKey.Size at hsz; omega)
  change big.SetBytes (fips140.rsa.encodedMessage priv.PublicKey.Size _ hashed) < _ at hlt
  have hl := fips140.rsa.encodedMessage_length priv.PublicKey.Size fips140.rsa.sha256Prefix
    hashed (by rw [fips140.rsa.sha256Prefix_length, hlen]; omega)
  set c := big.SetBytes (fips140.rsa.encodedMessage priv.PublicKey.Size
    fips140.rsa.sha256Prefix hashed) with hc
  have hv : big.SetBytes (big.FillBytes priv.PublicKey.Size (c ^ priv.D % priv.PublicKey.N)) =
      c ^ priv.D % priv.PublicKey.N := by
    rw [big.SetBytes_FillBytes, Nat.mod_eq_of_lt (lt_trans (Nat.mod_lt _ hN) (Size_lt _))]
  rw [VerifyPKCS1v15_eq_none_iff _ _ _ hlen]
  refine ⟨hbits, hpub, big.FillBytes_length _ _, ?_, ?_⟩
  · rw [hv]
    exact Nat.mod_lt _ hN
  · rw [hv]
    have e1 : Nat.ModEq priv.PublicKey.N ((c ^ priv.D % priv.PublicKey.N) ^ priv.PublicKey.E)
        ((c ^ priv.D) ^ priv.PublicKey.E) := (Nat.mod_modEq _ _).pow _
    rw [← pow_mul, mul_comm] at e1
    have e2 := e1.trans (pow_ed_modEq h c)
    unfold Nat.ModEq at e2
    rw [e2, Nat.mod_eq_of_lt hlt, hc]
    have := big.FillBytes_SetBytes (fips140.rsa.encodedMessage priv.PublicKey.Size
      fips140.rsa.sha256Prefix hashed)
    rwa [hl] at this

/-- Acceptance pins the signature down: the one signature accepted for a digest under the
public key of a structurally valid key is the one the key makes. -/
theorem accepted_eq {priv : PrivateKey} (h : priv.WellFormed) (hashed sig : List Byte)
    (hlen : hashed.length = 32)
    (hv : VerifyPKCS1v15 priv.PublicKey hashed sig = none) :
    1024 ≤ big.BitLen priv.PublicKey.N ∧
    sig = big.FillBytes priv.PublicKey.Size
      (big.SetBytes (fips140.rsa.encodedMessage priv.PublicKey.Size
        fips140.rsa.sha256Prefix hashed) ^ priv.D % priv.PublicKey.N) := by
  have hN := N_pos h
  obtain ⟨hbits, _, hl, hlt, he⟩ := (VerifyPKCS1v15_eq_none_iff _ _ _ hlen).1 hv
  obtain ⟨_, _, _, hlt2, he2⟩ :=
    (VerifyPKCS1v15_eq_none_iff _ _ _ hlen).1 (Verify_signature h hashed hlen hbits)
  refine ⟨hbits, ?_⟩
  set s0 := big.FillBytes priv.PublicKey.Size
      (big.SetBytes (fips140.rsa.encodedMessage priv.PublicKey.Size
        fips140.rsa.sha256Prefix hashed) ^ priv.D % priv.PublicKey.N) with hs0
  have hpow : big.SetBytes sig ^ priv.PublicKey.E % priv.PublicKey.N =
      big.SetBytes s0 ^ priv.PublicKey.E % priv.PublicKey.N :=
    big.FillBytes_inj _ _ _ (lt_trans (Nat.mod_lt _ hN) (Size_lt _))
      (lt_trans (Nat.mod_lt _ hN) (Size_lt _)) (he.trans he2.symm)
  have hmod : Nat.ModEq priv.PublicKey.N (big.SetBytes sig) (big.SetBytes s0) :=
    pow_E_inj h _ _ hpow
  have heq : big.SetBytes sig = big.SetBytes s0 := Nat.ModEq.eq_of_lt_of_lt hmod hlt hlt2
  have h1 := big.FillBytes_SetBytes sig
  have h2 := big.FillBytes_SetBytes s0
  rw [hl, heq] at h1
  rw [hs0, big.FillBytes_length, ← hs0] at h2
  rw [← h1, h2]

end rsa

namespace digital_signatures

theorem VerifySignatureWithRSA_eq (data signature : List Byte) (publicKey : rsa.PublicKey) :
    VerifySignatureWithRSA data signature publicKey =
      rsa.VerifyPKCS1v15 publicKey (sha256.Sum256 data) signature := by
  unfold VerifySignatureWithRSA
  simp only
  split <;> simp_all

theorem SignDataWithRSA_eq (randReader : List Nat) (data : List Byte)
    (privateKey : rsa.PrivateKey) :
    SignDataWithRSA randReader data privateKey =
      rsa.SignPKCS1v15 randReader privateKey (sha256.Sum256 data) := by
  unfold SignDataWithRSA
  simp only
  split <;> simp_all

theorem GenerateRSAKeyPair_ok {GenerateKey : Int → Except Error rsa.PrivateKey} {bits : Int}
    {sk : rsa.PrivateKey} {pk : rsa.PublicKey}
    (h : GenerateRSAKeyPair GenerateKey bits = .ok (sk, pk)) :
    GenerateKey bits = .ok sk ∧ pk = sk.PublicKey := by
  unfold GenerateRSAKeyPair at h
  split at h
  · cases h
  · rename_i k hk
    simp only [Except.ok.injEq, Prod.mk.injEq] at h
    exact ⟨by rw [hk, h.1], by rw [← h.2, h.1]⟩

theorem bits_generated {bits : Int} {sk : rsa.PrivateKey} (h : rsa.GeneratedKey bits sk) :
    1024 ≤ big.BitLen sk.PublicKey.N := by
  obtain ⟨h1, _, _, hb⟩ := h
  omega

end digital_signatures

theorem zip_self_no_difference : ∀ s : List Byte,
    (s.zip s).filter (fun p => decide (p.1 ≠ p.2)) = [] := by
  intro s
  induction s with
  | nil => rfl
  | cons a s ih =>
    rw [List.zip_cons_cons, List.filter_cons]
    simp only [ne_eq, not_true_eq_false, decide_False, Bool.false_eq_true, if_false]
    exact ih

/-- Byte strings that differ in exactly one byte are different. -/
theorem differsInOneByte_ne (s t : List Byte) (h : differsInOneByte s t) : s ≠ t := by
  rintro rfl
  obtain ⟨_, h2⟩ := h
  rw [zip_self_no_difference] at h2
  simp at h2

/-! ## Lemmas: the concrete keys -/

namespace keys

/-- Lucas certificate for a prime `p` with `p - 1 = 2 ^ a * 3 ^ b * 5 ^ c`: a base `g` of
order `p - 1`. -/
theorem prime_of_certificate (p g a b c : Nat) (hp : p - 1 = 2 ^ a * 3 ^ b * 5 ^ c)
    (h1 : big.Exp g (p - 1) p = 1) (h2 : big.Exp g ((p - 1) / 2) p ≠ 1)
    (h3 : big.Exp g ((p - 1) / 3) p ≠ 1) (h5 : big.Exp g ((p - 1) / 5) p ≠ 1)
    (hp1 : 1 < p) : p.Prime := by
  have hpos : 0 < p := by omega
  have cast : ∀ e : Nat, big.Exp g e p = 1 ↔ (g : ZMod p) ^ e = 1 := by
    intro e
    rw [big.Exp_eq _ _ _ hpos]
    have : ((g ^ e : Nat) : ZMod p) = ((1 : Nat) : ZMod p) ↔ g ^ e % p = 1 % p :=
      ZMod.natCast_eq_natCast_iff' _ _ _
    rw [Nat.mod_eq_of_lt hp1] at this
    rw [← this]
    push_cast
    rfl
  apply lucas_primality p (g : ZMod p) ((cast _).1 h1)
  intro q hq hdvd
  rw [hp] at hdvd
  have hq235 : q = 2 ∨ q = 3 ∨ q = 5 := by
    rcases (Nat.Prime.dvd_mul hq).1 hdvd with h | h
    · rcases (Nat.Prime.dvd_mul hq).1 h with h | h
      · exact Or.inl ((Nat.prime_dvd_prime_iff_eq hq Nat.prime_two).1 (hq.dvd_of_dvd_pow h))
      · exact Or.inr (Or.inl
          ((Nat.prime_dvd_prime_iff_eq hq Nat.prime_three).1 (hq.dvd_of_dvd_pow h)))
    · exact Or.inr (Or.inr
        ((Nat.prime_dvd_prime_iff_eq hq Nat.prime_five).1 (hq.dvd_of_dvd_pow h)))
  rcases hq235 with rfl | rfl | rfl
  · exact fun h => h2 ((cast _).2 h)
  · exact fun h => h3 ((cast _).2 h)
  · exact fun h => h5 ((cast _).2 h)

theorem p2048_prime : p2048.Prime :=
  prime_of_certificate p2048 7 2 633 8 (by decide!) (by decide!) (by decide!) (by decide!)
    (by decide!) (by decide!)

theorem q2048_prime : q2048.Prime :=
  prime_of_certificate q2048 19 3 61 398 (by decide!) (by decide!) (by decide!) (by decide!)
    (by decide!) (by decide!)

theorem p128_prime : p128.Prime :=
  prime_of_certificate p128 7 1 19 14 (by decide!) (by decide!) (by decide!) (by decide!)
    (by decide!) (by decide!)

theorem q128_prime : q128.Prime :=
  prime_of_certificate q128 7 4 1 25 (by decide!) (by decide!) (by decide!) (by decide!)
    (by decide!) (by decide!)

theorem key2048_wellFormed : key2048.WellFormed :=
  ⟨by decide!, p2048_prime, q2048_prime, by decide!, by decide!⟩

theorem key2048_generated : rsa.GeneratedKey 2048 key2048 :=
  ⟨by decide, rfl, key2048_wellFormed, by decide!⟩

end keys

/-! ## Lemmas: encoding/asn1 -/

namespace asn1

theorem base256_length (n : Nat) : (base256 n).length = (big.BitLen n + 7) / 8 :=
  big.FillBytes_length _ _

theorem SetBytes_base256 (n : Nat) : big.SetBytes (base256 n) = n := by
  unfold base256
  rw [big.SetBytes_FillBytes, Nat.mod_eq_of_lt (big.byteLen_bound n)]

theorem base256_zero : base256 0 = [] := rfl

theorem FillBytes_succ_head (k n : Nat) :
    big.FillBytes (k + 1) n = (Fin.ofNat (n / 256 ^ k) : Byte) :: big.FillBytes k n := by
  induction k generalizing n with
  | zero => simp [big.FillBytes]
  | succ k ih =>
    rw [big.FillBytes, ih (n / 256)]
    conv_rhs => rw [big.FillBytes]
    rw [Nat.div_div_eq_div_mul, pow_succ, Nat.mul_comm 256]
    rfl

/-- The leading byte of the minimal encoding of a positive number is not zero. -/
theorem base256_head (n : Nat) (hn : n ≠ 0) :
    ∃ b bs, base256 n = b :: bs ∧ b.val ≠ 0 ∧ b.val = n / 256 ^ bs.length := by
  have hpos := big.BitLen_pos n hn
  obtain ⟨k, hk⟩ : ∃ k, (big.BitLen n + 7) / 8 = k + 1 := ⟨(big.BitLen n + 7) / 8 - 1, by omega⟩
  have hlt : n < 256 ^ (k + 1) := hk ▸ big.byteLen_bound n
  have hge : 256 ^ k ≤ n := by
    refine le_trans ?_ (big.two_pow_BitLen_le n hn)
    have : (256 : Nat) ^ k = 2 ^ (8 * k) := by rw [pow_mul]; norm_num
    rw [this]
    exact Nat.pow_le_pow_right (by norm_num) (by omega)
  have hdiv : n / 256 ^ k < 256 := by
    rw [Nat.div_lt_iff_lt_mul (by positivity)]
    rw [pow_succ] at hlt
    linarith
  have hdiv0 : 0 < n / 256 ^ k := Nat.div_pos hge (by positivity)
  refine ⟨Fin.ofNat (n / 256 ^ k), big.FillBytes k n, ?_, ?_, ?_⟩
  · unfold base256
    rw [hk, FillBytes_succ_head]
  · simp only [Fin.ofNat]
    omega
  · simp only [Fin.ofNat, big.FillBytes_length]
    omega

theorem byte_and_80 : ∀ b : Byte, (b.val &&& 0x80 = 0 ↔ b.val < 128) ∧
    (b.val &&& 0x80 = 0x80 ↔ 128 ≤ b.val) ∧ b.val &&& 0x7f = b.val % 128 := by decide!

theorem shl8_or (a : Nat) (b : Byte) : a <<< 8 ||| b.val = a * 256 + b.val := by
  rw [Nat.shiftLeft_eq]
  have := Nat.mul_add_lt_is_or (i := 8) (b := b.val) (by have := b.isLt; omega) a
  rw [Nat.mul_comm] at this
  exact this.symm

theorem parseLongLength_spec (rest : List Byte) : ∀ (bs : List Byte) (acc : Nat),
    (acc ≠ 0 ∨ bs.headD 1 ≠ 0) → acc * 256 ^ bs.length + big.SetBytes bs < 2 ^ 31 →
    parseLongLength bs.length acc (bs ++ rest) =
      .ok (acc * 256 ^ bs.length + big.SetBytes bs, rest) := by
  intro bs
  induction bs with
  | nil => intro acc _ _; simp [parseLongLength, big.SetBytes]
  | cons b bs ih =>
    intro acc h0 hlt
    rw [big.SetBytes_cons] at hlt ⊢
    simp only [List.length_cons, List.cons_append, parseLongLength]
    have hp : 0 < 256 ^ bs.length := by positivity
    have hacc : ¬ acc ≥ 2 ^ 23 := by
      intro hge
      have : 2 ^ 23 * 256 ^ (bs.length + 1) ≤ acc * 256 ^ (bs.length + 1) :=
        Nat.mul_le_mul_right _ hge
      have h256 : 256 ≤ 256 ^ (bs.length + 1) := by
        rw [pow_succ]; nlinarith
      simp only [List.length_cons] at hlt
      nlinarith
    rw [if_neg hacc, shl8_or]
    have hnz : acc * 256 + b.val ≠ 0 := by
      rcases h0 with h | h
      · omega
      · simp only [List.headD_cons, ne_eq] at h
        have : b.val ≠ 0 := fun e => h (Fin.ext e)
        omega
    rw [if_neg hnz]
    simp only [List.length_cons] at hlt
    change parseLongLength bs.length _ (bs ++ rest) = _
    rw [ih (acc * 256 + b.val) (Or.inl hnz) (by rw [pow_succ] at hlt; nlinarith)]
    congr 2
    rw [pow_succ]
    ring

/-- The header written by `marshalElement` is read back by `parseTagAndLength`. -/
theorem parseTagAndLength_encodeLength (t : Byte) (ht : t.val &&& 0x1f ≠ 0x1f) (L : Nat)
    (hL : L < 2 ^ 31) (rest : List Byte) :
    parseTagAndLength (t :: (encodeLength L ++ rest)) =
      .ok ({ cls := t.val >>> 6, tag := t.val &&& 0x1f,
             isCompound := decide (t.val &&& 0x20 = 0x20), length := L }, rest) := by
  unfold parseTagAndLength
  simp only [if_neg ht]
  unfold encodeLength
  by_cases h128 : L ≥ 128
  · rw [if_pos h128]
    obtain ⟨b, bs, hb, hb0, _⟩ := base256_head L (by omega)
    have hlen : (base256 L).length ≤ 4 := by
      rw [base256_length]
      have : big.BitLen L ≤ 31 := by
        by_contra hc
        have h1 := big.two_pow_BitLen_le L (by omega)
        have h2 : 2 ^ 31 ≤ 2 ^ (big.BitLen L - 1) := Nat.pow_le_pow_right (by norm_num) (by omega)
        omega
      omega
    have hlen1 : 1 ≤ (base256 L).length := by rw [hb]; simp
    have hfirst : ((Fin.ofNat (0x80 ||| (base256 L).length) : Byte)).val =
        128 + (base256 L).length := by
      have : ∀ k, 1 ≤ k → k ≤ 4 → ((Fin.ofNat (0x80 ||| k) : Byte)).val = 128 + k := by
        intro k h1 h4
        interval_cases k <;> rfl
      exact this _ hlen1 hlen
    simp only [List.cons_append]
    have e1 : ¬ ((Fin.ofNat (0x80 ||| (base256 L).length) : Byte)).val &&& 0x80 = 0 := by
      rw [(byte_and_80 _).1, hfirst]; omega
    have e2 : ((Fin.ofNat (0x80 ||| (base256 L).length) : Byte)).val &&& 0x7f =
        (base256 L).length := by
      rw [(byte_and_80 _).2.2, hfirst]; omega
    rw [if_neg e1]
    simp only [e2]
    rw [if_neg (by omega)]
    have := parseLongLength_spec rest (base256 L) 0
      (Or.inr (by rw [hb]; simp only [List.headD_cons]; exact fun e => hb0 (by rw [e]; rfl)))
      (by rw [SetBytes_base256]; omega)
    rw [this]
    simp only [zero_mul, zero_add, SetBytes_base256]
    rw [if_neg (by omega)]
  · rw [if_neg h128]
    have hv : ((Fin.ofNat L : Byte)).val = L := by
      simp only [Fin.ofNat]; omega
    simp only [List.cons_append, List.nil_append]
    have e1 : ((Fin.ofNat L : Byte)).val &&& 0x80 = 0 := by
      rw [(byte_and_80 _).1, hv]; omega
    have e2 : ((Fin.ofNat L : Byte)).val &&& 0x7f = L := by
      rw [(byte_and_80 _).2.2, hv]; omega
    rw [if_pos e1]
    simp [e2]

/-- An element written by `marshalElement` is read back by `readElement`. -/
theorem readElement_marshalElement (tag : Nat) (compound : Bool) (htag : tag < 31)
    (content rest : List Byte) (hL : content.length < 2 ^ 31) :
    readElement tag compound (marshalElement tag compound content ++ rest) =
      .ok (content, rest) := by
  unfold readElement marshalElement
  rw [if_neg (by simp)]
  simp only [List.cons_append, List.append_assoc]
  have key : ∀ t : Nat, t < 31 → ∀ c : Bool,
      ((Fin.ofNat (t ||| (if c then 0x20 else 0)) : Byte)).val &&& 0x1f = t ∧
      ((Fin.ofNat (t ||| (if c then 0x20 else 0)) : Byte)).val >>> 6 = 0 ∧
      (decide (((Fin.ofNat (t ||| (if c then 0x20 else 0)) : Byte)).val &&& 0x20 = 0x20)) = c := by
    intro t ht c
    interval_cases t <;> cases c <;> decide
  obtain ⟨k1, k2, k3⟩ := key tag htag compound
  rw [parseTagAndLength_encodeLength _ (by rw [k1]; omega) _ hL]
  simp only [k1, k2, k3, ne_eq, not_true_eq_false, or_self, if_false, List.length_append]
  rw [if_neg (by omega)]
  simp

end asn1

namespace asn1

/-- The content `encodeNat` writes passes `checkInteger` and has the value `n`. -/
theorem encodeNat_spec (n : Nat) :
    checkInteger (encodeNat n) = none ∧ twosComplement (encodeNat n) = (n : Int) ∧
    (encodeNat n).length ≤ big.BitLen n / 8 + 1 ∧ 1 ≤ (encodeNat n).length := by
  by_cases hn : n = 0
  · subst hn
    refine ⟨rfl, ?_, by decide, by decide⟩
    decide
  · obtain ⟨b, bs, hb, hb0, hbv⟩ := base256_head n hn
    have hset := SetBytes_base256 n
    have hlen := base256_length n
    have hpow : (256 : Nat) ^ bs.length = 2 ^ (8 * bs.length) := by rw [pow_mul]; norm_num
    have hpp : 0 < 256 ^ bs.length := by positivity
    unfold encodeNat
    simp only [hb]
    rw [hb] at hset hlen
    by_cases htop : b.val &&& 0x80 ≠ 0
    · rw [if_pos htop]
      have h128 : 128 ≤ b.val := by
        by_contra hc
        exact htop ((byte_and_80 b).1.2 (by omega))
      refine ⟨?_, ?_, ?_, ?_⟩
      · simp only [checkInteger]
        rw [if_neg]
        rintro (⟨_, h2⟩ | ⟨h1, _⟩)
        · exact htop h2
        · cases h1
      · unfold twosComplement
        simp only [List.headD_cons]
        rw [if_neg (by decide)]
        rw [big.SetBytes_cons]
        simp [hset]
      · simp only [List.length_cons] at hlen ⊢
        have hge : 2 ^ (8 * bs.length + 7) ≤ n := by
          rw [pow_add, ← hpow]
          have := Nat.div_mul_le_self n (256 ^ bs.length)
          rw [← hbv] at this
          nlinarith
        have : 8 * bs.length + 7 < big.BitLen n := by
          by_contra hc
          have h1 := big.lt_two_pow_BitLen n
          have h2 : 2 ^ big.BitLen n ≤ 2 ^ (8 * bs.length + 7) :=
            Nat.pow_le_pow_right (by norm_num) (by omega)
          omega
        omega
      · simp
    · rw [if_neg htop]
      have hlt : b.val < 128 := (byte_and_80 b).1.1 (by simpa using htop)
      refine ⟨?_, ?_, ?_, ?_⟩
      · cases bs with
        | nil => rfl
        | cons c cs =>
          simp only [checkInteger]
          rw [if_neg]
          rintro (⟨h1, _⟩ | ⟨h1, _⟩)
          · exact hb0 (by rw [h1]; rfl)
          · rw [h1] at hlt; exact absurd hlt (by decide)
      · unfold twosComplement
        simp only [List.headD_cons]
        rw [if_neg (by
          intro hge
          have : (0x80 : Byte).val ≤ b.val := hge
          have h80 : (0x80 : Byte).val = 128 := rfl
          omega)]
        rw [hset]
      · simp only [List.length_cons] at hlen ⊢; omega
      · simp

/-- A `*big.Int` field written by `marshalNat` is read back. -/
theorem readBigInt_marshalNat (n : Nat) (rest : List Byte) (hn : big.BitLen n < 2 ^ 30) :
    readBigInt (marshalNat n ++ rest) = .ok ((n : Int), rest) := by
  obtain ⟨h1, h2, h3, _⟩ := encodeNat_spec n
  unfold readBigInt marshalNat
  rw [readElement_marshalElement _ _ (by decide) _ _ (by omega)]
  simp only [parseBigInt, h1, h2]

/-- An `int` field written by `marshalNat` is read back. -/
theorem readInt_marshalNat (n : Nat) (rest : List Byte) (hn : n < 2 ^ 63) :
    readInt (marshalNat n ++ rest) = .ok ((n : Int), rest) := by
  obtain ⟨h1, h2, h3, _⟩ := encodeNat_spec n
  have hb : big.BitLen n ≤ 63 := by
    by_contra hc
    by_cases h0 : n = 0
    · subst h0; simp [big.BitLen_zero] at hc
    · have := big.two_pow_BitLen_le n h0
      have h2 : 2 ^ 63 ≤ 2 ^ (big.BitLen n - 1) := Nat.pow_le_pow_right (by norm_num) (by omega)
      omega
  unfold readInt marshalNat
  rw [readElement_marshalElement _ _ (by decide) _ _ (by omega)]
  simp only [parseInt64, h1, h2]
  rw [if_neg (by omega)]

theorem marshalNat_length (n : Nat) (hn : big.BitLen n < 2 ^ 30) :
    (marshalNat n).length ≤ big.BitLen n / 8 + 7 := by
  obtain ⟨_, _, h3, _⟩ := encodeNat_spec n
  unfold marshalNat marshalElement encodeLength
  simp only [List.length_cons, List.length_append]
  split_ifs with h
  · simp only [List.length_cons, base256_length]
    have : big.BitLen (encodeNat n).length ≤ 31 := by
      by_contra hc
      have h1 := big.two_pow_BitLen_le (encodeNat n).length (by omega)
      have h2 : 2 ^ 31 ≤ 2 ^ (big.BitLen (encodeNat n).length - 1) :=
        Nat.pow_le_pow_right (by norm_num) (by omega)
      omega
    omega
  · simp only [List.length_singleton]
    omega

end asn1

namespace cryptobyte

/-- An element written by `asn1.marshalElement` is read back by `ReadASN1`. -/
theorem ReadASN1_marshalElement (tag : Nat) (compound : Bool) (htag : tag < 31)
    (content rest : List Byte) (hL : content.length < 2 ^ 31) :
    ReadASN1 (Fin.ofNat (tag ||| (if compound then 0x20 else 0)))
      (asn1.marshalElement tag compound content ++ rest) = some (content, rest) := by
  have key : ∀ t : Nat, t < 31 → ∀ c : Bool,
      ((Fin.ofNat (t ||| (if c then 0x20 else 0)) : Byte)).val &&& 0x1f ≠ 0x1f := by
    intro t ht c
    interval_cases t <;> cases c <;> decide
  have k1 := key tag htag compound
  unfold asn1.marshalElement asn1.encodeLength
  by_cases h128 : content.length ≥ 128
  · rw [if_pos h128]
    obtain ⟨b, bs, hb, hb0, hbv⟩ := asn1.base256_head content.length (by omega)
    have hlen : (asn1.base256 content.length).length ≤ 4 := by
      rw [asn1.base256_length]
      have := big.BitLen_le_of_lt_pow hL
      omega
    have hlen1 : 1 ≤ (asn1.base256 content.length).length := by rw [hb]; simp
    have hfirst : ((Fin.ofNat (0x80 ||| (asn1.base256 content.length).length) : Byte)).val =
        128 + (asn1.base256 content.length).length := by
      have : ∀ k, 1 ≤ k → k ≤ 4 → ((Fin.ofNat (0x80 ||| k) : Byte)).val = 128 + k := by
        intro k h1 h4
        interval_cases k <;> rfl
      exact this _ hlen1 hlen
    simp only [List.cons_append, List.append_assoc, ReadASN1]
    rw [if_neg k1]
    have e1 : ¬ ((Fin.ofNat (0x80 ||| (asn1.base256 content.length).length) : Byte)).val &&&
        0x80 = 0 := by
      rw [(asn1.byte_and_80 _).1, hfirst]; omega
    have e2 : ((Fin.ofNat (0x80 ||| (asn1.base256 content.length).length) : Byte)).val &&&
        0x7f = (asn1.base256 content.length).length := by
      rw [(asn1.byte_and_80 _).2.2, hfirst]; omega
    rw [if_neg e1]
    simp only [e2]
    rw [if_neg (by simp only [List.length_append]; omega)]
    rw [List.take_left, List.drop_left, asn1.SetBytes_base256]
    rw [if_neg (by omega)]
    have hshift : ¬ content.length >>> (((asn1.base256 content.length).length - 1) * 8) = 0 := by
      rw [Nat.shiftRight_eq_div_pow, hb]
      simp only [List.length_cons, Nat.add_sub_cancel]
      have : (2 : Nat) ^ (bs.length * 8) = 256 ^ bs.length := by
        rw [Nat.mul_comm, pow_mul]; norm_num
      rw [this, ← hbv]
      exact hb0
    rw [if_neg hshift, if_neg (by omega)]
    simp
  · rw [if_neg h128]
    have hv : ((Fin.ofNat content.length : Byte)).val = content.length := by
      simp only [Fin.ofNat]; omega
    simp only [List.cons_append, List.nil_append, List.append_assoc, ReadASN1]
    rw [if_neg k1]
    have e1 : ((Fin.ofNat content.length : Byte)).val &&& 0x80 = 0 := by
      rw [(asn1.byte_and_80 _).1, hv]; omega
    rw [if_pos e1]
    simp [hv]

theorem ReadASN1BigInt_marshalNat (n : Nat) (rest : List Byte) (hn : big.BitLen n < 2 ^ 30) :
    ReadASN1BigInt (asn1.marshalNat n ++ rest) = some ((n : Int), rest) := by
  obtain ⟨h1, h2, h3, _⟩ := asn1.encodeNat_spec n
  unfold ReadASN1BigInt asn1.marshalNat
  have := ReadASN1_marshalElement asn1.TagInteger false (by decide) (asn1.encodeNat n) rest
    (by omega)
  have e : (Fin.ofNat (asn1.TagInteger ||| (if false = true then 0x20 else 0)) : Byte) = 0x02 :=
    by decide
  rw [e] at this
  rw [this]
  simp only [h1, h2]

theorem ReadASN1Int_marshalNat (n : Nat) (rest : List Byte) (hn : n < 2 ^ 63) :
    ReadASN1Int (asn1.marshalNat n ++ rest) = some ((n : Int), rest) := by
  obtain ⟨h1, h2, h3, _⟩ := asn1.encodeNat_spec n
  have hb : big.BitLen n ≤ 63 := big.BitLen_le_of_lt_pow hn
  unfold ReadASN1Int asn1.marshalNat
  have := ReadASN1_marshalElement asn1.TagInteger false (by decide) (asn1.encodeNat n) rest
    (by omega)
  have e : (Fin.ofNat (asn1.TagInteger ||| (if false = true then 0x20 else 0)) : Byte) = 0x02 :=
    by decide
  rw [e] at this
  rw [this]
  simp only [h1, h2]
  rw [if_neg (by omega)]

end cryptobyte

/-! ## Lemmas: the RFC 8017 reference against the library's encoding -/

namespace rfc8017

theorem OS2IP_eq (bs : List Byte) : OS2IP bs = big.SetBytes bs := by
  induction bs with
  | nil => rfl
  | cons b rest ih => rw [OS2IP, big.SetBytes_cons, ih]

theorem I2OSP_eq (x : Nat) (xLen : Nat) : I2OSP x xLen = big.FillBytes xLen x := by
  induction xLen with
  | zero => rfl
  | succ k ih => rw [I2OSP, asn1.FillBytes_succ_head, ih]

/-- The `k` of the RFC is what `Size` computes. -/
theorem octetLength_eq (n : Nat) (hn : n ≠ 0) : octetLength n = (big.BitLen n + 7) / 8 := by
  have hpos := big.BitLen_pos n hn
  obtain ⟨k, hk⟩ : ∃ k, (big.BitLen n + 7) / 8 = k + 1 := ⟨(big.BitLen n + 7) / 8 - 1, by omega⟩
  have hlt : n < 256 ^ (k + 1) := hk ▸ big.byteLen_bound n
  have hge : 256 ^ k ≤ n := by
    refine le_trans ?_ (big.two_pow_BitLen_le n hn)
    have : (256 : Nat) ^ k = 2 ^ (8 * k) := by rw [pow_mul]; norm_num
    rw [this]
    exact Nat.pow_le_pow_right (by norm_num) (by omega)
  unfold octetLength
  rw [hk, (Nat.log_eq_iff (Or.inr ⟨by norm_num, hn⟩)).2 ⟨hge, hlt⟩]

/-- The DER encoding of the DigestInfo of a SHA-256 digest is the prefix the library holds in
its table, followed by the digest. -/
theorem digestInfo_eq (H : List Byte) (h : H.length = 32) :
    digestInfo H = fips140.rsa.sha256Prefix ++ H := by
  have e1 : asn1.marshalElement 16 true
      (asn1.marshalElement 6 false (oidContent idSha256) ++ asn1.marshalElement 5 false []) =
      [0x30, 0x0d, 0x06, 0x09, 0x60, 0x86, 0x48, 0x01, 0x65, 0x03, 0x04, 0x02, 0x01,
        0x05, 0x00] := by decide!
  have e2 : asn1.marshalElement 4 false H = (0x04 : Byte) :: (0x20 : Byte) :: H := by
    unfold asn1.marshalElement asn1.encodeLength
    rw [h]
    rfl
  unfold digestInfo
  rw [e1, e2]
  unfold asn1.marshalElement asn1.encodeLength
  simp only [List.length_append, List.length_cons, List.length_nil, h]
  rfl

/-- The encoded message of the RFC is the buffer `pkcs1v15ConstructEM` builds. -/
theorem EMSA_eq (H : List Byte) (h : H.length = 32) (emLen : Nat) (hk : 62 ≤ emLen) :
    EMSA_PKCS1_v1_5_ENCODE H emLen =
      some (fips140.rsa.encodedMessage emLen fips140.rsa.sha256Prefix H) := by
  unfold EMSA_PKCS1_v1_5_ENCODE
  simp only [digestInfo_eq H h, List.length_append, fips140.rsa.sha256Prefix_length, h]
  rw [if_neg (by omega)]
  unfold fips140.rsa.encodedMessage
  simp only [fips140.rsa.sha256Prefix_length, h, List.cons_append, List.nil_append,
    List.append_assoc, List.singleton_append]

/-- The signature of the RFC under `(n, d)`, in the terms of the library. -/
theorem SIGN_eq (n d : Nat) (H : List Byte) (h : H.length = 32)
    (hk : 62 ≤ (big.BitLen n + 7) / 8) :
    RSASSA_PKCS1_V1_5_SIGN n d H =
      some (big.FillBytes ((big.BitLen n + 7) / 8)
        (big.SetBytes (fips140.rsa.encodedMessage ((big.BitLen n + 7) / 8)
          fips140.rsa.sha256Prefix H) ^ d % n)) := by
  have hn : n ≠ 0 := by
    rintro rfl
    rw [big.BitLen_zero] at hk
    omega
  unfold RSASSA_PKCS1_V1_5_SIGN
  simp only [octetLength_eq n hn, EMSA_eq H h _ hk, I2OSP_eq, OS2IP_eq]
  rfl

end rfc8017
/-! ## Lemmas: crypto/x509 -/

namespace asn1

/-- An optional INTEGER field that is there is read like one that is not optional. -/
theorem readOptionalBigInt_of_readBigInt {bytes rest : List Byte} {v : Int}
    (h : readBigInt bytes = .ok (v, rest)) : readOptionalBigInt bytes = .ok (some v, rest) := by
  unfold readBigInt readElement at h
  unfold readOptionalBigInt
  by_cases h0 : bytes.length = 0
  · rw [if_pos h0] at h
    cases h
  rw [if_neg h0] at h
  rw [if_neg h0]
  cases hp : parseTagAndLength bytes with
  | error e =>
    rw [hp] at h
    cases h
  | ok r =>
    obtain ⟨t, rest'⟩ := r
    rw [hp] at h
    simp only at h ⊢
    by_cases h1 : t.cls ≠ 0 ∨ t.tag ≠ TagInteger ∨ t.isCompound ≠ false
    · rw [if_pos h1] at h
      cases h
    rw [if_neg h1] at h
    rw [if_neg h1]
    by_cases h2 : rest'.length < t.length
    · rw [if_pos h2] at h
      cases h
    rw [if_neg h2] at h
    rw [if_neg h2]
    simp only at h
    cases hb : parseBigInt (List.take t.length rest') with
    | error e =>
      rw [hb] at h
      cases h
    | ok w =>
      rw [hb] at h
      simp only [Except.ok.injEq, Prod.mk.injEq] at h
      obtain ⟨rfl, rfl⟩ := h
      rfl

theorem readOptionalBigInt_marshalNat (n : Nat) (rest : List Byte)
    (hn : big.BitLen n < 2 ^ 30) :
    readOptionalBigInt (marshalNat n ++ rest) = .ok (some (n : Int), rest) :=
  readOptionalBigInt_of_readBigInt (readBigInt_marshalNat n rest hn)

end asn1

namespace x509

set_option maxHeartbeats 4000000 in
/-- `ParsePKCS1PrivateKey` reads back what `MarshalPKCS1PrivateKey` writes for a key that
passes `Validate` and whose modulus has at most `2 ^ 27` bits: the key with its precomputed
values set. -/
theorem ParsePKCS1PrivateKey_Marshal {key : rsa.PrivateKey} (h : key.Validate = none)
    (hN : big.BitLen key.PublicKey.N ≤ 2 ^ 27) :
    ParsePKCS1PrivateKey (MarshalPKCS1PrivateKey key) = .ok key.Precompute := by
  unfold rsa.PrivateKey.Validate at h
  cases hpc : key.precompute with
  | error e => rw [hpc] at h; cases h
  | ok r =>
    obtain ⟨pre, k⟩ := r
    obtain ⟨h1, h2, h3, h4, h5, hc, hDN, hqinv⟩ := rsa.PrivateKey.precompute_ok hpc
    obtain ⟨hpub, hpN, hqN, _, hp2, hq2, hdP, c1, hdQ, c2, c3, _, hdbits⟩ :=
      fips140.rsa.checkPrivateKey_facts hc
    obtain ⟨_, _, _, hE31⟩ := fips140.rsa.checkPublicKey_facts hpub
    rw [h1] at hpN hqN hdbits c1 c2 hE31
    rw [h2] at hdbits
    rw [h3] at hpN hp2 hdP c1 c3
    rw [h4] at hqN hq2 hdQ c2 c3
    simp only at hpN hqN hdbits c1 c2 hE31
    have hD0 : key.D ≠ 0 := by
      intro e
      rw [e, big.BitLen_zero] at hdbits
      omega
    have hdP0 : k.dP ≠ 0 := by
      intro e; rw [e] at c1; simp at c1
    have hdQ0 : k.dQ ≠ 0 := by
      intro e; rw [e] at c2; simp at c2
    have hqi0 : k.qInv ≠ 0 := by
      intro e; rw [e] at c3; simp at c3
    have bP := le_trans (big.BitLen_mono hpN.le) hN
    have bQ := le_trans (big.BitLen_mono hqN.le) hN
    have bD := le_trans (big.BitLen_mono hDN.le) hN
    have bDp : big.BitLen k.dP ≤ 2 ^ 27 := le_trans (big.BitLen_mono (by omega)) bP
    have bDq : big.BitLen k.dQ ≤ 2 ^ 27 := le_trans (big.BitLen_mono (by omega)) bQ
    have bQinv : big.BitLen k.qInv ≤ 2 ^ 27 := le_trans (big.BitLen_mono hqinv.le) bP
    have bE : big.BitLen key.PublicKey.E ≤ 31 := big.BitLen_le_of_lt_pow hE31
    have l0 := asn1.marshalNat_length 0 (by decide)
    have lN := asn1.marshalNat_length key.PublicKey.N (by omega)
    have lE := asn1.marshalNat_length key.PublicKey.E (by omega)
    have lD := asn1.marshalNat_length key.D (by omega)
    have lP := asn1.marshalNat_length key.P (by omega)
    have lQ := asn1.marshalNat_length key.Q (by omega)
    have lDp := asn1.marshalNat_length k.dP (by omega)
    have lDq := asn1.marshalNat_length k.dQ (by omega)
    have lQinv := asn1.marshalNat_length k.qInv (by omega)
    have hb0 : big.BitLen 0 = 0 := rfl
    have hPre : key.Precompute =
        ⟨key.PublicKey, key.D, key.P, key.Q, ⟨some k.dP, some k.dQ, some k.qInv⟩⟩ := by
      unfold rsa.PrivateKey.Precompute
      rw [hpc, h5]
    have hAgain := rsa.PrivateKey.precompute_Precompute hpc
    rw [h5] at hAgain
    have hkey : ({ key with Precomputed := ⟨some k.dP, some k.dQ, some k.qInv⟩ } :
        rsa.PrivateKey) =
        ⟨⟨key.PublicKey.N, key.PublicKey.E⟩, key.D, key.P, key.Q,
          ⟨some k.dP, some k.dQ, some k.qInv⟩⟩ := rfl
    rw [hkey] at hAgain
    have hPre' : key.Precompute = ⟨⟨key.PublicKey.N, key.PublicKey.E⟩, key.D, key.P, key.Q,
          ⟨some k.dP, some k.dQ, some k.qInv⟩⟩ := hPre
    unfold MarshalPKCS1PrivateKey
    simp only [hPre', marshalOptional]
    unfold ParsePKCS1PrivateKey
    have hcontent := asn1.readElement_marshalElement asn1.TagSequence true (by decide)
      (asn1.marshalNat 0 ++ asn1.marshalNat key.PublicKey.N ++
          asn1.marshalNat key.PublicKey.E ++
          asn1.marshalNat key.D ++ asn1.marshalNat key.P ++ asn1.marshalNat key.Q ++
          asn1.marshalNat k.dP ++ asn1.marshalNat k.dQ ++
          asn1.marshalNat k.qInv) []
      (by simp only [List.length_append]; rw [hb0] at l0; omega)
    rw [List.append_nil] at hcontent
    rw [hcontent]
    simp only [bind, Except.bind, List.append_assoc, List.length_nil, gt_iff_lt,
      lt_self_iff_false, if_false, pure, Except.pure]
    rw [asn1.readInt_marshalNat 0 _ (by norm_num)]
    simp only
    rw [asn1.readBigInt_marshalNat _ _ (by omega)]
    simp only
    rw [asn1.readInt_marshalNat key.PublicKey.E _ (by omega)]
    simp only
    rw [asn1.readBigInt_marshalNat _ _ (by omega)]
    simp only
    rw [asn1.readBigInt_marshalNat _ _ (by omega)]
    simp only
    rw [asn1.readBigInt_marshalNat _ _ (by omega)]
    simp only
    rw [asn1.readOptionalBigInt_marshalNat _ _ (by omega)]
    simp only
    rw [asn1.readOptionalBigInt_marshalNat _ _ (by omega)]
    simp only
    have hlast := asn1.readOptionalBigInt_marshalNat k.qInv [] (by omega)
    rw [List.append_nil] at hlast
    rw [hlast]
    simp only [hasAdditionalPrimes, List.length_nil, if_true]
    have c4 : ¬ ((0 : Nat) : Int) > 1 := by norm_num
    have c5 : ¬ ((key.PublicKey.N : Int) ≤ 0 ∨ (key.D : Int) ≤ 0 ∨ (key.P : Int) ≤ 0 ∨
        (key.Q : Int) ≤ 0 ∨ setAndNotPositive (some (k.dP : Int)) = true ∨
        setAndNotPositive (some (k.dQ : Int)) = true ∨
        setAndNotPositive (some (k.qInv : Int)) = true) := by
      simp only [setAndNotPositive, decide_eq_true_eq]
      push_neg
      refine ⟨?_, ?_, ?_, ?_, ?_, ?_, ?_⟩ <;> omega
    simp only [c4, c5, if_false, Int.toNat_ofNat, Bool.false_eq_true, throw, throwThe,
      MonadExceptOf.throw, Option.map_some']
    have hP2 : rsa.PrivateKey.Precompute
        ⟨⟨key.PublicKey.N, key.PublicKey.E⟩, key.D, key.P, key.Q,
          ⟨some k.dP, some k.dQ, some k.qInv⟩⟩ =
        ⟨⟨key.PublicKey.N, key.PublicKey.E⟩, key.D, key.P, key.Q,
          ⟨some k.dP, some k.dQ, some k.qInv⟩⟩ := by
      unfold rsa.PrivateKey.Precompute
      rw [hAgain]
    rw [hP2]
    unfold rsa.PrivateKey.Validate
    rw [hAgain]

end x509

namespace x509

/-- The RSAPublicKey structure written by `marshalPKCS1PublicKey` is read back by the RSA
branch of `parsePublicKey`. -/
theorem parsePublicKey_rsa (pub : rsa.PublicKey) (hN : 0 < pub.N) (hE : 0 < pub.E)
    (hE63 : pub.E < 2 ^ 63) (hbits : big.BitLen pub.N ≤ 2 ^ 27) (bitLength : Nat)
    (hbl : bitLength % 8 = 0) :
    parsePublicKey { Algorithm := oidPublicKeyRSA, Parameters := asn1.NullBytes,
                     PublicKey := { Bytes := marshalPKCS1PublicKey pub,
                                    BitLength := bitLength } } = .ok (.rsa pub) := by
  have bE : big.BitLen pub.E ≤ 63 := big.BitLen_le_of_lt_pow hE63
  have lN := asn1.marshalNat_length pub.N (by omega)
  have lE := asn1.marshalNat_length pub.E (by omega)
  unfold parsePublicKey
  simp only [if_true, ne_eq, not_true_eq_false, if_false]
  have hra : ({ Bytes := marshalPKCS1PublicKey pub, BitLength := bitLength } :
      asn1.BitString).RightAlign = marshalPKCS1PublicKey pub := by
    unfold asn1.BitString.RightAlign
    simp [hbl]
  rw [hra]
  unfold marshalPKCS1PublicKey
  have h30 := cryptobyte.ReadASN1_marshalElement asn1.TagSequence true (by decide)
    (asn1.marshalNat pub.N ++ asn1.marshalNat pub.E) []
    (by simp only [List.length_append]; omega)
  have e30 : (Fin.ofNat (asn1.TagSequence ||| (if true = true then 0x20 else 0)) : Byte) = 0x30 :=
    by decide
  rw [e30, List.append_nil] at h30
  rw [h30]
  simp only
  rw [cryptobyte.ReadASN1BigInt_marshalNat _ _ (by omega)]
  simp only
  have hlast := cryptobyte.ReadASN1Int_marshalNat pub.E [] hE63
  rw [List.append_nil] at hlast
  rw [hlast]
  simp only
  rw [if_neg (by omega), if_neg (by omega)]
  simp

theorem oid_parse :
    asn1.readElement asn1.TagOID false (oidPublicKeyRSABytes ++ asn1.NullBytes) =
      .ok ([0x2a, 0x86, 0x48, 0x86, 0xf7, 0x0d, 0x01, 0x01, 0x01], asn1.NullBytes) ∧
    asn1.parseObjectIdentifier [0x2a, 0x86, 0x48, 0x86, 0xf7, 0x0d, 0x01, 0x01, 0x01] =
      .ok oidPublicKeyRSA ∧
    readRawValue asn1.NullBytes = .ok asn1.NullBytes := by decide!

set_option maxHeartbeats 1000000 in
/-- `ParsePKIXPublicKey` reads back what `MarshalPKIXPublicKey` writes for a public key with
a positive modulus of at most `2 ^ 27` bits and a positive exponent that fits a Go `int`. -/
theorem ParsePKIXPublicKey_Marshal (pub : rsa.PublicKey) (hN : 0 < pub.N) (hE : 0 < pub.E)
    (hE63 : pub.E < 2 ^ 63) (hbits : big.BitLen pub.N ≤ 2 ^ 27) :
    ∃ der, MarshalPKIXPublicKey pub = .ok der ∧ ParsePKIXPublicKey der = .ok (.rsa pub) := by
  refine ⟨_, Eq.refl _, ?_⟩
  have bE : big.BitLen pub.E ≤ 63 := big.BitLen_le_of_lt_pow hE63
  have lN := asn1.marshalNat_length pub.N (by omega)
  have lE := asn1.marshalNat_length pub.E (by omega)
  have lkey : (marshalPKCS1PublicKey pub).length ≤ 2 ^ 25 := by
    unfold marshalPKCS1PublicKey asn1.marshalElement asn1.encodeLength
    simp only [List.length_cons, List.length_append]
    split_ifs with h
    · simp only [List.length_cons, asn1.base256_length]
      have : big.BitLen ((asn1.marshalNat pub.N).length + (asn1.marshalNat pub.E).length) ≤ 31 :=
        big.BitLen_le_of_lt_pow (by omega)
      omega
    · simp only [List.length_singleton]; omega
  have lalg : (asn1.marshalElement asn1.TagSequence true
      (oidPublicKeyRSABytes ++ asn1.NullBytes)).length = 15 := by decide!
  have lbits : (asn1.marshalElement asn1.TagBitString false
      ((0 : Byte) :: marshalPKCS1PublicKey pub)).length ≤ 2 ^ 25 + 7 := by
    unfold asn1.marshalElement asn1.encodeLength
    simp only [List.length_cons, List.length_append]
    split_ifs with h
    · simp only [List.length_cons, asn1.base256_length]
      have : big.BitLen ((marshalPKCS1PublicKey pub).length + 1) ≤ 31 :=
        big.BitLen_le_of_lt_pow (by omega)
      omega
    · simp only [List.length_singleton]; omega
  unfold ParsePKIXPublicKey unmarshalPublicKeyInfo
  have h1 := asn1.readElement_marshalElement asn1.TagSequence true (by decide)
    (asn1.marshalElement asn1.TagSequence true (oidPublicKeyRSABytes ++ asn1.NullBytes) ++
      asn1.marshalElement asn1.TagBitString false ((0 : Byte) :: marshalPKCS1PublicKey pub)) []
    (by simp only [List.length_append, lalg]; omega)
  rw [List.append_nil] at h1
  rw [h1]
  simp only [bind, Except.bind, List.length_nil, ne_eq, not_true_eq_false, if_false, pure,
    Except.pure]
  rw [asn1.readElement_marshalElement asn1.TagSequence true (by decide) _ _ (by decide!)]
  simp only
  rw [oid_parse.1]
  simp only
  rw [oid_parse.2.1]
  simp only
  rw [oid_parse.2.2]
  simp only
  have h3 := asn1.readElement_marshalElement asn1.TagBitString false (by decide)
    ((0 : Byte) :: marshalPKCS1PublicKey pub) [] (by simp only [List.length_cons]; omega)
  rw [List.append_nil] at h3
  rw [h3]
  simp only
  have h4 : asn1.parseBitString ((0 : Byte) :: marshalPKCS1PublicKey pub) =
      .ok { Bytes := marshalPKCS1PublicKey pub,
            BitLength := (marshalPKCS1PublicKey pub).length * 8 - 0 } := by
    unfold asn1.parseBitString
    simp
  rw [h4]
  simp only
  exact parsePublicKey_rsa pub hN hE hE63 hbits _ (by omega)

end x509

namespace asn1

theorem parseBase128Int_lib (fuel : Nat) : ∀ (first : Bool) (ret : Nat) (bs : List Byte) (e : Error),
    parseBase128Int fuel first ret bs = .error e → ∃ msg, e = .lib msg := by
  induction fuel with
  | zero =>
    intro first ret bs e h
    cases bs <;> simp only [parseBase128Int, Except.error.injEq] at h <;> exact ⟨_, h.symm⟩
  | succ fuel ih =>
    intro first ret bs e h
    cases bs with
    | nil => simp only [parseBase128Int, Except.error.injEq] at h; exact ⟨_, h.symm⟩
    | cons b rest =>
      simp only [parseBase128Int] at h
      split_ifs at h
      · simp only [Except.error.injEq] at h; exact ⟨_, h.symm⟩
      · simp only [Except.error.injEq] at h; exact ⟨_, h.symm⟩
      · exact ih _ _ _ _ h

theorem parseLongLength_lib (n : Nat) : ∀ (len : Nat) (bs : List Byte) (e : Error),
    parseLongLength n len bs = .error e → ∃ msg, e = .lib msg := by
  induction n with
  | zero => intro len bs e h; simp [parseLongLength] at h
  | succ n ih =>
    intro len bs e h
    cases bs with
    | nil => simp only [parseLongLength, Except.error.injEq] at h; exact ⟨_, h.symm⟩
    | cons b rest =>
      simp only [parseLongLength] at h
      split_ifs at h
      · simp only [Except.error.injEq] at h; exact ⟨_, h.symm⟩
      · simp only [Except.error.injEq] at h; exact ⟨_, h.symm⟩
      · exact ih _ _ _ h

theorem parseTagAndLength_lib (bs : List Byte) (e : Error)
    (h : parseTagAndLength bs = .error e) : ∃ msg, e = .lib msg := by
  unfold parseTagAndLength at h
  split at h
  · simp only [Except.error.injEq] at h; exact ⟨_, h.symm⟩
  · rename_i b rest
    simp only at h
    split at h
    · rename_i err htr
      simp only [Except.error.injEq] at h
      subst h
      split_ifs at htr
      · split at htr
        · rename_i err2 h2
          simp only [Except.error.injEq] at htr
          subst htr
          exact parseBase128Int_lib _ _ _ _ _ h2
        · split_ifs at htr
          simp only [Except.error.injEq] at htr; exact ⟨_, htr.symm⟩
    · simp only [Except.error.injEq] at h; exact ⟨_, h.symm⟩
    · split_ifs at h
      · simp only [Except.error.injEq] at h; exact ⟨_, h.symm⟩
      · split at h
        · rename_i err2 h2
          simp only [Except.error.injEq] at h
          subst h
          exact parseLongLength_lib _ _ _ _ h2
        · split_ifs at h
          simp only [Except.error.injEq] at h; exact ⟨_, h.symm⟩

theorem readElement_lib (tag : Nat) (c : Bool) (bs : List Byte) (e : Error)
    (h : readElement tag c bs = .error e) : ∃ msg, e = .lib msg := by
  unfold readElement at h
  split_ifs at h
  · simp only [Except.error.injEq] at h; exact ⟨_, h.symm⟩
  · split at h
    · rename_i err2 h2
      simp only [Except.error.injEq] at h
      subst h
      exact parseTagAndLength_lib _ _ h2
    · split_ifs at h
      · simp only [Except.error.injEq] at h; exact ⟨_, h.symm⟩
      · simp only [Except.error.injEq] at h; exact ⟨_, h.symm⟩

theorem parseArcs_lib (fuel : Nat) : ∀ (bs : List Byte) (e : Error),
    parseArcs fuel bs = .error e → ∃ msg, e = .lib msg := by
  induction fuel with
  | zero =>
    intro bs e h
    cases bs with
    | nil => simp [parseArcs] at h
    | cons b rest => simp only [parseArcs, Except.error.injEq] at h; exact ⟨_, h.symm⟩
  | succ fuel ih =>
    intro bs e h
    cases bs with
    | nil => simp [parseArcs] at h
    | cons b rest =>
      simp only [parseArcs] at h
      split at h
      · rename_i err2 h2
        simp only [Except.error.injEq] at h
        subst h
        exact parseBase128Int_lib _ _ _ _ _ h2
      · split at h
        · rename_i err3 h3
          simp only [Except.error.injEq] at h
          subst h
          exact ih _ _ h3
        · cases h

theorem parseObjectIdentifier_lib (bs : List Byte) (e : Error)
    (h : parseObjectIdentifier bs = .error e) : ∃ msg, e = .lib msg := by
  unfold parseObjectIdentifier at h
  split_ifs at h
  · simp only [Except.error.injEq] at h; exact ⟨_, h.symm⟩
  · split at h
    · rename_i err2 h2
      simp only [Except.error.injEq] at h
      subst h
      exact parseBase128Int_lib _ _ _ _ _ h2
    · split at h
      · rename_i err3 h3
        simp only [Except.error.injEq] at h
        subst h
        exact parseArcs_lib _ _ _ h3
      · cases h

theorem parseBitString_lib (bs : List Byte) (e : Error)
    (h : parseBitString bs = .error e) : ∃ msg, e = .lib msg := by
  unfold parseBitString at h
  split at h
  · simp only [Except.error.injEq] at h; exact ⟨_, h.symm⟩
  · simp only at h
    split_ifs at h
    simp only [Except.error.injEq] at h; exact ⟨_, h.symm⟩

end asn1

namespace x509

theorem readRawValue_lib (bs : List Byte) (e : Error)
    (h : readRawValue bs = .error e) : ∃ msg, e = .lib msg := by
  unfold readRawValue at h
  split_ifs at h
  split at h
  · rename_i err2 h2
    simp only [Except.error.injEq] at h
    subst h
    exact asn1.parseTagAndLength_lib _ _ h2
  · split_ifs at h
    simp only [Except.error.injEq] at h; exact ⟨_, h.symm⟩

theorem unmarshalPublicKeyInfo_lib (der : List Byte) (e : Error)
    (h : unmarshalPublicKeyInfo der = .error e) : ∃ msg, e = .lib msg := by
  unfold unmarshalPublicKeyInfo at h
  simp only [bind, Except.bind, pure, Except.pure, throw, throwThe, MonadExceptOf.throw] at h
  split at h
  · rename_i err h1; cases h; exact asn1.readElement_lib _ _ _ _ h1
  · split_ifs at h
    · simp only [Except.error.injEq] at h; exact ⟨_, h.symm⟩
    · split at h
      · rename_i err h1; cases h; exact asn1.readElement_lib _ _ _ _ h1
      · split at h
        · rename_i err h1; cases h; exact asn1.readElement_lib _ _ _ _ h1
        · split at h
          · rename_i err h1; cases h; exact asn1.parseObjectIdentifier_lib _ _ h1
          · split at h
            · rename_i err h1; cases h; exact readRawValue_lib _ _ h1
            · split at h
              · rename_i err h1; cases h; exact asn1.readElement_lib _ _ _ _ h1
              · split at h
                · rename_i err h1; cases h; exact asn1.parseBitString_lib _ _ h1
                · cases h

theorem parsePublicKey_lib (keyData : publicKeyInfo) (e : Error)
    (h : parsePublicKey keyData = .error e) : ∃ msg, e = .lib msg := by
  unfold parsePublicKey at h
  simp only at h
  split_ifs at h
  all_goals (repeat' split at h)
  all_goals first
    | (simp only [Except.error.injEq] at h; exact ⟨_, h.symm⟩)
    | cases h

/-- Every error of `ParsePKIXPublicKey` is a library error. -/
theorem ParsePKIXPublicKey_lib (der : List Byte) (e : Error)
    (h : ParsePKIXPublicKey der = .error e) : ∃ msg, e = .lib msg := by
  unfold ParsePKIXPublicKey at h
  split at h
  · rename_i err h1; cases h; exact unmarshalPublicKeyInfo_lib _ _ h1
  · exact parsePublicKey_lib _ _ h

end x509

/-! ## Lemmas: encoding/base64 -/

namespace base64

theorem encodeChar_spec : ∀ v : Fin 64, decodeMap (encodeChar v.val) = some v.val ∧
    plain (encodeChar v.val) ∧ encodeChar v.val ≠ padChar := by
  unfold plain
  decide!

theorem encodeChar_decode (v : Nat) (hv : v < 64) : decodeMap (encodeChar v) = some v :=
  (encodeChar_spec ⟨v, hv⟩).1

theorem encodeChar_plain (v : Nat) : plain (encodeChar v) := by
  have := (encodeChar_spec ⟨v % 64, Nat.mod_lt _ (by norm_num)⟩).2.1
  unfold encodeChar at this ⊢
  simpa using this

theorem padChar_spec : plain padChar ∧ decodeMap padChar = none := by
  unfold plain
  decide!

theorem encodeChar_mod (v : Nat) : encodeChar (v % 64) = encodeChar v := by
  unfold encodeChar
  rw [Nat.mod_mod]

theorem and_3f (x : Nat) : x &&& 0x3f = x % 64 := Nat.and_pow_two_sub_one_eq_mod x 6

theorem pack3 (a b c : Byte) :
    a.val <<< 16 ||| b.val <<< 8 ||| c.val = a.val * 65536 + b.val * 256 + c.val := by
  have ha := a.isLt
  have hb := b.isLt
  have hc := c.isLt
  rw [Nat.shiftLeft_eq, Nat.shiftLeft_eq]
  have h1 := Nat.mul_add_lt_is_or (i := 16) (b := b.val * 2 ^ 8) (by omega) a.val
  have h2 := Nat.mul_add_lt_is_or (i := 8) (b := c.val) (by omega) (a.val * 2 ^ 8 + b.val)
  rw [Nat.mul_comm (2 ^ 16)] at h1
  rw [← h1]
  have e : a.val * 2 ^ 16 + b.val * 2 ^ 8 = 2 ^ 8 * (a.val * 2 ^ 8 + b.val) := by ring
  rw [e, ← h2]
  ring

theorem pack4 (v0 v1 v2 v3 : Nat) (_ : v0 < 64) (h1 : v1 < 64) (h2 : v2 < 64) (h3 : v3 < 64) :
    v0 <<< 18 ||| v1 <<< 12 ||| v2 <<< 6 ||| v3 =
      v0 * 262144 + v1 * 4096 + v2 * 64 + v3 := by
  rw [Nat.shiftLeft_eq, Nat.shiftLeft_eq, Nat.shiftLeft_eq]
  have e1 := Nat.mul_add_lt_is_or (i := 18) (b := v1 * 2 ^ 12) (by omega) v0
  have e2 := Nat.mul_add_lt_is_or (i := 12) (b := v2 * 2 ^ 6) (by omega) (v0 * 2 ^ 6 + v1)
  have e3 := Nat.mul_add_lt_is_or (i := 6) (b := v3) (by omega)
    (v0 * 2 ^ 12 + v1 * 2 ^ 6 + v2)
  rw [Nat.mul_comm (2 ^ 18)] at e1
  rw [← e1]
  have f1 : v0 * 2 ^ 18 + v1 * 2 ^ 12 = 2 ^ 12 * (v0 * 2 ^ 6 + v1) := by ring
  rw [f1, ← e2]
  have f2 : 2 ^ 12 * (v0 * 2 ^ 6 + v1) + v2 * 2 ^ 6 =
      2 ^ 6 * (v0 * 2 ^ 12 + v1 * 2 ^ 6 + v2) := by ring
  rw [f2, ← e3]
  ring

theorem quantumBytes4 (a b c : Byte) :
    quantumBytes [(a.val * 65536 + b.val * 256 + c.val) / 2 ^ 18 % 64,
      (a.val * 65536 + b.val * 256 + c.val) / 2 ^ 12 % 64,
      (a.val * 65536 + b.val * 256 + c.val) / 2 ^ 6 % 64,
      (a.val * 65536 + b.val * 256 + c.val) % 64] = [a, b, c] := by
  have ha := a.isLt
  have hb := b.isLt
  have hc := c.isLt
  unfold quantumBytes
  simp only [List.getD_cons_zero, List.getD_cons_succ, List.length_cons, List.length_nil]
  rw [pack4 _ _ _ _ (Nat.mod_lt _ (by norm_num)) (Nat.mod_lt _ (by norm_num))
    (Nat.mod_lt _ (by norm_num)) (Nat.mod_lt _ (by norm_num))]
  simp only [Nat.shiftRight_eq_div_pow, List.take, Nat.reduceAdd, Nat.reduceSub]
  refine congrArg₂ _ ?_ (congrArg₂ _ ?_ (congrArg₂ _ ?_ rfl)) <;>
    (apply Fin.ext; simp only [Fin.ofNat]; omega)

theorem quantumBytes3 (a b : Byte) :
    quantumBytes [(a.val * 65536 + b.val * 256) / 2 ^ 18 % 64,
      (a.val * 65536 + b.val * 256) / 2 ^ 12 % 64,
      (a.val * 65536 + b.val * 256) / 2 ^ 6 % 64] = [a, b] := by
  have ha := a.isLt
  have hb := b.isLt
  unfold quantumBytes
  simp only [List.getD_cons_zero, List.getD_cons_succ, List.length_cons, List.length_nil,
    List.getD_nil]
  rw [pack4 _ _ _ _ (Nat.mod_lt _ (by norm_num)) (Nat.mod_lt _ (by norm_num))
    (Nat.mod_lt _ (by norm_num)) (by norm_num)]
  simp only [Nat.shiftRight_eq_div_pow, List.take, Nat.reduceAdd, Nat.reduceSub]
  refine congrArg₂ _ ?_ (congrArg₂ _ ?_ rfl) <;>
    (apply Fin.ext; simp only [Fin.ofNat]; omega)

theorem quantumBytes2 (a : Byte) :
    quantumBytes [(a.val * 65536) / 2 ^ 18 % 64, (a.val * 65536) / 2 ^ 12 % 64] = [a] := by
  have ha := a.isLt
  unfold quantumBytes
  simp only [List.getD_cons_zero, List.getD_cons_succ, List.length_cons, List.length_nil,
    List.getD_nil]
  rw [pack4 _ _ _ _ (Nat.mod_lt _ (by norm_num)) (Nat.mod_lt _ (by norm_num))
    (by norm_num) (by norm_num)]
  simp only [Nat.shiftRight_eq_div_pow, List.take, Nat.reduceAdd, Nat.reduceSub]
  refine congrArg₂ _ ?_ rfl
  apply Fin.ext; simp only [Fin.ofNat]; omega

end base64

namespace base64

theorem decodeFrom_value (dbuf : List Nat) (out : List Byte) (c : Byte) (src : List Byte)
    (v : Nat) (hc : plain c) (hv : decodeMap c = some v) :
    decodeFrom (.quantum dbuf) out (c :: src) =
      if dbuf.length = 3 then decodeFrom (.quantum []) (out ++ quantumBytes (dbuf ++ [v])) src
      else decodeFrom (.quantum (dbuf ++ [v])) out src := by
  have hn : ¬ (c = 0x0a ∨ c = 0x0d) := by rintro (h | h); exact hc.1 h; exact hc.2.1 h
  cases dbuf <;> simp only [decodeFrom, hn, if_false, hv]

theorem decodeFrom_newline (st : DecodeState) (out src : List Byte) :
    decodeFrom st out ((0x0a : Byte) :: src) = decodeFrom st out src := by
  cases st with
  | quantum dbuf => cases dbuf <;> simp [decodeFrom]
  | needPad => simp [decodeFrom]
  | done => simp [decodeFrom]

theorem decodeFrom_cons (st : DecodeState) (out src : List Byte) (c : Byte) :
    decodeFrom st out (c :: src) =
      if c = 0x0a ∨ c = 0x0d then decodeFrom st out src
      else
        match st with
        | .quantum dbuf =>
          match decodeMap c with
          | some v =>
            if dbuf.length = 3 then
              decodeFrom (.quantum []) (out ++ quantumBytes (dbuf ++ [v])) src
            else decodeFrom (.quantum (dbuf ++ [v])) out src
          | none =>
            if c ≠ padChar then .error (.lib "illegal base64 data")
            else if dbuf.length = 2 then decodeFrom .needPad (out ++ quantumBytes dbuf) src
            else if dbuf.length = 3 then decodeFrom .done (out ++ quantumBytes dbuf) src
            else .error (.lib "illegal base64 data")
        | .needPad =>
          if c = padChar then decodeFrom .done out src
          else .error (.lib "illegal base64 data")
        | .done => .error (.lib "illegal base64 data") := by
  cases st with
  | quantum dbuf => cases dbuf <;> simp only [decodeFrom]
  | needPad => simp only [decodeFrom]
  | done => simp only [decodeFrom]

/-- Line feeds in the text make no difference to the decoder. -/
theorem decodeFrom_filter (src : List Byte) : ∀ (st : DecodeState) (out : List Byte),
    decodeFrom st out src = decodeFrom st out (src.filter (fun c => decide (c ≠ 0x0a))) := by
  induction src with
  | nil => intro st out; rfl
  | cons c src ih =>
    intro st out
    by_cases hc : c = 0x0a
    · subst hc
      rw [decodeFrom_newline, ih]
      simp
    · have hf : (c :: src).filter (fun c => decide (c ≠ 0x0a)) =
          c :: src.filter (fun c => decide (c ≠ 0x0a)) := by simp [hc]
      rw [hf, decodeFrom_cons, decodeFrom_cons]
      by_cases hd : c = 0x0d
      · simp only [hd, or_true, if_true]
        exact ih _ _
      · simp only [hc, hd, or_self, if_false]
        cases st with
        | quantum dbuf =>
          simp only
          cases decodeMap c with
          | none =>
            simp only
            split_ifs <;> first | rfl | exact ih _ _
          | some v =>
            simp only
            split_ifs <;> exact ih _ _
        | needPad =>
          simp only
          split_ifs <;> first | rfl | exact ih _ _
        | done => rfl

theorem decodeFrom_pad2 (out : List Byte) (v0 v1 : Nat) :
    decodeFrom (.quantum [v0, v1]) out [padChar, padChar] =
      .ok (out ++ quantumBytes [v0, v1]) := by
  have hp := padChar_spec
  have hn : ¬ (padChar = 0x0a ∨ padChar = 0x0d) := by
    rintro (h | h); exact hp.1.1 h; exact hp.1.2.1 h
  rw [decodeFrom_cons, if_neg hn]
  simp only [hp.2, ne_eq, not_true_eq_false, if_false, List.length_cons, List.length_nil,
    if_true]
  rw [decodeFrom_cons, if_neg hn]
  simp only [if_true]
  rw [decodeFrom]

theorem decodeFrom_pad1 (out : List Byte) (v0 v1 v2 : Nat) :
    decodeFrom (.quantum [v0, v1, v2]) out [padChar] =
      .ok (out ++ quantumBytes [v0, v1, v2]) := by
  have hp := padChar_spec
  have hn : ¬ (padChar = 0x0a ∨ padChar = 0x0d) := by
    rintro (h | h); exact hp.1.1 h; exact hp.1.2.1 h
  rw [decodeFrom_cons, if_neg hn]
  simp only [hp.2, ne_eq, not_true_eq_false, if_false, List.length_cons, List.length_nil]
  rw [if_neg (by decide), if_pos (by decide)]
  rw [decodeFrom]

theorem decodeFrom_three (out src : List Byte) (v0 v1 v2 : Nat) (h0 : v0 < 64) (h1 : v1 < 64)
    (h2 : v2 < 64) :
    decodeFrom (.quantum []) out (encodeChar v0 :: encodeChar v1 :: encodeChar v2 :: src) =
      decodeFrom (.quantum [v0, v1, v2]) out src := by
  rw [decodeFrom_value [] _ _ _ _ (encodeChar_plain _) (encodeChar_decode _ h0)]
  simp only [List.nil_append, List.cons_append, List.length_cons, List.length_nil,
    Nat.reduceAdd, Nat.reduceEqDiff, OfNat.ofNat_ne_zero, OfNat.zero_ne_ofNat, if_false, if_true, reduceIte]
  rw [decodeFrom_value [v0] _ _ _ _ (encodeChar_plain _) (encodeChar_decode _ h1)]
  simp only [List.nil_append, List.cons_append, List.length_cons, List.length_nil,
    Nat.reduceAdd, Nat.reduceEqDiff, OfNat.ofNat_ne_zero, OfNat.zero_ne_ofNat, if_false, if_true, reduceIte]
  rw [decodeFrom_value [v0, v1] _ _ _ _ (encodeChar_plain _) (encodeChar_decode _ h2)]
  simp only [List.nil_append, List.cons_append, List.length_cons, List.length_nil,
    Nat.reduceAdd, Nat.reduceEqDiff, OfNat.ofNat_ne_zero, OfNat.zero_ne_ofNat, if_false, if_true, reduceIte]

theorem decodeFrom_two (out src : List Byte) (v0 v1 : Nat) (h0 : v0 < 64) (h1 : v1 < 64) :
    decodeFrom (.quantum []) out (encodeChar v0 :: encodeChar v1 :: src) =
      decodeFrom (.quantum [v0, v1]) out src := by
  rw [decodeFrom_value [] _ _ _ _ (encodeChar_plain _) (encodeChar_decode _ h0)]
  simp only [List.nil_append, List.cons_append, List.length_cons, List.length_nil,
    Nat.reduceAdd, Nat.reduceEqDiff, OfNat.ofNat_ne_zero, OfNat.zero_ne_ofNat, if_false, if_true, reduceIte]
  rw [decodeFrom_value [v0] _ _ _ _ (encodeChar_plain _) (encodeChar_decode _ h1)]
  simp only [List.nil_append, List.cons_append, List.length_cons, List.length_nil,
    Nat.reduceAdd, Nat.reduceEqDiff, OfNat.ofNat_ne_zero, OfNat.zero_ne_ofNat, if_false, if_true, reduceIte]

/-- The decoder reads back what the encoder writes. -/
theorem decodeFrom_Encode (bs : List Byte) : ∀ out : List Byte,
    decodeFrom (.quantum []) out (Encode bs) = .ok (out ++ bs) := by
  induction bs using Encode.induct with
  | case1 a b c rest ih =>
    intro out
    rw [Encode]
    simp only [List.cons_append, List.nil_append]
    rw [pack3, and_3f, and_3f, and_3f, and_3f, Nat.shiftRight_eq_div_pow,
      Nat.shiftRight_eq_div_pow, Nat.shiftRight_eq_div_pow]
    rw [decodeFrom_three _ _ _ _ _ (Nat.mod_lt _ (by norm_num)) (Nat.mod_lt _ (by norm_num))
      (Nat.mod_lt _ (by norm_num))]
    rw [decodeFrom_value _ _ _ _ _ (encodeChar_plain _)
      (encodeChar_decode _ (Nat.mod_lt _ (by norm_num)))]
    simp only [List.nil_append, List.cons_append, List.length_cons, List.length_nil,
      Nat.reduceAdd, Nat.reduceEqDiff, OfNat.ofNat_ne_zero, OfNat.zero_ne_ofNat, if_false, if_true, reduceIte]
    rw [quantumBytes4, ih]
    simp
  | case2 a b =>
    intro out
    rw [Encode]
    have e : a.val <<< 16 ||| b.val <<< 8 = a.val * 65536 + b.val * 256 := by
      have := pack3 a b 0
      simpa using this
    rw [e, and_3f, and_3f, and_3f, Nat.shiftRight_eq_div_pow,
      Nat.shiftRight_eq_div_pow, Nat.shiftRight_eq_div_pow]
    rw [decodeFrom_three _ _ _ _ _ (Nat.mod_lt _ (by norm_num)) (Nat.mod_lt _ (by norm_num))
      (Nat.mod_lt _ (by norm_num))]
    rw [decodeFrom_pad1, quantumBytes3]
  | case3 a =>
    intro out
    rw [Encode]
    have e : a.val <<< 16 = a.val * 65536 := by
      rw [Nat.shiftLeft_eq]
    rw [e, and_3f, and_3f, Nat.shiftRight_eq_div_pow, Nat.shiftRight_eq_div_pow]
    rw [decodeFrom_two _ _ _ _ (Nat.mod_lt _ (by norm_num)) (Nat.mod_lt _ (by norm_num))]
    rw [decodeFrom_pad2, quantumBytes2]
  | case4 =>
    intro out
    rw [Encode, decodeFrom]
    simp

/-- Every character the encoder writes is plain. -/
theorem Encode_plain (bs : List Byte) : ∀ c ∈ Encode bs, plain c := by
  induction bs using Encode.induct with
  | case1 a b c rest ih =>
    intro x hx
    rw [Encode] at hx
    simp only [List.cons_append, List.nil_append, List.mem_cons] at hx
    rcases hx with h | h | h | h | h
    · rw [h]; exact encodeChar_plain _
    · rw [h]; exact encodeChar_plain _
    · rw [h]; exact encodeChar_plain _
    · rw [h]; exact encodeChar_plain _
    · exact ih x h
  | case2 a b =>
    intro x hx
    rw [Encode] at hx
    simp only [List.mem_cons, List.mem_singleton, List.not_mem_nil, or_false] at hx
    rcases hx with h | h | h | h
    · rw [h]; exact encodeChar_plain _
    · rw [h]; exact encodeChar_plain _
    · rw [h]; exact encodeChar_plain _
    · rw [h]; exact padChar_spec.1
  | case3 a =>
    intro x hx
    rw [Encode] at hx
    simp only [List.mem_cons, List.mem_singleton, List.not_mem_nil, or_false] at hx
    rcases hx with h | h | h | h
    · rw [h]; exact encodeChar_plain _
    · rw [h]; exact encodeChar_plain _
    · rw [h]; exact padChar_spec.1
    · rw [h]; exact padChar_spec.1
  | case4 =>
    intro x hx
    rw [Encode] at hx
    cases hx

end base64

/-! ## Lemmas: bytes, encoding/pem -/

namespace bytes

theorem HasPrefix_append (p s : List Byte) : HasPrefix (p ++ s) p = true := by
  induction p with
  | nil => cases s <;> rfl
  | cons c p ih => simp [HasPrefix, ih]

theorem HasPrefix_cons_ne (c p : Byte) (s ps : List Byte) (h : c ≠ p) :
    HasPrefix (c :: s) (p :: ps) = false := by
  simp [HasPrefix, h]

theorem HasSuffix_append (a s : List Byte) : HasSuffix (a ++ s) s = true := by
  simp [HasSuffix]

theorem IndexByte_append (u v : List Byte) (c : Byte) (h : c ∉ u) :
    IndexByte (u ++ c :: v) c = some u.length := by
  induction u with
  | nil => simp [IndexByte]
  | cons b u ih =>
    have hb : b ≠ c := fun e => h (by rw [e]; exact List.mem_cons_self _ _)
    have hu : c ∉ u := fun e => h (List.mem_cons_of_mem _ e)
    simp [IndexByte, hb, ih hu]

theorem IndexByte_none (u : List Byte) (c : Byte) (h : c ∉ u) : IndexByte u c = none := by
  induction u with
  | nil => rfl
  | cons b u ih =>
    have hb : b ≠ c := fun e => h (by rw [e]; exact List.mem_cons_self _ _)
    have hu : c ∉ u := fun e => h (List.mem_cons_of_mem _ e)
    simp [IndexByte, hb, ih hu]

theorem Index_singleton_none (s : List Byte) (c : Byte) (h : c ∉ s) : Index s [c] = none := by
  induction s with
  | nil => rfl
  | cons b s ih =>
    have hb : b ≠ c := fun e => h (by rw [e]; exact List.mem_cons_self _ _)
    have hu : c ∉ s := fun e => h (List.mem_cons_of_mem _ e)
    simp [Index, HasPrefix, hb, ih hu]

theorem Index_cons (c : Byte) (s sep : List Byte) :
    Index (c :: s) sep =
      if HasPrefix (c :: s) sep then some 0
      else match Index s sep with
        | some i => some (i + 1)
        | none => none := by
  rw [Index]

/-- A separator that starts with a line feed and a dash is first found after a text without
dashes. -/
theorem Index_after (u sep w : List Byte) (h : (0x2d : Byte) ∉ u) :
    Index (u ++ ((0x0a : Byte) :: (0x2d : Byte) :: sep) ++ w) ((0x0a : Byte) :: 0x2d :: sep) =
      some u.length := by
  induction u with
  | nil =>
    have := HasPrefix_append ((0x0a : Byte) :: 0x2d :: sep) w
    simp only [List.nil_append, List.cons_append] at this ⊢
    rw [Index_cons, this]
    rfl
  | cons c u ih =>
    have hu : (0x2d : Byte) ∉ u := fun e => h (List.mem_cons_of_mem _ e)
    have hc : c ≠ 0x2d := fun e => h (by rw [e]; exact List.mem_cons_self _ _)
    have hp : HasPrefix (c :: (u ++ (0x0a : Byte) :: 0x2d :: sep ++ w))
        ((0x0a : Byte) :: 0x2d :: sep) = false := by
      cases u with
      | nil => simp [HasPrefix]
      | cons d u =>
        have hd : d ≠ 0x2d := fun e => hu (by rw [e]; exact List.mem_cons_self _ _)
        simp [HasPrefix, hd]
    have e : (c :: u) ++ (0x0a : Byte) :: 0x2d :: sep ++ w =
        c :: (u ++ (0x0a : Byte) :: 0x2d :: sep ++ w) := by simp
    rw [e, Index_cons, hp, ih hu]
    rfl

theorem TrimRightSpaceTab_eq (u : List Byte)
    (h : ∀ c, u.getLast? = some c → c ≠ 0x20 ∧ c ≠ 0x09) : TrimRightSpaceTab u = u := by
  unfold TrimRightSpaceTab
  induction u using List.reverseRecOn with
  | nil => rfl
  | append_singleton u c _ =>
    have := h c (by simp)
    simp [List.dropWhile, this.1, this.2]

theorem TrimRightSpaceTab_subset (u : List Byte) : ∀ c ∈ TrimRightSpaceTab u, c ∈ u := by
  intro c hc
  unfold TrimRightSpaceTab at hc
  rw [List.mem_reverse] at hc
  have := (List.dropWhile_sublist _).subset hc
  exact List.mem_reverse.1 this

end bytes

namespace pem

/-- The first line of a text that starts with a line without trailing blanks. -/
theorem getLine_line (u v : List Byte) (h1 : (0x0a : Byte) ∉ u)
    (h2 : ∀ c, u.getLast? = some c → c ≠ 0x0d ∧ c ≠ 0x20 ∧ c ≠ 0x09) :
    getLine (u ++ (0x0a : Byte) :: v) = (u, v) := by
  unfold getLine
  rw [bytes.IndexByte_append u v _ h1]
  simp only
  have hcr : ¬ (u.length > 0 ∧ (u ++ (0x0a : Byte) :: v).getD (u.length - 1) 0 = 0x0d) := by
    rintro ⟨hpos, hd⟩
    rcases List.eq_nil_or_concat u with rfl | ⟨w, c, rfl⟩
    · simp at hpos
    · have := (h2 c (by simp)).1
      apply this
      rw [← hd]
      simp [List.getD_eq_getElem?_getD, List.getElem?_append_right, List.getElem_append_right]
  rw [if_neg hcr]
  have e : u ++ (0x0a : Byte) :: v = (u ++ [(0x0a : Byte)]) ++ v := by simp
  rw [List.take_left]
  rw [e, List.drop_left' (by simp)]
  rw [bytes.TrimRightSpaceTab_eq u (fun c hc => (h2 c hc).2)]

theorem getLine_fst_subset (data : List Byte) : ∀ c ∈ (getLine data).1, c ∈ data := by
  intro c hc
  unfold getLine at hc
  split at hc
  · exact bytes.TrimRightSpaceTab_subset _ c hc
  · have := bytes.TrimRightSpaceTab_subset _ c hc
    exact List.mem_of_mem_take this

theorem decodeHeaders_none (rest : List Byte) (hne : rest ≠ []) (h : (0x3a : Byte) ∉ rest)
    (fuel : Nat) : decodeHeaders (fuel + 1) rest [] = some ([], rest) := by
  unfold decodeHeaders
  have hl : ¬ rest.length = 0 := by
    intro e; exact hne (List.length_eq_zero.1 e)
  rw [if_neg hl]
  have hcut : bytes.Cut (getLine rest).1 colon = none := by
    unfold bytes.Cut
    have : colon = [(0x3a : Byte)] := by decide
    rw [this, bytes.Index_singleton_none _ _
      (fun hc => h (getLine_fst_subset rest _ hc))]
  simp only [hcut]

/-- What `lineBreaker` writes for a text of plain characters: nothing for an empty text,
otherwise lines that end with a line feed, start with a plain character, and give back the
text when the line feeds are taken out. -/
theorem breakLines_spec (fuel : Nat) : ∀ text : List Byte, text.length ≤ fuel →
    (∀ c ∈ text, base64.plain c) →
    (text = [] → breakLines fuel text = []) ∧
    (text ≠ [] → ∃ u, breakLines fuel text = u ++ [(0x0a : Byte)] ∧
      (∀ c ∈ u, base64.plain c ∨ c = 0x0a) ∧ (∃ c v, u = c :: v ∧ base64.plain c) ∧
      u.filter (fun c => decide (c ≠ 0x0a)) = text) := by
  induction fuel with
  | zero =>
    intro text hl _
    have : text = [] := List.length_eq_zero.1 (by omega)
    subst this
    exact ⟨fun _ => rfl, fun h => absurd rfl h⟩
  | succ fuel ih =>
    intro text hl hp
    constructor
    · intro e; subst e; rfl
    · intro hne
      obtain ⟨c, t, rfl⟩ := List.exists_cons_of_ne_nil hne
      have hfilter : ∀ l : List Byte, (∀ c ∈ l, base64.plain c) →
          l.filter (fun c => decide (c ≠ 0x0a)) = l := by
        intro l hl
        rw [List.filter_eq_self]
        intro x hx
        simpa using (hl x hx).1
      have htake : ∀ x ∈ (c :: t).take pemLineLength, base64.plain x :=
        fun x hx => hp x (List.mem_of_mem_take hx)
      have hdrop : ∀ x ∈ (c :: t).drop pemLineLength, base64.plain x :=
        fun x hx => hp x (List.mem_of_mem_drop hx)
      have htk : (c :: t).take pemLineLength = c :: t.take (pemLineLength - 1) := rfl
      obtain ⟨i1, i2⟩ := ih ((c :: t).drop pemLineLength)
        (by rw [List.length_drop]; simp only [List.length_cons] at hl ⊢
            have : pemLineLength = 64 := rfl
            omega) hdrop
      simp only [breakLines, List.isEmpty_cons, Bool.false_eq_true, if_false]
      by_cases hd : (c :: t).drop pemLineLength = []
      · rw [i1 hd, List.append_nil]
        refine ⟨(c :: t).take pemLineLength, rfl, fun x hx => Or.inl (htake x hx),
          ⟨c, _, htk, hp c (List.mem_cons_self _ _)⟩, ?_⟩
        rw [hfilter _ htake]
        have := List.take_append_drop pemLineLength (c :: t)
        rw [hd, List.append_nil] at this
        exact this
      · obtain ⟨u, hu, hu1, _, hu3⟩ := i2 hd
        rw [hu]
        refine ⟨(c :: t).take pemLineLength ++ [(0x0a : Byte)] ++ u, by simp, ?_,
          ⟨c, _, by rw [htk]; rfl, hp c (List.mem_cons_self _ _)⟩, ?_⟩
        · intro x hx
          simp only [List.mem_append, List.mem_singleton] at hx
          rcases hx with (hx | hx) | hx
          · exact Or.inl (htake x hx)
          · exact Or.inr hx
          · exact hu1 x hx
        · rw [List.filter_append, List.filter_append, hfilter _ htake, hu3]
          simp

end pem

namespace pem

theorem constants :
    pemStart.drop 1 = strBytes "-----BEGIN " ∧ pemStart.length - 1 = 11 ∧
    pemEnd = (0x0a : Byte) :: 0x2d :: strBytes "----END " ∧
    pemEnd.drop 1 = (0x2d : Byte) :: strBytes "----END " ∧ pemEnd.length = 10 ∧
    strBytes "-----\n" = pemEndOfLine ++ [(0x0a : Byte)] ∧ pemEndOfLine.length = 5 ∧
    (0x0a : Byte) ∉ pemEndOfLine ∧ (0x3a : Byte) ∉ pemEndOfLine ∧
    pemEndOfLine.getLast? = some 0x2d ∧ (0x3a : Byte) ∉ pemEnd.drop 1 ∧
    getLine [(0x0a : Byte)] = ([], []) := by decide

/-- The tail of `decodeBody`: once the END line is found, the block is accepted when the
trailer repeats the type and the text in between is base64. -/
theorem decodeBody_ends (type rest pre : List Byte) (headers : List (List Byte × List Byte))
    (der : List Byte) (i j : Nat) (hi : rest.take i = pre)
    (hj : rest.drop j = type ++ pemEndOfLine ++ [(0x0a : Byte)])
    (hb : base64.Decode (removeSpacesAndTabs pre) = .ok der)
    (hends : (if headers.length = 0 ∧ bytes.HasPrefix rest (pemEnd.drop 1) then
        some (0, pemEnd.length - 1)
      else match bytes.Index rest pemEnd with
        | some endIndex => some (endIndex, endIndex + pemEnd.length)
        | none => none) = some (i, j)) :
    decodeBody type headers rest =
      some { BlockType := type, Headers := headers, Bytes := der } := by
  obtain ⟨_, _, _, _, _, _, c7, _, _, _, _, c12⟩ := constants
  unfold decodeBody
  simp only [hends, hj, hi]
  have hlen : ¬ (type ++ pemEndOfLine ++ [(0x0a : Byte)]).length <
      type.length + pemEndOfLine.length := by
    simp only [List.length_append, List.length_singleton]; omega
  rw [if_neg hlen]
  have htake : (type ++ pemEndOfLine ++ [(0x0a : Byte)]).take
      (type.length + pemEndOfLine.length) = type ++ pemEndOfLine := by
    rw [← List.length_append, List.take_left]
  have hdrop : (type ++ pemEndOfLine ++ [(0x0a : Byte)]).drop
      (type.length + pemEndOfLine.length) = [(0x0a : Byte)] := by
    rw [← List.length_append, List.drop_left]
  rw [htake, hdrop, bytes.HasPrefix_append, bytes.HasSuffix_append, c12, hb]
  simp

theorem removeSpacesAndTabs_eq (u : List Byte) (h : ∀ c ∈ u, base64.plain c ∨ c = 0x0a) :
    removeSpacesAndTabs u = u := by
  unfold removeSpacesAndTabs
  rw [List.filter_eq_self]
  intro c hc
  rcases h c hc with hp | hn
  · have h1 := hp.2.2.2.2.1
    have h2 := hp.2.2.2.2.2
    simp [h1, h2]
  · subst hn
    decide

/-- The body of the loop of `Decode` accepts what `EncodeToMemory` writes after the BEGIN
line. -/
theorem decodeBody_encoded (type der : List Byte) :
    decodeBody type []
        (breakLines (base64.Encode der).length (base64.Encode der) ++ pemEnd.drop 1 ++
          type ++ strBytes "-----\n") =
      some { BlockType := type, Headers := [], Bytes := der } := by
  obtain ⟨_, _, c3, c4, c5, c6, _, _, _, _, _, _⟩ := constants
  obtain ⟨s1, s2⟩ := breakLines_spec (base64.Encode der).length (base64.Encode der) le_rfl
    (base64.Encode_plain der)
  by_cases he : base64.Encode der = []
  · rw [s1 he, List.nil_append]
    apply decodeBody_ends type _ [] [] der 0 (pemEnd.length - 1) rfl
    · rw [c5, c4, c6]
      have : (10 : Nat) - 1 = ((0x2d : Byte) :: strBytes "----END ").length := by decide
      rw [this, List.append_assoc, List.append_assoc, List.drop_left]
    · have := base64.decodeFrom_Encode der []
      rw [he] at this
      simpa [base64.Decode, removeSpacesAndTabs] using this
    · rw [List.append_assoc, bytes.HasPrefix_append]
      simp
  · obtain ⟨u, hu, hu1, ⟨c, v, hcv, hc⟩, hu3⟩ := s2 he
    rw [hu]
    have hrest : u ++ [(0x0a : Byte)] ++ pemEnd.drop 1 ++ type ++ strBytes "-----\n" =
        u ++ ((0x0a : Byte) :: 0x2d :: strBytes "----END ") ++
          (type ++ pemEndOfLine ++ [(0x0a : Byte)]) := by
      rw [c4, c6]; simp
    have hdash : (0x2d : Byte) ∉ u := by
      intro hm
      rcases hu1 _ hm with hp | hn
      · exact hp.2.2.1 rfl
      · exact absurd hn (by decide)
    apply decodeBody_ends type _ u [] der u.length (u.length + pemEnd.length)
    · rw [hrest, List.append_assoc, List.take_left]
    · rw [hrest, c5]
      have : u.length + 10 = (u ++ ((0x0a : Byte) :: 0x2d :: strBytes "----END ")).length := by
        simp only [List.length_append, List.length_cons]
        rfl
      rw [this, List.drop_left]
    · rw [removeSpacesAndTabs_eq u hu1]
      unfold base64.Decode
      rw [base64.decodeFrom_filter, hu3, base64.decodeFrom_Encode]
      rfl
    · have hnp : bytes.HasPrefix
          (u ++ [(0x0a : Byte)] ++ pemEnd.drop 1 ++ type ++ strBytes "-----\n")
          (pemEnd.drop 1) = false := by
        rw [hcv, c4]
        simp only [List.cons_append]
        exact bytes.HasPrefix_cons_ne _ _ _ _ hc.2.2.1
      rw [hnp]
      simp only [Bool.false_eq_true, and_false, if_false]
      rw [hrest]
      conv_lhs => rw [c3]
      rw [bytes.Index_after u _ _ hdash]
      rw [c3]

/-- `pem.Decode` reads back a block written by `pem.EncodeToMemory`, whatever the type label,
as long as the label has no line feed and no colon. -/
theorem Decode_EncodeToMemory (type der : List Byte)
    (hty : ∀ c ∈ type, c ≠ 0x0a ∧ c ≠ 0x3a) :
    Decode (EncodeToMemory type der) =
      some { BlockType := type, Headers := [], Bytes := der } := by
  obtain ⟨c1, c2, c3, c4, c5, c6, c7, c8, c9, c10, c11, c12⟩ := constants
  obtain ⟨s1, s2⟩ := breakLines_spec (base64.Encode der).length (base64.Encode der) le_rfl
    (base64.Encode_plain der)
  unfold Decode decodeLoop
  have hE : EncodeToMemory type der = pemStart.drop 1 ++
      ((type ++ pemEndOfLine) ++ (0x0a : Byte) ::
        (breakLines (base64.Encode der).length (base64.Encode der) ++ pemEnd.drop 1 ++
          type ++ strBytes "-----\n")) := by
    unfold EncodeToMemory
    simp only [c6, List.append_assoc, List.singleton_append, List.cons_append,
      List.nil_append]
  rw [hE, bytes.HasPrefix_append]
  simp only [if_true]
  have hdrop : (pemStart.drop 1 ++
      ((type ++ pemEndOfLine) ++ (0x0a : Byte) ::
        (breakLines (base64.Encode der).length (base64.Encode der) ++ pemEnd.drop 1 ++
          type ++ strBytes "-----\n"))).drop (pemStart.length - 1) =
      (type ++ pemEndOfLine) ++ (0x0a : Byte) ::
        (breakLines (base64.Encode der).length (base64.Encode der) ++ pemEnd.drop 1 ++
          type ++ strBytes "-----\n") := by
    rw [List.drop_left' (by rw [c1, c2]; rfl)]
  rw [hdrop]
  have hline := getLine_line (type ++ pemEndOfLine)
    (breakLines (base64.Encode der).length (base64.Encode der) ++ pemEnd.drop 1 ++
          type ++ strBytes "-----\n")
    (by
      intro hm
      rcases List.mem_append.1 hm with h | h
      · exact (hty _ h).1 rfl
      · exact c8 h)
    (by
      intro c hc
      rw [List.getLast?_append_of_ne_nil _ (by decide), c10] at hc
      cases hc
      decide)
  rw [hline]
  simp only [bytes.HasSuffix_append, Bool.not_true, Bool.false_eq_true, if_false]
  have htl : (type ++ pemEndOfLine).take ((type ++ pemEndOfLine).length - pemEndOfLine.length) =
      type := by
    rw [List.length_append, Nat.add_sub_cancel, List.take_left]
  rw [htl]
  have hcolon : (0x3a : Byte) ∉
      breakLines (base64.Encode der).length (base64.Encode der) ++ pemEnd.drop 1 ++
          type ++ strBytes "-----\n" := by
    intro hm
    simp only [List.mem_append] at hm
    rcases hm with ((h | h) | h) | h
    · by_cases he : base64.Encode der = []
      · rw [s1 he] at h; cases h
      · obtain ⟨u, hu, hu1, _, _⟩ := s2 he
        rw [hu] at h
        rcases List.mem_append.1 h with h | h
        · rcases hu1 _ h with hp | hn
          · exact hp.2.2.2.1 rfl
          · exact absurd hn (by decide)
        · exact absurd (List.mem_singleton.1 h) (by decide)
    · exact c11 h
    · exact (hty _ h).2 rfl
    · rw [c6] at h
      rcases List.mem_append.1 h with h | h
      · exact c9 h
      · exact absurd (List.mem_singleton.1 h) (by decide)
  rw [decodeHeaders_none _ (by rw [c6]; simp) hcolon]
  simp only
  rw [decodeBody_encoded]

end pem

/-! ## Claims about signing and verification -/

namespace digital_signatures

/-- Signing with a structurally valid key succeeds exactly when the modulus has at least 1024
bits, and then gives the encoded message of the SHA-256 digest raised to the private exponent
modulo `N`. -/
theorem SignDataWithRSA_ok_iff {privateKey : rsa.PrivateKey} (h : privateKey.WellFormed)
    (randReader : List Nat) (data s : List Byte) :
    SignDataWithRSA randReader data privateKey = .ok s ↔
      1024 ≤ big.BitLen privateKey.PublicKey.N ∧
      s = big.FillBytes privateKey.PublicKey.Size
        (big.SetBytes (fips140.rsa.encodedMessage privateKey.PublicKey.Size
          fips140.rsa.sha256Prefix (sha256.Sum256 data)) ^ privateKey.D %
            privateKey.PublicKey.N) := by
  rw [SignDataWithRSA_eq]
  by_cases hk : 1024 ≤ big.BitLen privateKey.PublicKey.N
  · rw [rsa.SignPKCS1v15_eq h _ _ (sha256.Sum256_length _) hk]
    simp [hk, eq_comm]
  · obtain ⟨err, he⟩ := rsa.SignPKCS1v15_small privateKey randReader (sha256.Sum256 data)
      (by omega)
    rw [he]
    simp [hk]

/-- SHA-256 maps infinitely many messages to finitely many digests: two different messages
share a digest. -/
theorem exists_collision : ∃ m1 m2 : List Byte, m1 ≠ m2 ∧ sha256.Sum256 m1 = sha256.Sum256 m2 := by
  have hfin : ({l : List Byte | l.length = 32} : Set (List Byte)).Finite :=
    List.finite_length_eq Byte 32
  have hmaps : Set.MapsTo sha256.Sum256 (Set.univ : Set (List Byte))
      {l : List Byte | l.length = 32} := fun m _ => sha256.Sum256_length m
  obtain ⟨x, _, y, _, hne, heq⟩ :=
    Set.Infinite.exists_ne_map_eq_of_mapsTo Set.infinite_univ hmaps hfin
  exact ⟨x, y, hne, heq⟩

/-- A signature made by a structurally valid key verifies under its public key. -/
theorem verify_own_signature {sk : rsa.PrivateKey} (h : sk.WellFormed) (randReader : List Nat)
    (data s : List Byte) (hs : SignDataWithRSA randReader data sk = .ok s) :
    VerifySignatureWithRSA data s sk.PublicKey = none := by
  obtain ⟨hk, rfl⟩ := (SignDataWithRSA_ok_iff h randReader data s).1 hs
  rw [VerifySignatureWithRSA_eq]
  exact rsa.Verify_signature h _ (sha256.Sum256_length _) hk

/-- C1: for every message and every key pair returned together by a successful
`GenerateRSAKeyPair`, `SignDataWithRSA` succeeds with some signature `s`, whatever the random
source yields, and `VerifySignatureWithRSA` of the message, `s` and the public key returns no
error. -/
theorem sign_then_verify (GenerateKey : Int → Except Error rsa.PrivateKey) (bits : Int)
    (sk : rsa.PrivateKey) (pk : rsa.PublicKey) (randReader : List Nat) (data : List Byte)
    (hgen : GenerateRSAKeyPair GenerateKey bits = .ok (sk, pk))
    (hkey : rsa.GeneratedKey bits sk) :
    ∃ s, SignDataWithRSA randReader data sk = .ok s ∧
      VerifySignatureWithRSA data s pk = none := by
  obtain ⟨_, rfl⟩ := GenerateRSAKeyPair_ok hgen
  have hk := bits_generated hkey
  have hs := (SignDataWithRSA_ok_iff hkey.2.2.1 randReader data _).2 ⟨hk, rfl⟩
  exact ⟨_, hs, verify_own_signature hkey.2.2.1 randReader data _ hs⟩

/-- C1, at the 2048-bit key pair and the message "hello world", with a random source that
yields 0 and then 12345: the signature is the one OpenSSL makes, and it verifies. -/
theorem sign_then_verify_witness :
    GenerateRSAKeyPair (fun _ => .ok keys.key2048) 2048 =
      .ok (keys.key2048, keys.key2048.PublicKey) ∧
    rsa.GeneratedKey 2048 keys.key2048 ∧
    SignDataWithRSA [0, 12345] keys.helloWorld keys.key2048 = .ok keys.sigHello ∧
    VerifySignatureWithRSA keys.helloWorld keys.sigHello keys.key2048.PublicKey = none ∧
    ∃ s, SignDataWithRSA [0, 12345] keys.helloWorld keys.key2048 = .ok s ∧
      VerifySignatureWithRSA keys.helloWorld s keys.key2048.PublicKey = none :=
  ⟨rfl, keys.key2048_generated, by decide!, by decide!,
    sign_then_verify (fun _ => .ok keys.key2048) 2048 keys.key2048 keys.key2048.PublicKey
      [0, 12345] keys.helloWorld rfl keys.key2048_generated⟩

/-- C9: `SignDataWithRSA` is reproducible. For every structurally valid private key and every
message, two calls return the same result whatever the random source yields in each; a
returned signature is the signature RSASSA-PKCS1-V1_5-SIGN of RFC 8017 gives for the SHA-256
digest of the message under the key `(N, D)`; and a signature is returned whenever the
modulus has at least 1024 bits. -/
theorem sign_reproducible (sk : rsa.PrivateKey) (data : List Byte) (random1 random2 : List Nat)
    (hsk : sk.WellFormed) :
    SignDataWithRSA random1 data sk = SignDataWithRSA random2 data sk ∧
    (∀ s, SignDataWithRSA random1 data sk = .ok s →
      rfc8017.RSASSA_PKCS1_V1_5_SIGN sk.PublicKey.N sk.D (sha256.Sum256 data) = some s) ∧
    (1024 ≤ big.BitLen sk.PublicKey.N →
      ∃ s, SignDataWithRSA random1 data sk = .ok s) := by
  refine ⟨?_, ?_, fun hk => ⟨_, (SignDataWithRSA_ok_iff hsk _ _ _).2 ⟨hk, rfl⟩⟩⟩
  · by_cases hk : 1024 ≤ big.BitLen sk.PublicKey.N
    · rw [(SignDataWithRSA_ok_iff hsk random1 data _).2 ⟨hk, rfl⟩,
        (SignDataWithRSA_ok_iff hsk random2 data _).2 ⟨hk, rfl⟩]
    · rfl
  · intro s hs
    obtain ⟨hk, rfl⟩ := (SignDataWithRSA_ok_iff hsk _ _ _).1 hs
    exact rfc8017.SIGN_eq _ _ _ (sha256.Sum256_length _)
      (by show 62 ≤ (big.BitLen sk.PublicKey.N + 7) / 8; omega)

/-- C9, at the 2048-bit key and "hello world", for a source that is not drawn from and a
source that yields 0, 12345 and 7: both calls return the signature OpenSSL makes, which is
the signature of RFC 8017. -/
theorem sign_reproducible_witness :
    keys.key2048.WellFormed ∧
    SignDataWithRSA [] keys.helloWorld keys.key2048 =
      SignDataWithRSA [0, 12345, 7] keys.helloWorld keys.key2048 ∧
    SignDataWithRSA [] keys.helloWorld keys.key2048 = .ok keys.sigHello ∧
    rfc8017.RSASSA_PKCS1_V1_5_SIGN keys.key2048.PublicKey.N keys.key2048.D
      (sha256.Sum256 keys.helloWorld) = some keys.sigHello :=
  ⟨keys.key2048_wellFormed,
    (sign_reproducible keys.key2048 keys.helloWorld [] [0, 12345, 7] keys.key2048_wellFormed).1,
    by decide!,
    (sign_reproducible keys.key2048 keys.helloWorld [] [0, 12345, 7]
      keys.key2048_wellFormed).2.1 keys.sigHello (by decide!)⟩

/-- C4, as stated, fails: among the infinitely many messages two different ones share a
SHA-256 digest, and a signature of one verifies for the other. -/
theorem verify_accepts_colliding_message :
    ∃ m1 m2 : List Byte, m1 ≠ m2 ∧ ∃ s,
      GenerateRSAKeyPair (fun _ => .ok keys.key2048) 2048 =
        .ok (keys.key2048, keys.key2048.PublicKey) ∧
      rsa.GeneratedKey 2048 keys.key2048 ∧
      SignDataWithRSA [] m2 keys.key2048 = .ok s ∧
      VerifySignatureWithRSA m1 s keys.key2048.PublicKey = none := by
  obtain ⟨m1, m2, hne, heq⟩ := exists_collision
  have hk : 1024 ≤ big.BitLen keys.key2048.PublicKey.N := by decide!
  have hs := (SignDataWithRSA_ok_iff keys.key2048_wellFormed [] m2 _).2 ⟨hk, rfl⟩
  refine ⟨m1, m2, hne, _, rfl, keys.key2048_generated, hs, ?_⟩
  rw [VerifySignatureWithRSA_eq, heq]
  exact rsa.Verify_signature keys.key2048_wellFormed _ (sha256.Sum256_length _) hk

/-- C4 (amended): for every key pair generated together and all messages `m1`, `m2` whose
SHA-256 digests differ, `VerifySignatureWithRSA(m1, s, pk)` returns an error for the signature
`s` that `SignDataWithRSA(m2, sk)` returns. -/
theorem verify_rejects_other_digest (GenerateKey : Int → Except Error rsa.PrivateKey)
    (bits : Int) (sk : rsa.PrivateKey) (pk : rsa.PublicKey) (randReader : List Nat)
    (m1 m2 s : List Byte)
    (hgen : GenerateRSAKeyPair GenerateKey bits = .ok (sk, pk))
    (hkey : rsa.GeneratedKey bits sk)
    (hne : sha256.Sum256 m1 ≠ sha256.Sum256 m2)
    (hs : SignDataWithRSA randReader m2 sk = .ok s) :
    VerifySignatureWithRSA m1 s pk ≠ none := by
  obtain ⟨_, rfl⟩ := GenerateRSAKeyPair_ok hgen
  have hwf := hkey.2.2.1
  obtain ⟨hk, rfl⟩ := (SignDataWithRSA_ok_iff hwf randReader m2 s).1 hs
  rw [VerifySignatureWithRSA_eq]
  intro hv
  obtain ⟨_, _, _, _, he1⟩ :=
    (rsa.VerifyPKCS1v15_eq_none_iff _ _ _ (sha256.Sum256_length m1)).1 hv
  obtain ⟨_, _, _, _, he2⟩ :=
    (rsa.VerifyPKCS1v15_eq_none_iff _ _ _ (sha256.Sum256_length m2)).1
      (rsa.Verify_signature hwf _ (sha256.Sum256_length m2) hk)
  exact hne (fips140.rsa.encodedMessage_inj _ _ _ _
    (by rw [sha256.Sum256_length, sha256.Sum256_length]) (he1.symm.trans he2))

/-- C4 (amended), at the 2048-bit key pair: the signature of "hello world" is rejected for
"hello worlds". -/
theorem verify_rejects_other_digest_witness :
    SignDataWithRSA [] keys.helloWorld keys.key2048 = .ok keys.sigHello ∧
    sha256.Sum256 (strBytes "hello worlds") ≠ sha256.Sum256 keys.helloWorld ∧
    VerifySignatureWithRSA (strBytes "hello worlds") keys.sigHello keys.key2048.PublicKey ≠
      none :=
  ⟨by decide!, by decide!,
    verify_rejects_other_digest (fun _ => .ok keys.key2048) 2048 keys.key2048
      keys.key2048.PublicKey [] (strBytes "hello worlds") keys.helloWorld keys.sigHello rfl
      keys.key2048_generated (by decide!) (by decide!)⟩

/-- C5: for every key pair generated together and every message, if `SignDataWithRSA`
returns the signature `s` and `s'` has the length of `s` and differs from it in exactly one
byte, then `VerifySignatureWithRSA(m, s', pk)` returns an error. -/
theorem verify_rejects_flipped_byte (GenerateKey : Int → Except Error rsa.PrivateKey)
    (bits : Int) (sk : rsa.PrivateKey) (pk : rsa.PublicKey) (randReader : List Nat)
    (m s s' : List Byte)
    (hgen : GenerateRSAKeyPair GenerateKey bits = .ok (sk, pk))
    (hkey : rsa.GeneratedKey bits sk)
    (hs : SignDataWithRSA randReader m sk = .ok s)
    (hd : differsInOneByte s s') :
    VerifySignatureWithRSA m s' pk ≠ none := by
  obtain ⟨_, rfl⟩ := GenerateRSAKeyPair_ok hgen
  have hwf := hkey.2.2.1
  obtain ⟨hk, rfl⟩ := (SignDataWithRSA_ok_iff hwf randReader m s).1 hs
  rw [VerifySignatureWithRSA_eq]
  intro hv
  obtain ⟨_, he⟩ := rsa.accepted_eq hwf _ _ (sha256.Sum256_length m) hv
  exact differsInOneByte_ne _ _ hd he.symm

/-- C5, at the scenario of the specification: the 2048-bit key pair, the message
"hello world", and its signature with the first byte replaced by 0. -/
theorem verify_rejects_flipped_byte_witness :
    SignDataWithRSA [] keys.helloWorld keys.key2048 = .ok keys.sigHello ∧
    differsInOneByte keys.sigHello (keys.sigHello.set 0 0) ∧
    VerifySignatureWithRSA keys.helloWorld keys.sigHello keys.key2048.PublicKey = none ∧
    VerifySignatureWithRSA keys.helloWorld (keys.sigHello.set 0 0) keys.key2048.PublicKey ≠
      none :=
  ⟨by decide!, by decide!, by decide!,
    verify_rejects_flipped_byte (fun _ => .ok keys.key2048) 2048 keys.key2048
      keys.key2048.PublicKey [] keys.helloWorld keys.sigHello (keys.sigHello.set 0 0) rfl
      keys.key2048_generated (by decide!) (by decide!)⟩

end digital_signatures

/-! ## Claims about PEM export and import -/

namespace digital_signatures

theorem type_labels :
    (∀ c ∈ strBytes "RSA PRIVATE KEY", c ≠ (0x0a : Byte) ∧ c ≠ 0x3a) ∧
    (∀ c ∈ strBytes "PUBLIC KEY", c ≠ (0x0a : Byte) ∧ c ≠ 0x3a) := by decide!

/-- Setting the precomputed values does not change the module's key that signing uses. -/
theorem fipsPrivateKey_Precompute (sk : rsa.PrivateKey) :
    rsa.fipsPrivateKey sk.Precompute = rsa.fipsPrivateKey sk := by
  unfold rsa.fipsPrivateKey rsa.PrivateKey.Precompute
  cases hpc : sk.precompute with
  | error e => simp only [hpc]
  | ok r =>
    obtain ⟨pre, k⟩ := r
    simp only [rsa.PrivateKey.precompute_Precompute hpc]

theorem Precompute_fields (sk : rsa.PrivateKey) :
    sk.Precompute.PublicKey = sk.PublicKey ∧ sk.Precompute.D = sk.D ∧
    sk.Precompute.P = sk.P ∧ sk.Precompute.Q = sk.Q := by
  unfold rsa.PrivateKey.Precompute
  split <;> exact ⟨rfl, rfl, rfl, rfl⟩

/-- Export then import gives back a key that passes `Validate`, with its precomputed values
set. -/
theorem import_export_private (sk : rsa.PrivateKey) (hsk : sk.Validate = none)
    (hN : big.BitLen sk.PublicKey.N ≤ 2 ^ 27) :
    ImportRSAPrivateKeyFromPEM
      (pem.EncodeToMemory (strBytes "RSA PRIVATE KEY") (x509.MarshalPKCS1PrivateKey sk)) =
      .ok sk.Precompute := by
  unfold ImportRSAPrivateKeyFromPEM
  rw [pem.Decode_EncodeToMemory _ _ type_labels.1]
  simp only
  rw [x509.ParsePKCS1PrivateKey_Marshal hsk hN]

/-- C2: for every structurally valid RSA private key `sk`, one that `Validate` accepts, with
prime factors and a private exponent inverse to the public one (and a modulus of at most
`2 ^ 27` bits, far beyond any key in use), `ExportRSAPrivateKeyToPEM(sk)` succeeds and
`ImportRSAPrivateKeyFromPEM` of its output succeeds and returns a key with the modulus, the
public exponent, the private exponent and the prime factors of `sk`, which signs every message
exactly as `sk` does. -/
theorem private_key_round_trip (sk : rsa.PrivateKey) (hsk : sk.WellFormed)
    (hN : big.BitLen sk.PublicKey.N ≤ 2 ^ 27) :
    ∃ keyPEM sk', ExportRSAPrivateKeyToPEM sk = .ok keyPEM ∧
      ImportRSAPrivateKeyFromPEM keyPEM = .ok sk' ∧
      sk'.PublicKey.N = sk.PublicKey.N ∧ sk'.PublicKey.E = sk.PublicKey.E ∧ sk'.D = sk.D ∧
      sk'.P = sk.P ∧ sk'.Q = sk.Q ∧
      ∀ (randReader : List Nat) (data : List Byte),
        SignDataWithRSA randReader data sk' = SignDataWithRSA randReader data sk := by
  obtain ⟨h1, h2, h3, h4⟩ := Precompute_fields sk
  refine ⟨_, sk.Precompute, rfl, import_export_private sk hsk.1 hN, by rw [h1], by rw [h1], h2,
    h3, h4, ?_⟩
  intro randReader data
  rw [SignDataWithRSA_eq, SignDataWithRSA_eq]
  unfold rsa.SignPKCS1v15
  rw [fipsPrivateKey_Precompute, h1]

/-- C2, at the 2048-bit key; and, evaluated, at the 128-bit key without its precomputed
values: the import of the exported text gives the key with its precomputed values. -/
theorem private_key_round_trip_witness :
    keys.key2048.WellFormed ∧ big.BitLen keys.key2048.PublicKey.N ≤ 2 ^ 27 ∧
    (∃ keyPEM sk', ExportRSAPrivateKeyToPEM keys.key2048 = .ok keyPEM ∧
      ImportRSAPrivateKeyFromPEM keyPEM = .ok sk' ∧
      sk'.PublicKey.N = keys.key2048.PublicKey.N ∧ sk'.PublicKey.E = keys.key2048.PublicKey.E ∧
      sk'.D = keys.key2048.D ∧ sk'.P = keys.key2048.P ∧ sk'.Q = keys.key2048.Q ∧
      ∀ (randReader : List Nat) (data : List Byte),
        SignDataWithRSA randReader data sk' = SignDataWithRSA randReader data keys.key2048) ∧
    ImportRSAPrivateKeyFromPEM (pem.EncodeToMemory (strBytes "RSA PRIVATE KEY")
      (x509.MarshalPKCS1PrivateKey { keys.key128 with Precomputed := ⟨none, none, none⟩ })) =
      .ok keys.key128 :=
  ⟨keys.key2048_wellFormed, by decide!,
    private_key_round_trip keys.key2048 keys.key2048_wellFormed (by decide!), by decide!⟩

/-- C3: for every RSA public key `pk` with a positive modulus (of at most `2 ^ 27` bits) and a
positive exponent (a Go `int`: below `2 ^ 63`), `ExportRSAPublicKeyToPEM(pk)` succeeds and
`ImportRSAPublicKeyFromPEM` of its output succeeds and returns a key with the modulus and the
exponent of `pk`, so that it accepts and rejects the same (message, signature) pairs. -/
theorem public_key_round_trip (pk : rsa.PublicKey) (hN : 0 < pk.N) (hE : 0 < pk.E)
    (hE63 : pk.E < 2 ^ 63) (hbits : big.BitLen pk.N ≤ 2 ^ 27) :
    ∃ keyPEM pk', ExportRSAPublicKeyToPEM pk = .ok keyPEM ∧
      ImportRSAPublicKeyFromPEM keyPEM = .ok pk' ∧ pk'.N = pk.N ∧ pk'.E = pk.E ∧
      ∀ data signature : List Byte,
        VerifySignatureWithRSA data signature pk' = VerifySignatureWithRSA data signature pk := by
  obtain ⟨der, hm, hp⟩ := x509.ParsePKIXPublicKey_Marshal pk hN hE hE63 hbits
  refine ⟨pem.EncodeToMemory (strBytes "PUBLIC KEY") der, pk, ?_, ?_, rfl, rfl, fun _ _ => rfl⟩
  · unfold ExportRSAPublicKeyToPEM
    rw [hm]
  · unfold ImportRSAPublicKeyFromPEM
    rw [pem.Decode_EncodeToMemory _ _ type_labels.2]
    simp only
    rw [hp]

/-- C3, at the public key of the 2048-bit key. -/
theorem public_key_round_trip_witness :
    0 < keys.key2048.PublicKey.N ∧ 0 < keys.key2048.PublicKey.E ∧
    keys.key2048.PublicKey.E < 2 ^ 63 ∧ big.BitLen keys.key2048.PublicKey.N ≤ 2 ^ 27 ∧
    ∃ keyPEM pk', ExportRSAPublicKeyToPEM keys.key2048.PublicKey = .ok keyPEM ∧
      ImportRSAPublicKeyFromPEM keyPEM = .ok pk' ∧ pk'.N = keys.key2048.PublicKey.N ∧
      pk'.E = keys.key2048.PublicKey.E ∧
      ∀ data signature : List Byte,
        VerifySignatureWithRSA data signature pk' =
          VerifySignatureWithRSA data signature keys.key2048.PublicKey :=
  ⟨by decide!, by decide!, by decide!, by decide!,
    public_key_round_trip keys.key2048.PublicKey (by decide!) (by decide!) (by decide!)
      (by decide!)⟩

/-- C7: for every input in which `pem.Decode` finds no block, `ImportRSAPrivateKeyFromPEM` and
`ImportRSAPublicKeyFromPEM` both return no key and the error "invalid PEM block". -/
theorem import_rejects_non_pem (keyPEM : List Byte) (hnone : pem.Decode keyPEM = none) :
    ImportRSAPrivateKeyFromPEM keyPEM = .error (.new "invalid PEM block") ∧
    ImportRSAPublicKeyFromPEM keyPEM = .error (.new "invalid PEM block") := by
  unfold ImportRSAPrivateKeyFromPEM ImportRSAPublicKeyFromPEM
  rw [hnone]
  exact ⟨rfl, rfl⟩

/-- C7, at the text "hello world" and at a text with a BEGIN line but no END line. -/
theorem import_rejects_non_pem_witness :
    pem.Decode keys.helloWorld = none ∧
    ImportRSAPrivateKeyFromPEM keys.helloWorld = .error (.new "invalid PEM block") ∧
    ImportRSAPublicKeyFromPEM keys.helloWorld = .error (.new "invalid PEM block") ∧
    ImportRSAPublicKeyFromPEM (strBytes "-----BEGIN PUBLIC KEY-----\nMFww\n") =
      .error (.new "invalid PEM block") :=
  ⟨by decide!, (import_rejects_non_pem keys.helloWorld (by decide!)).1,
    (import_rejects_non_pem keys.helloWorld (by decide!)).2,
    (import_rejects_non_pem (strBytes "-----BEGIN PUBLIC KEY-----\nMFww\n") (by decide!)).2⟩

/-- C8: when the body of the first PEM block parses as a PKIX public key that is not an RSA
key, `ImportRSAPublicKeyFromPEM` returns no key and the error "not an RSA public key"; that
error is not the malformed-PEM error and is never an error of the DER parser; and a key is
returned only when the body parses as an RSA public key, which is then the key returned. -/
theorem import_rejects_non_rsa_key (keyPEM : List Byte) :
    (∀ (pemBlock : pem.Block) (publicKey : x509.PublicKey),
      pem.Decode keyPEM = some pemBlock →
      x509.ParsePKIXPublicKey pemBlock.Bytes = .ok publicKey →
      (∀ rsaPublicKey, publicKey ≠ .rsa rsaPublicKey) →
      ImportRSAPublicKeyFromPEM keyPEM = .error (.new "not an RSA public key")) ∧
    Error.new "not an RSA public key" ≠ Error.new "invalid PEM block" ∧
    (∀ (der : List Byte) (err : Error), x509.ParsePKIXPublicKey der = .error err →
      err ≠ Error.new "not an RSA public key") ∧
    (∀ rsaPublicKey, ImportRSAPublicKeyFromPEM keyPEM = .ok rsaPublicKey →
      ∃ pemBlock, pem.Decode keyPEM = some pemBlock ∧
        x509.ParsePKIXPublicKey pemBlock.Bytes = .ok (.rsa rsaPublicKey)) := by
  refine ⟨?_, by decide, ?_, ?_⟩
  · intro pemBlock publicKey h1 h2 h3
    unfold ImportRSAPublicKeyFromPEM
    rw [h1]
    simp only
    rw [h2]
    cases publicKey with
    | rsa k => exact absurd rfl (h3 k)
    | dsa _ _ _ _ => rfl
    | ecdsa _ _ _ => rfl
    | ed25519 _ => rfl
    | ecdh _ => rfl
  · intro der err h he
    obtain ⟨msg, hm⟩ := x509.ParsePKIXPublicKey_lib der err h
    rw [hm] at he
    cases he
  · intro k h
    unfold ImportRSAPublicKeyFromPEM at h
    cases hd : pem.Decode keyPEM with
    | none =>
      rw [hd] at h
      cases h
    | some pemBlock =>
      rw [hd] at h
      refine ⟨pemBlock, rfl, ?_⟩
      simp only at h
      cases hp : x509.ParsePKIXPublicKey pemBlock.Bytes with
      | error err =>
        rw [hp] at h
        cases h
      | ok publicKey =>
        rw [hp] at h
        cases publicKey with
        | rsa k' =>
          simp only [Except.ok.injEq] at h
          rw [h]
        | dsa _ _ _ _ => cases h
        | ecdsa _ _ _ => cases h
        | ed25519 _ => cases h
        | ecdh _ => cases h

/-- C8, at a PEM text that holds an elliptic-curve (P-256) public key. -/
theorem import_rejects_non_rsa_key_witness :
    (pem.Decode keys.ecPublicKeyPEM).map (fun b => x509.ParsePKIXPublicKey b.Bytes) =
      some (.ok (.ecdsa .P256
        58399383063948869171142915804350390848120366096584364562396901327304803212854
        85895673703349102474586710408174768566931735707075937781420706074976612308853)) ∧
    ImportRSAPublicKeyFromPEM keys.ecPublicKeyPEM = .error (.new "not an RSA public key") := by
  have hp : (pem.Decode keys.ecPublicKeyPEM).map (fun b => x509.ParsePKIXPublicKey b.Bytes) =
      some (.ok (.ecdsa .P256
        58399383063948869171142915804350390848120366096584364562396901327304803212854
        85895673703349102474586710408174768566931735707075937781420706074976612308853)) := by
    decide!
  refine ⟨hp, ?_⟩
  cases hd : pem.Decode keys.ecPublicKeyPEM with
  | none =>
    rw [hd] at hp
    cases hp
  | some pemBlock =>
    rw [hd] at hp
    simp only [Option.map_some', Option.some.injEq] at hp
    exact (import_rejects_non_rsa_key keys.ecPublicKeyPEM).1 pemBlock _ hd hp
      (fun _ h => by cases h)

/-- C10: the import functions never look at the type label of the PEM block. For two PEM
texts whose first blocks carry the same body bytes, whatever their type labels and headers,
`ImportRSAPrivateKeyFromPEM` returns the same result on both, and so does
`ImportRSAPublicKeyFromPEM`. -/
theorem import_ignores_type_label (keyPEM1 keyPEM2 : List Byte) (block1 block2 : pem.Block)
    (h1 : pem.Decode keyPEM1 = some block1) (h2 : pem.Decode keyPEM2 = some block2)
    (hbody : block1.Bytes = block2.Bytes) :
    ImportRSAPrivateKeyFromPEM keyPEM1 = ImportRSAPrivateKeyFromPEM keyPEM2 ∧
    ImportRSAPublicKeyFromPEM keyPEM1 = ImportRSAPublicKeyFromPEM keyPEM2 := by
  unfold ImportRSAPrivateKeyFromPEM ImportRSAPublicKeyFromPEM
  rw [h1, h2]
  simp only [hbody, and_self]

/-- C10, at the 128-bit private key in a container labelled "RSA PRIVATE KEY" and in one
labelled "PUBLIC KEY": the private key is accepted from both. -/
theorem import_ignores_type_label_witness :
    pem.Decode keys.key128PEM =
      some ⟨strBytes "RSA PRIVATE KEY", [], x509.MarshalPKCS1PrivateKey keys.key128⟩ ∧
    pem.Decode keys.key128OtherLabelPEM =
      some ⟨strBytes "PUBLIC KEY", [], x509.MarshalPKCS1PrivateKey keys.key128⟩ ∧
    ImportRSAPrivateKeyFromPEM keys.key128PEM =
      ImportRSAPrivateKeyFromPEM keys.key128OtherLabelPEM ∧
    ImportRSAPublicKeyFromPEM keys.key128PEM =
      ImportRSAPublicKeyFromPEM keys.key128OtherLabelPEM ∧
    ImportRSAPrivateKeyFromPEM keys.key128OtherLabelPEM = .ok keys.key128 :=
  ⟨by decide!, by decide!,
    (import_ignores_type_label keys.key128PEM keys.key128OtherLabelPEM
      ⟨strBytes "RSA PRIVATE KEY", [], x509.MarshalPKCS1PrivateKey keys.key128⟩
      ⟨strBytes "PUBLIC KEY", [], x509.MarshalPKCS1PrivateKey keys.key128⟩
      (by decide!) (by decide!) rfl).1,
    (import_ignores_type_label keys.key128PEM keys.key128OtherLabelPEM
      ⟨strBytes "RSA PRIVATE KEY", [], x509.MarshalPKCS1PrivateKey keys.key128⟩
      ⟨strBytes "PUBLIC KEY", [], x509.MarshalPKCS1PrivateKey keys.key128⟩
      (by decide!) (by decide!) rfl).2,
    by decide!⟩

end digital_signatures
